import Mathlib

set_option linter.unreachableTactic false
set_option linter.unusedTactic false
set_option linter.unnecessarySeqFocus false

/-!
# Verification of `ext/bg/js/json-schema.js` (Yomichan)

A shallow embedding of the JSON-schema validation / default-population /
validating-proxy module, together with theorems settling the frozen claims.

Modelling conventions:

* JavaScript values handled by this module (`null`, `undefined`, booleans,
  numbers, strings, arrays, string-keyed objects) are modelled by the
  inductive `Value`.  Numbers are modelled by `ℚ` (`Math.floor` becomes
  `Rat.floor`); `NaN`/`±Infinity` corners are outside the model.
* JavaScript arrays may additionally carry non-index string properties
  (`arr[\x7bfoo\x7d] = v`), which the proxy's `set` trap stores without
  validation, so `Value.arr` carries a list of named properties besides its
  elements.  Symbol-keyed properties never occur on the JSON-derived trees
  this module governs, so they are not represented.
* JavaScript objects have distinct own property names; `Value.WF` states that
  invariant for theorems whose proofs need it.
* Schema documents are modelled well-formed: a present schema field holds the
  shape the code expects (e.g. `properties` maps names to schema objects), so
  the source's `isObject`/`Array.isArray` guards on present fields hold by
  construction.  Absent fields are `none`.
-/

namespace Yomichan

/-- A JavaScript value as handled by `json-schema.js`.
`undef` is JavaScript `undefined` (e.g. reading a missing property).
`arr` carries the array elements plus any non-index string-keyed properties
(assigned by the proxy's raw-write branch); plain data has `props = []`. -/
inductive Value where
  | undef
  | null
  | bool (b : Bool)
  | num (q : ℚ)
  | str (s : String)
  | arr (elems : List Value) (props : List (String × Value))
  | obj (fields : List (String × Value))

/-- `JsonSchemaValidator.getValueType` (json-schema.js:499-506): `typeof`,
refined to `"null"` for `null` and `"array"` for arrays. -/
def getValueType : Value → String
  | .undef => "undefined"
  | .null => "null"
  | .bool _ => "boolean"
  | .num _ => "number"
  | .str _ => "string"
  | .arr _ _ => "array"
  | .obj _ => "object"

/-- `Math.floor(value) === value`, the integer test from
`JsonSchemaValidator.isValueType` (json-schema.js:495).  For a non-number
`value`, `Math.floor` coerces its argument and returns a number (or `NaN`),
and the strict `===` against the original non-number is then always `false`,
so only integral numbers pass. -/
def jsFloorEqSelf : Value → Bool
  | .num q => q.floor = q
  | _ => false

/-- `JsonSchemaValidator.isValueType` (json-schema.js:492-497). -/
def isValueType (value : Value) (type schemaType : String) : Bool :=
  type == schemaType || (schemaType == "integer" && jsFloorEqSelf value)

/-- The `type` field of a schema: absent, a single type name, or a list of
type names (json-schema.js handles both via `Array.isArray`). -/
abbrev TypeSpec := Option (String ⊕ List String)

/-- `JsonSchemaValidator.isValueTypeAny` (json-schema.js:478-490): a single
schema type name is checked directly, a list succeeds if any entry matches,
and an absent (or non-string, non-array) `type` constrains nothing. -/
def isValueTypeAny (value : Value) (type : String) (schemaTypes : TypeSpec) : Bool :=
  match schemaTypes with
  | some (.inl s) => isValueType value type s
  | some (.inr l) => l.any (fun s => isValueType value type s)
  | none => true

/-- The fields of a schema document, parametric in the schema type so that
`Schema` below can tie the recursive knot.  Every field is optional (`none`
models an absent key).  `additionalProperties` / `additionalItems` may be the
boolean `false` (no schema governs extra members) or a sub-schema; a literal
`true` behaves like an absent field in the source (the `isObject` test at
json-schema.js:148/176 fails and the unconstrained fallback is used).
`if`/`then`/`else` are Lean keywords, hence `ifSchema`/`thenSchema`/`elseSchema`. -/
structure SchemaF (S : Type) where
  type : TypeSpec := none
  const : Option Value := none
  enum : Option (List Value) := none
  default : Option Value := none
  properties : Option (List (String × S)) := none
  additionalProperties : Option (Bool ⊕ S) := none
  required : Option (List String) := none
  minProperties : Option ℚ := none
  maxProperties : Option ℚ := none
  items : Option (S ⊕ List S) := none
  additionalItems : Option (Bool ⊕ S) := none
  minItems : Option ℚ := none
  maxItems : Option ℚ := none
  minLength : Option ℚ := none
  maxLength : Option ℚ := none
  pattern : Option String := none
  patternFlags : Option String := none
  multipleOf : Option ℚ := none
  minimum : Option ℚ := none
  exclusiveMinimum : Option ℚ := none
  maximum : Option ℚ := none
  exclusiveMaximum : Option ℚ := none
  ifSchema : Option S := none
  thenSchema : Option S := none
  elseSchema : Option S := none
  allOf : Option (List S) := none
  anyOf : Option (List S) := none
  oneOf : Option (List S) := none
  not : Option (List S) := none

/-- A schema document (read-only for the duration of a call). -/
inductive Schema where
  | mk (f : SchemaF Schema)

/-- The field record of a schema. -/
def Schema.f : Schema → SchemaF Schema
  | .mk f => f

def Schema.type (s : Schema) : TypeSpec := s.f.type

def Schema.const (s : Schema) : Option Value := s.f.const

def Schema.enum (s : Schema) : Option (List Value) := s.f.enum

def Schema.default (s : Schema) : Option Value := s.f.default

def Schema.properties (s : Schema) : Option (List (String × Schema)) := s.f.properties

def Schema.additionalProperties (s : Schema) : Option (Bool ⊕ Schema) := s.f.additionalProperties

def Schema.required (s : Schema) : Option (List String) := s.f.required

def Schema.minProperties (s : Schema) : Option ℚ := s.f.minProperties

def Schema.maxProperties (s : Schema) : Option ℚ := s.f.maxProperties

def Schema.items (s : Schema) : Option (Schema ⊕ List Schema) := s.f.items

def Schema.additionalItems (s : Schema) : Option (Bool ⊕ Schema) := s.f.additionalItems

def Schema.minItems (s : Schema) : Option ℚ := s.f.minItems

def Schema.maxItems (s : Schema) : Option ℚ := s.f.maxItems

def Schema.minLength (s : Schema) : Option ℚ := s.f.minLength

def Schema.maxLength (s : Schema) : Option ℚ := s.f.maxLength

def Schema.pattern (s : Schema) : Option String := s.f.pattern

def Schema.patternFlags (s : Schema) : Option String := s.f.patternFlags

def Schema.multipleOf (s : Schema) : Option ℚ := s.f.multipleOf

def Schema.minimum (s : Schema) : Option ℚ := s.f.minimum

def Schema.exclusiveMinimum (s : Schema) : Option ℚ := s.f.exclusiveMinimum

def Schema.maximum (s : Schema) : Option ℚ := s.f.maximum

def Schema.exclusiveMaximum (s : Schema) : Option ℚ := s.f.exclusiveMaximum

def Schema.ifSchema (s : Schema) : Option Schema := s.f.ifSchema

def Schema.thenSchema (s : Schema) : Option Schema := s.f.thenSchema

def Schema.elseSchema (s : Schema) : Option Schema := s.f.elseSchema

def Schema.allOf (s : Schema) : Option (List Schema) := s.f.allOf

def Schema.anyOf (s : Schema) : Option (List Schema) := s.f.anyOf

def Schema.oneOf (s : Schema) : Option (List Schema) := s.f.oneOf

def Schema.notSchemas (s : Schema) : Option (List Schema) := s.f.not

/-- `JsonSchemaValidator.unconstrainedSchema` (json-schema.js:620-625): the
frozen zero-field schema returned when no tighter schema is declared. -/
def unconstrainedSchema : Schema := .mk {}

/-! ## JavaScript object/array access helpers -/

/-- Look up an own property of an object's field list (first occurrence;
JavaScript objects have distinct own property names, see `Value.WF`). -/
def lookupField : List (String × Value) → String → Option Value
  | [], _ => none
  | (k, v) :: rest, p => if k = p then some v else lookupField rest p

/-- `value[property] = x`: replace the first binding of the key, or append a
new binding (JavaScript property creation order). -/
def setField : List (String × Value) → String → Value → List (String × Value)
  | [], p, x => [(p, x)]
  | (k, v) :: rest, p, x => if k = p then (p, x) :: rest else (k, v) :: setField rest p x

/-- `Reflect.deleteProperty(value, property)`: the key is removed. -/
def deleteField (fields : List (String × Value)) (p : String) : List (String × Value) :=
  fields.filter (fun kv => kv.1 ≠ p)

/-- Schema lookup in a `properties` map (`properties[property]`,
json-schema.js:138). -/
def lookupSchemaProp : List (String × Schema) → String → Option Schema
  | [], _ => none
  | (k, v) :: rest, p => if k = p then some v else lookupSchemaProp rest p

/-- `value[property]` for a string key: a missing property reads as
`undefined`; `length` on an array reads the element count. -/
def jsGetProp (v : Value) (p : String) : Value :=
  match v with
  | .obj fields => (lookupField fields p).getD .undef
  | .arr elems props => if p = "length" then .num elems.length else (lookupField props p).getD .undef
  | _ => (.undef)

/-- `value[i]` for a numeric index on an array (out of range reads as
`undefined`). -/
def jsIndex (v : Value) (i : Nat) : Value :=
  match v with
  | .arr elems _ => (elems[i]?).getD .undef
  | _ => (.undef)

/-- The second component of a pair in a list is smaller than the list
(used for termination of recursion over field lists). -/
theorem sizeOf_snd_lt_of_mem {α β : Type} [SizeOf α] [SizeOf β] {kv : α × β}
    {l : List (α × β)} (h : kv ∈ l) : sizeOf kv.2 < sizeOf l := by
  have h1 := List.sizeOf_lt_of_mem h
  have h2 : sizeOf kv.2 < sizeOf kv := by
    cases kv
    simp
  omega

/-- Distinct own property names, recursively (every JavaScript object has
them; values built by this module preserve them). -/
def Value.WF : Value → Prop
  | .undef | .null | .bool _ | .num _ | .str _ => True
  | .arr elems props =>
      (props.map Prod.fst).Nodup ∧ (∀ x ∈ elems, x.WF) ∧ (∀ kv ∈ props, kv.2.WF)
  | .obj fields => (fields.map Prod.fst).Nodup ∧ ∀ kv ∈ fields, kv.2.WF
  decreasing_by
    all_goals simp_wf
    all_goals first
      | (rename_i h; have := List.sizeOf_lt_of_mem h; omega)
      | (rename_i h; have := sizeOf_snd_lt_of_mem h; omega)

/-! ## Schema resolution (`getPropertySchema` / `getSchemaOrValueType`) -/

/-- A property key as passed to `getPropertySchema`: a string (object
properties) or a non-negative integer (array indices).  Symbol keys are never
passed here: the proxy's `get` trap returns before resolution for symbols
(json-schema.js:58-60), and the governed trees carry no symbol keys. -/
inductive PropName where
  | strKey (s : String)
  | idxKey (n : Nat)

/-- The string a key coerces to when used to index a plain object
(JavaScript coerces numbers to their decimal string). -/
def PropName.asObjectKey : PropName → String
  | .strKey s => s
  | .idxKey n => toString n

/-- The array index a key denotes in the tuple test
`property >= 0 && property < items.length` followed by `items[property]`
(json-schema.js:164-165).  A number is itself; a string denotes an index only
when it is the canonical decimal numeral of one (for a non-canonical numeric
string such as `"007"` or `"2.5"` the JS bound check may pass by coercion but
`items[property]` is then an absent string key, so the code falls through to
`additionalItems` — the same outcome this model gives). -/
def PropName.asArrayIndex : PropName → Option Nat
  | .idxKey n => some n
  | .strKey s =>
      match s.toNat? with
      | some n => if toString n = s then some n else none
      | none => none

/-- A segment of a `TraversalInfo` path: a string key, a numeric index, or
the literal `null` pushed for the root and the unconstrained fallback. -/
inductive PathKey where
  | str (s : String)
  | idx (n : Nat)
  | nullKey

/-- What a `schemaPath` entry's second component holds in the source: a
schema object, a list of sub-schemas (`allOf`/`anyOf`/`oneOf`/`not`/tuple
`items`), or a `properties` map. -/
inductive SchemaNode where
  | one (s : Schema)
  | many (l : List Schema)
  | propsMap (m : List (String × Schema))

/-- `JsonSchemaValidator.getSchemaOrValueType` (json-schema.js:190-211):
the declared type if it is a single name; for a type list, the value's
runtime type when it is listed (else no type); for an absent type, the
value's runtime type.  `typeof value !== 'undefined'` is the `.undef` test. -/
def getSchemaOrValueType (schema : Schema) (value : Value) : Option String :=
  match schema.type with
  | some (.inr l) =>
      match value with
      | .undef => none
      | v => if l.contains (getValueType v) then some (getValueType v) else none
  | none =>
      match value with
      | .undef => none
      | v => some (getValueType v)
  | some (.inl t) => some t

/-- `JsonSchemaValidator.getPropertySchema` (json-schema.js:131-188).
Returns the resolved sub-schema (`none` is the source's `null`, i.e.
`NotPermitted`) together with the path pairs the source appends to the
optional `path` sink (callers that pass `path=null` simply ignore them). -/
def getPropertySchema (schema : Schema) (property : PropName) (value : Value) :
    Option Schema × List (PathKey × SchemaNode) :=
  let t := getSchemaOrValueType schema value
  if t = some "object" then
    match schema.properties with
    | some props =>
        match lookupSchemaProp props property.asObjectKey with
        | some ps =>
            (some ps, [(.str "properties", .propsMap props),
                       (match property with | .strKey s => .str s | .idxKey n => .idx n, .one ps)])
        | none => getPropertySchemaAdditional schema.additionalProperties "additionalProperties"
    | none => getPropertySchemaAdditional schema.additionalProperties "additionalProperties"
  else if t = some "array" then
    match schema.items with
    | some (.inl single) => (some single, [])
    | some (.inr tuple) =>
        match property.asArrayIndex with
        | some n =>
            if h : n < tuple.length then
              (some tuple[n], [(.str "items", .many tuple),
                               (match property with | .strKey s => .str s | .idxKey m => .idx m,
                                .one tuple[n])])
            else getPropertySchemaAdditional schema.additionalItems "additionalItems"
        | none => getPropertySchemaAdditional schema.additionalItems "additionalItems"
    | none => getPropertySchemaAdditional schema.additionalItems "additionalItems"
  else (none, [])
where
  /-- The shared `additionalProperties`/`additionalItems` fallback
  (json-schema.js:145-155 and 173-183): `false` forbids, a schema object is
  used, anything else falls back to the unconstrained schema. -/
  getPropertySchemaAdditional :
      Option (Bool ⊕ Schema) → String → Option Schema × List (PathKey × SchemaNode)
    | some (.inl false), _ => (none, [])
    | some (.inr ap), fieldName => (some ap, [(.str fieldName, .one ap)])
    | _, _ => (some unconstrainedSchema, [(.nullKey, .one unconstrainedSchema)])

/-! ## Traversal info and validation errors -/

/-- `JsonSchemaTraversalInfo` (json-schema.js:627-650): two stacks recording
the current location, pushed on descent and popped on return.  The stack top
is the list's last element, as with JavaScript `push`/`pop`. -/
structure JsonSchemaTraversalInfo where
  valuePath : List (PathKey × Value)
  schemaPath : List (PathKey × SchemaNode)

def JsonSchemaTraversalInfo.valuePush (info : JsonSchemaTraversalInfo)
    (k : PathKey) (v : Value) : JsonSchemaTraversalInfo :=
  { info with valuePath := info.valuePath ++ [(k, v)] }

def JsonSchemaTraversalInfo.valuePop (info : JsonSchemaTraversalInfo) : JsonSchemaTraversalInfo :=
  { info with valuePath := info.valuePath.dropLast }

def JsonSchemaTraversalInfo.schemaPush (info : JsonSchemaTraversalInfo)
    (k : PathKey) (n : SchemaNode) : JsonSchemaTraversalInfo :=
  { info with schemaPath := info.schemaPath ++ [(k, n)] }

def JsonSchemaTraversalInfo.schemaPop (info : JsonSchemaTraversalInfo) : JsonSchemaTraversalInfo :=
  { info with schemaPath := info.schemaPath.dropLast }

/-- The constructor body (json-schema.js:628-633): both stacks start with a
`null`-keyed root entry. -/
def JsonSchemaTraversalInfo.init (value : Value) (schema : Schema) : JsonSchemaTraversalInfo :=
  { valuePath := [(.nullKey, value)], schemaPath := [(.nullKey, .one schema)] }

/-- Push every pair of a resolution path (the
`for (const [p, s] of schemaPath) info.schemaPush(p, s)` loops,
json-schema.js:431 and 470). -/
def JsonSchemaTraversalInfo.schemaPushAll (info : JsonSchemaTraversalInfo)
    (path : List (PathKey × SchemaNode)) : JsonSchemaTraversalInfo :=
  path.foldl (fun i kn => i.schemaPush kn.1 kn.2) info

/-- Pop the schema stack `n` times (the
`for (...) info.schemaPop()` loops, json-schema.js:435 and 474). -/
def JsonSchemaTraversalInfo.schemaPopN : Nat → JsonSchemaTraversalInfo → JsonSchemaTraversalInfo
  | 0, info => info
  | n + 1, info => JsonSchemaTraversalInfo.schemaPopN n info.schemaPop

/-- `JsonSchemaValidationError` (json-schema.js:652-659): message, offending
value, governing schema, and the `TraversalInfo` as it stood when thrown. -/
structure JsonSchemaValidationError where
  message : String
  value : Value
  schema : Schema
  info : JsonSchemaTraversalInfo

/-- The outcome of one validation step: JavaScript's completed-or-thrown,
paired with the traversal info in its state at that moment (exceptions do
not roll the mutable info back). -/
abbrev VResult := Except JsonSchemaValidationError Unit × JsonSchemaTraversalInfo

/-! ## Structural size facts, used for termination of the recursive
definitions below -/

theorem option_sizeOf_pos {α : Type} [SizeOf α] (o : Option α) : 1 ≤ sizeOf o := by
  cases o <;> simp <;> omega

theorem sum_sizeOf_pos {α β : Type} [SizeOf α] [SizeOf β] (x : α ⊕ β) : 1 ≤ sizeOf x := by
  cases x <;> simp <;> omega

theorem list_sizeOf_pos {α : Type} [SizeOf α] (l : List α) : 1 ≤ sizeOf l := by
  cases l <;> simp <;> omega

theorem value_sizeOf_pos (v : Value) : 1 ≤ sizeOf v := by
  cases v <;> simp <;> omega

theorem schema_sizeOf_pos (s : Schema) : 1 ≤ sizeOf s := by
  cases s
  simp
  try omega

theorem lookupSchemaProp_sizeOf {l : List (String × Schema)} {p : String} {r : Schema}
    (h : lookupSchemaProp l p = some r) : sizeOf r < sizeOf l := by
  induction l with
  | nil => simp [lookupSchemaProp] at h
  | cons kv rest ih =>
      rw [lookupSchemaProp] at h
      split at h
      · cases h
        cases kv
        simp at *
        omega
      · have := ih h
        simp
        omega

theorem lookupField_sizeOf {l : List (String × Value)} {p : String} {r : Value}
    (h : lookupField l p = some r) : sizeOf r < sizeOf l := by
  induction l with
  | nil => simp [lookupField] at h
  | cons kv rest ih =>
      rw [lookupField] at h
      split at h
      · cases h
        cases kv
        simp at *
        omega
      · have := ih h
        simp
        omega

theorem jsGetProp_obj_sizeOf (fields : List (String × Value)) (p : String) :
    sizeOf (jsGetProp (.obj fields) p) < sizeOf (Value.obj fields) := by
  rw [jsGetProp]
  match hl : lookupField fields p with
  | some x =>
      have := lookupField_sizeOf hl
      simp
      omega
  | none =>
      have : 1 ≤ sizeOf fields := list_sizeOf_pos fields
      simp [Value.undef.sizeOf_spec]
      omega

theorem jsIndex_arr_sizeOf (elems : List Value) (props : List (String × Value)) (i : Nat) :
    sizeOf (jsIndex (.arr elems props) i) < sizeOf (Value.arr elems props) := by
  rw [jsIndex]
  match hl : elems[i]? with
  | some x =>
      have := List.sizeOf_lt_of_mem (List.getElem?_mem hl)
      simp
      omega
  | none =>
      have h1 : 1 ≤ sizeOf elems := list_sizeOf_pos elems
      have h2 : 1 ≤ sizeOf props := list_sizeOf_pos props
      simp [Value.undef.sizeOf_spec]
      omega

/-- Size bounds relating a schema to its parts, all proved with one
destructuring.  `unconstrainedSchema` is minimal among schemas, and it is
strictly smaller than any schema with a present `type`, `default`, or
`required` field. -/
theorem schema_sizeOf_bounds (s : Schema) :
    sizeOf unconstrainedSchema ≤ sizeOf s
    ∧ (∀ x, s.type = some x → sizeOf unconstrainedSchema < sizeOf s)
    ∧ (∀ x, s.default = some x → sizeOf x < sizeOf s ∧ sizeOf unconstrainedSchema < sizeOf s)
    ∧ (∀ l, s.properties = some l → sizeOf l < sizeOf s)
    ∧ (∀ x, s.additionalProperties = some (.inr x) → sizeOf x < sizeOf s)
    ∧ (∀ l, s.required = some l → sizeOf unconstrainedSchema < sizeOf s)
    ∧ (∀ x, s.items = some (.inl x) → sizeOf x < sizeOf s)
    ∧ (∀ l, s.items = some (.inr l) → sizeOf l < sizeOf s)
    ∧ (∀ x, s.additionalItems = some (.inr x) → sizeOf x < sizeOf s)
    ∧ (∀ x, s.ifSchema = some x → sizeOf x < sizeOf s)
    ∧ (∀ x, s.thenSchema = some x → sizeOf x < sizeOf s)
    ∧ (∀ x, s.elseSchema = some x → sizeOf x < sizeOf s)
    ∧ (∀ l, s.allOf = some l → sizeOf l < sizeOf s)
    ∧ (∀ l, s.anyOf = some l → sizeOf l < sizeOf s)
    ∧ (∀ l, s.oneOf = some l → sizeOf l < sizeOf s)
    ∧ (∀ l, s.notSchemas = some l → sizeOf l < sizeOf s) := by
  obtain ⟨f⟩ := s
  obtain ⟨t, c, e, d, p, ap, rq, mnp, mxp, it, ai, mni, mxi, mnl, mxl, pat, pfl, mo, mn,
    emn, mx, emx, sif, sth, sel, ao, ayo, oo, no⟩ := f
  have b1 := option_sizeOf_pos t
  have b2 := option_sizeOf_pos c
  have b3 := option_sizeOf_pos e
  have b4 := option_sizeOf_pos d
  have b5 := option_sizeOf_pos p
  have b6 := option_sizeOf_pos ap
  have b7 := option_sizeOf_pos rq
  have b8 := option_sizeOf_pos mnp
  have b9 := option_sizeOf_pos mxp
  have b10 := option_sizeOf_pos it
  have b11 := option_sizeOf_pos ai
  have b12 := option_sizeOf_pos mni
  have b13 := option_sizeOf_pos mxi
  have b14 := option_sizeOf_pos mnl
  have b15 := option_sizeOf_pos mxl
  have b16 := option_sizeOf_pos pat
  have b17 := option_sizeOf_pos pfl
  have b18 := option_sizeOf_pos mo
  have b19 := option_sizeOf_pos mn
  have b20 := option_sizeOf_pos emn
  have b21 := option_sizeOf_pos mx
  have b22 := option_sizeOf_pos emx
  have b23 := option_sizeOf_pos sif
  have b24 := option_sizeOf_pos sth
  have b25 := option_sizeOf_pos sel
  have b26 := option_sizeOf_pos ao
  have b27 := option_sizeOf_pos ayo
  have b28 := option_sizeOf_pos oo
  have b29 := option_sizeOf_pos no
  refine ⟨?_, ?_, ?_, ?_, ?_, ?_, ?_, ?_, ?_, ?_, ?_, ?_, ?_, ?_, ?_, ?_⟩ <;>
    first
      | (simp [unconstrainedSchema]; omega)
      | (intro x h
         simp only [Schema.type, Schema.default, Schema.properties,
           Schema.additionalProperties, Schema.required, Schema.items,
           Schema.additionalItems, Schema.ifSchema, Schema.thenSchema, Schema.elseSchema,
           Schema.allOf, Schema.anyOf, Schema.oneOf, Schema.notSchemas, Schema.f] at h
         subst h
         have hx : 1 ≤ sizeOf x := by
           first
             | exact sum_sizeOf_pos x
             | exact value_sizeOf_pos x
             | exact list_sizeOf_pos x
             | exact schema_sizeOf_pos x
         simp [unconstrainedSchema]
         omega)

theorem sizeOf_lt_of_mem_field {s : Schema} {l : List Schema} {x : Schema}
    (h : s.allOf = some l ∨ s.anyOf = some l ∨ s.oneOf = some l ∨ s.notSchemas = some l ∨
      s.items = some (.inr l))
    (hx : x ∈ l) : sizeOf x < sizeOf s := by
  obtain ⟨u1, u2, u3, u4, u5, u6, u7, u8, u9, u10, u11, u12, u13, u14, u15, u16⟩ :=
    schema_sizeOf_bounds s
  have hm := List.sizeOf_lt_of_mem hx
  rcases h with h | h | h | h | h
  · have := u13 l h; omega
  · have := u14 l h; omega
  · have := u15 l h; omega
  · have := u16 l h; omega
  · have := u8 l h; omega

theorem sizeOf_lt_of_conditional {s : Schema} {x : Schema}
    (h : s.ifSchema = some x ∨ s.thenSchema = some x ∨ s.elseSchema = some x) :
    sizeOf x < sizeOf s := by
  obtain ⟨u1, u2, u3, u4, u5, u6, u7, u8, u9, u10, u11, u12, u13, u14, u15, u16⟩ :=
    schema_sizeOf_bounds s
  rcases h with h | h | h
  · exact u10 x h
  · exact u11 x h
  · exact u12 x h

/-- The schema returned by `getPropertySchema` is never larger than the one
resolved from, and is strictly smaller unless it is the shared unconstrained
fallback. -/
theorem getPropertySchema_sizeOf {s : Schema} {k : PropName} {v : Value} {r : Schema}
    (h : (getPropertySchema s k v).1 = some r) :
    sizeOf r ≤ sizeOf s ∧ (sizeOf r < sizeOf s ∨ r = unconstrainedSchema) := by
  obtain ⟨u1, u2, u3, u4, u5, u6, u7, u8, u9, u10, u11, u12, u13, u14, u15, u16⟩ :=
    schema_sizeOf_bounds s
  have hadd : ∀ (ap : Option (Bool ⊕ Schema)) (fn : String),
      (getPropertySchema.getPropertySchemaAdditional ap fn).1 = some r →
      (∃ x, ap = some (.inr x) ∧ r = x) ∨ r = unconstrainedSchema := by
    intro ap fn hr
    match ap with
    | none => simp [getPropertySchema.getPropertySchemaAdditional] at hr; tauto
    | some (.inl true) => simp [getPropertySchema.getPropertySchemaAdditional] at hr; tauto
    | some (.inl false) => simp [getPropertySchema.getPropertySchemaAdditional] at hr
    | some (.inr x) =>
        simp [getPropertySchema.getPropertySchemaAdditional] at hr
        exact Or.inl ⟨x, rfl, hr.symm⟩
  rw [getPropertySchema.eq_def] at h
  simp only [] at h
  split at h
  · -- object branch
    split at h
    · rename_i props hprops
      split at h
      · rename_i ps hps
        simp at h
        subst h
        have h1 := lookupSchemaProp_sizeOf hps
        have h2 := u4 props hprops
        constructor
        · omega
        · left; omega
      · rcases hadd _ _ h with ⟨x, hap, hrx⟩ | hu
        · have hb := u5 x hap
          subst hrx
          exact ⟨by omega, Or.inl (by omega)⟩
        · subst hu
          exact ⟨u1, Or.inr rfl⟩
    · rcases hadd _ _ h with ⟨x, hap, hrx⟩ | hu
      · have hb := u5 x hap
        subst hrx
        exact ⟨by omega, Or.inl (by omega)⟩
      · subst hu
        exact ⟨u1, Or.inr rfl⟩
  · split at h
    · -- array branch
      split at h
      · rename_i single hitems
        have hb := u7 single hitems
        simp at h
        subst h
        exact ⟨by omega, Or.inl (by omega)⟩
      · rename_i tuple hitems
        split at h
        · rename_i n hn
          split at h
          · rename_i hlt
            simp at h
            subst h
            have h1 := List.sizeOf_lt_of_mem (tuple.getElem_mem hlt)
            have h2 := u8 tuple hitems
            exact ⟨by omega, Or.inl (by omega)⟩
          · rcases hadd _ _ h with ⟨x, hap, hrx⟩ | hu
            · have hb := u9 x hap
              subst hrx
              exact ⟨by omega, Or.inl (by omega)⟩
            · subst hu
              exact ⟨u1, Or.inr rfl⟩
        · rcases hadd _ _ h with ⟨x, hap, hrx⟩ | hu
          · have hb := u9 x hap
            subst hrx
            exact ⟨by omega, Or.inl (by omega)⟩
          · subst hu
            exact ⟨u1, Or.inr rfl⟩
      · rcases hadd _ _ h with ⟨x, hap, hrx⟩ | hu
        · have hb := u9 x hap
          subst hrx
          exact ⟨by omega, Or.inl (by omega)⟩
        · subst hu
          exact ⟨u1, Or.inr rfl⟩
    · simp at h

/-- The compiled-regex interface (`new RegExp(pattern, flags)` plus
`regex.test`, behind the validator's `CacheMap`, json-schema.js:128 and
613-617).  The cache is keyed by `(pattern, flags)` and compilation is
deterministic, so it is transparent: the engine is a pure function from the
pair to either a compile-error message or a test predicate.  The regex
engine itself is external to this module, so definitions are parametric in
it and theorems quantify over it. -/
def RegexEngine := String → String → Except String (String → Bool)

end Yomichan

namespace Yomichan

/-! ## Non-recursive pieces of the validator -/

/-- Whether a validation step completed without throwing. -/
def vOk : Except JsonSchemaValidationError Unit → Bool
  | .ok _ => true
  | .error _ => false

/-- `JsonSchemaValidator.valuesAreEqual` (json-schema.js:517-519): JavaScript
`===`.  Primitives compare by content (`NaN`/`±0` corners are outside the
model).  For objects and arrays `===` is reference equality; distinct trees
in this embedding denote distinct JavaScript objects — the module clones
caller values before validating or storing them, so a schema's
`const`/`enum` candidate is never aliased with the validated value — hence
the container cases are `false`. -/
def valuesAreEqual (value1 value2 : Value) : Bool :=
  match value1, value2 with
  | .undef, .undef => true
  | .null, .null => true
  | .bool a, .bool b => a == b
  | .num a, .num b => a == b
  | .str a, .str b => a == b
  | _, _ => false

/-- `JsonSchemaValidator.valuesAreEqualAny` (json-schema.js:508-515). -/
def valuesAreEqualAny (value1 : Value) (valueList : List Value) : Bool :=
  valueList.any (fun v2 => valuesAreEqual value1 v2)

/-- The `const` check of `validateSingleSchema` (json-schema.js:329-332):
`typeof schemaConst !== 'undefined'`, so a `const` holding literal
`undefined` is indistinguishable from an absent one and is skipped. -/
def constViolated (value : Value) (schema : Schema) : Bool :=
  match schema.const with
  | some .undef => false
  | some c => !(valuesAreEqual value c)
  | none => false

/-- The `enum` check of `validateSingleSchema` (json-schema.js:334-337). -/
def enumViolated (value : Value) (schema : Schema) : Bool :=
  match schema.enum with
  | some l => !(valuesAreEqualAny value l)
  | none => false

/-- JavaScript template interpolation of a schema's `type` field, as in the
type-mismatch error message (json-schema.js:326). -/
def typeSpecToString : TypeSpec → String
  | some (.inl s) => s
  | some (.inr l) => String.intercalate "," l
  | none => "undefined"

/-- `undefined < n` for a number `n` is `false` in JavaScript (the comparison
goes through `NaN`). -/
def jsUndefinedLtNum (_n : ℚ) : Bool := false

/-- `undefined > n` for a number `n` is `false` in JavaScript. -/
def jsUndefinedGtNum (_n : ℚ) : Bool := false

/-- The `minProperties` check of `validateObject` (json-schema.js:451-454).
The source builds `properties` as a JS `Set` (line 440) and then reads
`properties.length`; a `Set` has `size`, not `length`, so the read yields
`undefined` and the comparison `properties.length < minProperties` is always
false: the check can never raise. -/
def minPropertiesViolated (schema : Schema) : Bool :=
  match schema.minProperties with
  | some m => jsUndefinedLtNum m
  | none => false

/-- The `maxProperties` check of `validateObject` (json-schema.js:456-459);
dead for the same reason as `minPropertiesViolated`. -/
def maxPropertiesViolated (schema : Schema) : Bool :=
  match schema.maxProperties with
  | some m => jsUndefinedGtNum m
  | none => false

/-- The `required` scan of `validateObject` (json-schema.js:442-449): the
first listed name that is not an own property, if any. -/
def requiredMissing (propNames : List String) (schema : Schema) : Option String :=
  match schema.required with
  | some req => req.find? (fun p => !(propNames.contains p))
  | none => none

/-- `JsonSchemaValidator.validateNumber` (json-schema.js:355-380).  Only
dispatched for runtime type `"number"`, so the catch-all is unreachable.
`multipleOf` divides exactly as in the source
(`Math.floor(value / multipleOf) * multipleOf !== value`); over `ℚ` the
`multipleOf = 0` corner differs from JavaScript's NaN arithmetic, and is not
relied on by any theorem below. -/
def validateNumber (value : Value) (schema : Schema) (info : JsonSchemaTraversalInfo) : VResult :=
  match value with
  | .num q =>
      if (match schema.multipleOf with
          | some m => decide (((q / m).floor : ℚ) * m ≠ q)
          | none => false) then
        (.error ⟨"Number is not a multiple of " ++ toString (schema.multipleOf.getD 0),
          value, schema, info⟩, info)
      else if (match schema.minimum with
          | some m => decide (q < m)
          | none => false) then
        (.error ⟨"Number is less than " ++ toString (schema.minimum.getD 0),
          value, schema, info⟩, info)
      else if (match schema.exclusiveMinimum with
          | some m => decide (q ≤ m)
          | none => false) then
        (.error ⟨"Number is less than or equal to " ++ toString (schema.exclusiveMinimum.getD 0),
          value, schema, info⟩, info)
      else if (match schema.maximum with
          | some m => decide (q > m)
          | none => false) then
        (.error ⟨"Number is greater than " ++ toString (schema.maximum.getD 0),
          value, schema, info⟩, info)
      else if (match schema.exclusiveMaximum with
          | some m => decide (q ≥ m)
          | none => false) then
        (.error ⟨"Number is greater than or equal to " ++ toString (schema.exclusiveMaximum.getD 0),
          value, schema, info⟩, info)
      else (.ok (), info)
  | _ => (.ok (), info)

/-- `JsonSchemaValidator.validateString` (json-schema.js:382-409).  Only
dispatched for runtime type `"string"`.  String length is the JavaScript
`value.length`; `patternFlags` defaults to `''` when not a string. -/
def validateString (re : RegexEngine) (value : Value) (schema : Schema)
    (info : JsonSchemaTraversalInfo) : VResult :=
  match value with
  | .str s =>
      if (match schema.minLength with
          | some m => decide ((s.length : ℚ) < m)
          | none => false) then
        (.error ⟨"String length too short", value, schema, info⟩, info)
      else if (match schema.maxLength with
          | some m => decide ((s.length : ℚ) > m)
          | none => false) then
        (.error ⟨"String length too long", value, schema, info⟩, info)
      else
        match schema.pattern with
        | some pat =>
            let patternFlags := (schema.patternFlags).getD ""
            match re pat patternFlags with
            | .error msg =>
                (.error ⟨"Pattern is invalid (" ++ msg ++ ")", value, schema, info⟩, info)
            | .ok test =>
                if !(test s) then
                  (.error ⟨"Pattern match failed", value, schema, info⟩, info)
                else (.ok (), info)
        | none => (.ok (), info)
  | _ => (.ok (), info)

end Yomichan

namespace Yomichan

/-! ## The recursive validator (`JsonSchemaValidator.validate` and friends)

The JavaScript methods mutate `info` and communicate failure by throwing;
here every function returns the completed-or-thrown outcome paired with the
traversal info as the call left it (a throw does not roll the stacks back).
`re` is the external regex engine (see `RegexEngine`). -/

mutual

/-- `JsonSchemaValidator.validate` (json-schema.js:213-220): the six steps in
order; the first raised error aborts the rest. -/
def validate (re : RegexEngine) (value : Value) (schema : Schema)
    (info : JsonSchemaTraversalInfo) : VResult :=
  match validateSingleSchema re value schema info with
  | (.error e, i) => (.error e, i)
  | (.ok _, i1) =>
    match validateConditional re value schema i1 with
    | (.error e, i) => (.error e, i)
    | (.ok _, i2) =>
      match validateAllOf re value schema i2 with
      | (.error e, i) => (.error e, i)
      | (.ok _, i3) =>
        match validateAnyOf re value schema i3 with
        | (.error e, i) => (.error e, i)
        | (.ok _, i4) =>
          match validateOneOf re value schema i4 with
          | (.error e, i) => (.error e, i)
          | (.ok _, i5) => validateNoneOf re value schema i5
  termination_by (sizeOf schema, sizeOf value, 9, 0)

/-- `JsonSchemaValidator.validateSingleSchema` (json-schema.js:322-353):
type check, `const`, `enum`, then the per-runtime-type branch. -/
def validateSingleSchema (re : RegexEngine) (value : Value) (schema : Schema)
    (info : JsonSchemaTraversalInfo) : VResult :=
  let type := getValueType value
  if !(isValueTypeAny value type schema.type) then
    (.error ⟨"Value type " ++ type ++ " does not match schema type " ++
      typeSpecToString schema.type, value, schema, info⟩, info)
  else if constViolated value schema then
    (.error ⟨"Invalid constant value", value, schema, info⟩, info)
  else if enumViolated value schema then
    (.error ⟨"Invalid enum value", value, schema, info⟩, info)
  else if type = "number" then validateNumber value schema info
  else if type = "string" then validateString re value schema info
  else if type = "array" then validateArray re value schema info
  else if type = "object" then validateObject re value schema info
  else (.ok (), info)
  termination_by (sizeOf schema, sizeOf value, 8, 0)

/-- `JsonSchemaValidator.validateConditional` (json-schema.js:222-241): probe
`if` (its own outcome is never reported), then require `then` or `else`.
The `if` push is popped even when the probe throws; the `then`/`else` pop is
skipped when that nested validate throws. -/
def validateConditional (re : RegexEngine) (value : Value) (schema : Schema)
    (info : JsonSchemaTraversalInfo) : VResult :=
  match hif : schema.ifSchema with
  | none => (.ok (), info)
  | some ifs =>
      match validate re value ifs (info.schemaPush (.str "if") (.one ifs)) with
      | (r, i2) =>
        let okay := vOk r
        let info3 := i2.schemaPop
        match hnext : (if okay then schema.thenSchema else schema.elseSchema) with
        | none => (.ok (), info3)
        | some ns =>
            match validate re value ns
                (info3.schemaPush (.str (if okay then "then" else "else")) (.one ns)) with
            | (.error e, i5) => (.error e, i5)
            | (.ok _, i5) => (.ok (), i5.schemaPop)
  termination_by (sizeOf schema, sizeOf value, 8, 0)
  decreasing_by
    all_goals simp_wf
    all_goals first
      | (exact Prod.Lex.left _ _ (sizeOf_lt_of_conditional (Or.inl hif)))
      | (have hns : sizeOf ns < sizeOf schema := by
           split at hnext
           · exact sizeOf_lt_of_conditional (Or.inr (Or.inl hnext))
           · exact sizeOf_lt_of_conditional (Or.inr (Or.inr hnext))
         exact Prod.Lex.left _ _ hns)
      | decreasing_tactic

/-- `JsonSchemaValidator.validateAllOf` (json-schema.js:243-255). -/
def validateAllOf (re : RegexEngine) (value : Value) (schema : Schema)
    (info : JsonSchemaTraversalInfo) : VResult :=
  match hall : schema.allOf with
  | none => (.ok (), info)
  | some subSchemas =>
      match validateAllOfLoop re value schema subSchemas 0
          (info.schemaPush (.str "allOf") (.many subSchemas))
          (fun x hx => sizeOf_lt_of_mem_field (Or.inl hall) hx) with
      | (.error e, i) => (.error e, i)
      | (.ok _, i) => (.ok (), i.schemaPop)
  termination_by (sizeOf schema, sizeOf value, 8, 0)

/-- The `allOf` loop body (json-schema.js:248-253): push the index, validate
(the first failure propagates, skipping the pop), pop, continue. -/
def validateAllOfLoop (re : RegexEngine) (value : Value) (schema : Schema)
    (subs : List Schema) (i : Nat) (info : JsonSchemaTraversalInfo)
    (hsub : ∀ x ∈ subs, sizeOf x < sizeOf schema) : VResult :=
  match subs, hsub with
  | [], _ => (.ok (), info)
  | sub :: rest, hsub =>
      match validate re value sub (info.schemaPush (.idx i) (.one sub)) with
      | (.error e, i2) => (.error e, i2)
      | (.ok _, i2) =>
          validateAllOfLoop re value schema rest (i + 1) i2.schemaPop
            (fun x hx => hsub x (List.mem_cons_of_mem _ hx))
  termination_by (sizeOf schema, sizeOf value, 7, subs.length)
  decreasing_by
    all_goals simp_wf
    all_goals first
      | (exact Prod.Lex.left _ _ (hsub sub (List.mem_cons_self _ _)))
      | decreasing_tactic

/-- `JsonSchemaValidator.validateAnyOf` (json-schema.js:257-276): raise
`0 anyOf schemas matched` when nothing matched.  On a match the source
returns early without popping its `anyOf` or index pushes (its final
`schemaPop` is commented out as unreachable). -/
def validateAnyOf (re : RegexEngine) (value : Value) (schema : Schema)
    (info : JsonSchemaTraversalInfo) : VResult :=
  match hany : schema.anyOf with
  | none => (.ok (), info)
  | some subSchemas =>
      match validateAnyOfLoop re value schema subSchemas 0
          (info.schemaPush (.str "anyOf") (.many subSchemas))
          (fun x hx => sizeOf_lt_of_mem_field (Or.inr (Or.inl hany)) hx) with
      | (true, i2) => (.ok (), i2)
      | (false, i2) => (.error ⟨"0 anyOf schemas matched", value, schema, i2⟩, i2)
  termination_by (sizeOf schema, sizeOf value, 8, 0)

/-- The `anyOf` loop body (json-schema.js:262-272): push the index, try the
sub-schema; on success return at once (no pops); on failure pop the index
push (only) and continue. -/
def validateAnyOfLoop (re : RegexEngine) (value : Value) (schema : Schema)
    (subs : List Schema) (i : Nat) (info : JsonSchemaTraversalInfo)
    (hsub : ∀ x ∈ subs, sizeOf x < sizeOf schema) : Bool × JsonSchemaTraversalInfo :=
  match subs, hsub with
  | [], _ => (false, info)
  | sub :: rest, hsub =>
      match validate re value sub (info.schemaPush (.idx i) (.one sub)) with
      | (.ok _, i2) => (true, i2)
      | (.error _, i2) =>
          validateAnyOfLoop re value schema rest (i + 1) i2.schemaPop
            (fun x hx => hsub x (List.mem_cons_of_mem _ hx))
  termination_by (sizeOf schema, sizeOf value, 7, subs.length)
  decreasing_by
    all_goals simp_wf
    all_goals first
      | (exact Prod.Lex.left _ _ (hsub sub (List.mem_cons_self _ _)))
      | decreasing_tactic

/-- `JsonSchemaValidator.validateOneOf` (json-schema.js:278-301): try every
sub-schema, count matches, succeed exactly when the count is 1, else raise
with the actual count (before the final pop, so its snapshot keeps the
`oneOf` push). -/
def validateOneOf (re : RegexEngine) (value : Value) (schema : Schema)
    (info : JsonSchemaTraversalInfo) : VResult :=
  match hone : schema.oneOf with
  | none => (.ok (), info)
  | some subSchemas =>
      match validateOneOfLoop re value schema subSchemas 0
          (info.schemaPush (.str "oneOf") (.many subSchemas))
          (fun x hx => sizeOf_lt_of_mem_field (Or.inr (Or.inr (Or.inl hone))) hx) with
      | (count, i2) =>
          if count ≠ 1 then
            (.error ⟨toString count ++ " oneOf schemas matched", value, schema, i2⟩, i2)
          else (.ok (), i2.schemaPop)
  termination_by (sizeOf schema, sizeOf value, 8, 0)

/-- The `oneOf` loop body (json-schema.js:284-294): push the index, try the
sub-schema (counting a success), pop, continue — every sub-schema is tried. -/
def validateOneOfLoop (re : RegexEngine) (value : Value) (schema : Schema)
    (subs : List Schema) (i : Nat) (info : JsonSchemaTraversalInfo)
    (hsub : ∀ x ∈ subs, sizeOf x < sizeOf schema) : Nat × JsonSchemaTraversalInfo :=
  match subs, hsub with
  | [], _ => (0, info)
  | sub :: rest, hsub =>
      match validate re value sub (info.schemaPush (.idx i) (.one sub)) with
      | (r, i2) =>
          match validateOneOfLoop re value schema rest (i + 1) i2.schemaPop
              (fun x hx => hsub x (List.mem_cons_of_mem _ hx)) with
          | (c, i3) => ((if vOk r then 1 else 0) + c, i3)
  termination_by (sizeOf schema, sizeOf value, 7, subs.length)
  decreasing_by
    all_goals simp_wf
    all_goals first
      | (exact Prod.Lex.left _ _ (hsub sub (List.mem_cons_self _ _)))
      | decreasing_tactic

/-- `JsonSchemaValidator.validateNoneOf` (json-schema.js:303-320): every
listed sub-schema must fail; a match raises naming its index (with the index
push still on the stack). -/
def validateNoneOf (re : RegexEngine) (value : Value) (schema : Schema)
    (info : JsonSchemaTraversalInfo) : VResult :=
  match hnot : schema.notSchemas with
  | none => (.ok (), info)
  | some subSchemas =>
      match validateNoneOfLoop re value schema subSchemas 0
          (info.schemaPush (.str "not") (.many subSchemas))
          (fun x hx => sizeOf_lt_of_mem_field (Or.inr (Or.inr (Or.inr (Or.inl hnot)))) hx) with
      | (.error e, i) => (.error e, i)
      | (.ok _, i) => (.ok (), i.schemaPop)
  termination_by (sizeOf schema, sizeOf value, 8, 0)

/-- The `not` loop body (json-schema.js:308-318): push the index, try the
sub-schema; a failure pops and continues, a success raises. -/
def validateNoneOfLoop (re : RegexEngine) (value : Value) (schema : Schema)
    (subs : List Schema) (i : Nat) (info : JsonSchemaTraversalInfo)
    (hsub : ∀ x ∈ subs, sizeOf x < sizeOf schema) : VResult :=
  match subs, hsub with
  | [], _ => (.ok (), info)
  | sub :: rest, hsub =>
      match validate re value sub (info.schemaPush (.idx i) (.one sub)) with
      | (.error _, i2) =>
          validateNoneOfLoop re value schema rest (i + 1) i2.schemaPop
            (fun x hx => hsub x (List.mem_cons_of_mem _ hx))
      | (.ok _, i2) =>
          (.error ⟨"not[" ++ toString i ++ "] schema matched", value, schema, i2⟩, i2)
  termination_by (sizeOf schema, sizeOf value, 7, subs.length)
  decreasing_by
    all_goals simp_wf
    all_goals first
      | (exact Prod.Lex.left _ _ (hsub sub (List.mem_cons_self _ _)))
      | decreasing_tactic

/-- `JsonSchemaValidator.validateArray` (json-schema.js:411-437): length
bounds, then resolve and validate each index.  Only dispatched for runtime
type `"array"`. -/
def validateArray (re : RegexEngine) (value : Value) (schema : Schema)
    (info : JsonSchemaTraversalInfo) : VResult :=
  match value with
  | .arr elems props =>
      if (match schema.minItems with
          | some m => decide ((elems.length : ℚ) < m)
          | none => false) then
        (.error ⟨"Array length too short", .arr elems props, schema, info⟩, info)
      else if (match schema.maxItems with
          | some m => decide ((elems.length : ℚ) > m)
          | none => false) then
        (.error ⟨"Array length too long", .arr elems props, schema, info⟩, info)
      else
        validateArrayLoop re (.arr elems props) schema elems.length 0 info
          (fun j => jsIndex_arr_sizeOf elems props j)
  | _ => (.ok (), info)
  termination_by (sizeOf schema, sizeOf value, 7, 0)

/-- The element loop of `validateArray` (json-schema.js:422-436): resolve the
index's schema (raising `No schema found` on `NotPermitted`), push the
resolution path and the value path entry, validate, pop on success (a throw
skips the pops). -/
def validateArrayLoop (re : RegexEngine) (value : Value) (schema : Schema)
    (len i : Nat) (info : JsonSchemaTraversalInfo)
    (hv : ∀ j, sizeOf (jsIndex value j) < sizeOf value) : VResult :=
  if hlt : i < len then
    match hpr : getPropertySchema schema (.idxKey i) value with
    | (none, _) =>
        (.error ⟨"No schema found for array[" ++ toString i ++ "]", value, schema, info⟩, info)
    | (some ps, path) =>
        let propertyValue := jsIndex value i
        match validate re propertyValue ps
            ((info.schemaPushAll path).valuePush (.idx i) propertyValue) with
        | (.error e, i3) => (.error e, i3)
        | (.ok _, i3) =>
            validateArrayLoop re value schema len (i + 1)
              (JsonSchemaTraversalInfo.schemaPopN path.length i3.valuePop) hv
  else (.ok (), info)
  termination_by (sizeOf schema, sizeOf value, 6, len - i)
  decreasing_by
    all_goals simp_wf
    all_goals first
      | (have h1 := getPropertySchema_sizeOf (congrArg Prod.fst hpr)
         rcases h1 with ⟨hle, hcase⟩
         rcases Nat.lt_or_ge (sizeOf ps) (sizeOf schema) with hx | hx
         · exact Prod.Lex.left _ _ hx
         · have heq : sizeOf ps = sizeOf schema := Nat.le_antisymm hle hx
           rw [heq]
           exact Prod.Lex.right _ (Prod.Lex.left _ _ (hv i)))
      | decreasing_tactic

/-- `JsonSchemaValidator.validateObject` (json-schema.js:439-476): required
names, the two dead property-count checks (see `minPropertiesViolated`),
then resolve and validate each own property.  Only dispatched for runtime
type `"object"`. -/
def validateObject (re : RegexEngine) (value : Value) (schema : Schema)
    (info : JsonSchemaTraversalInfo) : VResult :=
  match value with
  | .obj fields =>
      let properties := fields.map Prod.fst
      match requiredMissing properties schema with
      | some p =>
          (.error ⟨"Missing property " ++ p, .obj fields, schema, info⟩, info)
      | none =>
          if minPropertiesViolated schema then
            (.error ⟨"Not enough object properties", .obj fields, schema, info⟩, info)
          else if maxPropertiesViolated schema then
            (.error ⟨"Too many object properties", .obj fields, schema, info⟩, info)
          else
            validateObjectLoop re (.obj fields) schema properties info
              (fun p => jsGetProp_obj_sizeOf fields p)
  | _ => (.ok (), info)
  termination_by (sizeOf schema, sizeOf value, 7, 0)

/-- The property loop of `validateObject` (json-schema.js:461-475), analogous
to `validateArrayLoop`. -/
def validateObjectLoop (re : RegexEngine) (value : Value) (schema : Schema)
    (names : List String) (info : JsonSchemaTraversalInfo)
    (hv : ∀ p, sizeOf (jsGetProp value p) < sizeOf value) : VResult :=
  match names with
  | [] => (.ok (), info)
  | p :: rest =>
      match hpr : getPropertySchema schema (.strKey p) value with
      | (none, _) =>
          (.error ⟨"No schema found for " ++ p, value, schema, info⟩, info)
      | (some ps, path) =>
          let propertyValue := jsGetProp value p
          match validate re propertyValue ps
              ((info.schemaPushAll path).valuePush (.str p) propertyValue) with
          | (.error e, i3) => (.error e, i3)
          | (.ok _, i3) =>
              validateObjectLoop re value schema rest
                (JsonSchemaTraversalInfo.schemaPopN path.length i3.valuePop) hv
  termination_by (sizeOf schema, sizeOf value, 6, names.length)
  decreasing_by
    all_goals simp_wf
    all_goals first
      | (have h1 := getPropertySchema_sizeOf (congrArg Prod.fst hpr)
         rcases h1 with ⟨hle, hcase⟩
         rcases Nat.lt_or_ge (sizeOf ps) (sizeOf schema) with hx | hx
         · exact Prod.Lex.left _ _ hx
         · have heq : sizeOf ps = sizeOf schema := Nat.le_antisymm hle hx
           rw [heq]
           exact Prod.Lex.right _ (Prod.Lex.left _ _ (hv p)))
      | decreasing_tactic

end

end Yomichan

namespace Yomichan

/-- `JsonSchema.validate` (json-schema.js:667-669): a fresh validator and a
fresh `TraversalInfo` rooted at the value and schema. -/
def JsonSchema.validate (re : RegexEngine) (value : Value) (schema : Schema) : VResult :=
  Yomichan.validate re value schema (JsonSchemaTraversalInfo.init value schema)

/-! ## `clone` and default population -/

mutual

/-- Modelled from the spec: the global `clone` helper called by
`JsonSchema.clone` (json-schema.js:675-677) is defined in a repository file
outside the provided sources; spec §6 specifies it as
`clone(value) -> Value`, a deep structural copy.  This is that copy;
`clone_eq_id` below records that on immutable trees it returns an equal
tree. -/
def clone : Value → Value
  | .undef => .undef
  | .null => .null
  | .bool b => .bool b
  | .num q => .num q
  | .str s => .str s
  | .arr elems props => .arr (cloneList elems) (cloneFields props)
  | .obj fields => .obj (cloneFields fields)

def cloneList : List Value → List Value
  | [] => []
  | x :: rest => clone x :: cloneList rest

def cloneFields : List (String × Value) → List (String × Value)
  | [] => []
  | (k, v) :: rest => (k, clone v) :: cloneFields rest

end

theorem cloneList_congr {l : List Value} (h : ∀ x ∈ l, clone x = x) : cloneList l = l := by
  induction l with
  | nil => rw [cloneList]
  | cons x rest ih =>
      rw [cloneList]
      rw [h x (List.mem_cons_self _ _), ih (fun y hy => h y (List.mem_cons_of_mem _ hy))]

theorem cloneFields_congr {fs : List (String × Value)} (h : ∀ kv ∈ fs, clone kv.2 = kv.2) :
    cloneFields fs = fs := by
  induction fs with
  | nil => rw [cloneFields]
  | cons kv rest ih =>
      match kv with
      | (k, v) =>
        rw [cloneFields]
        rw [h (k, v) (List.mem_cons_self _ _),
          ih (fun y hy => h y (List.mem_cons_of_mem _ hy))]

/-- A deep structural copy of an immutable tree is an equal tree. -/
theorem clone_eq_id (v : Value) : clone v = v := by
  have H : ∀ n v, sizeOf v ≤ n → clone v = v := by
    intro n
    induction n with
    | zero => intro v hv; have := value_sizeOf_pos v; omega
    | succ n ih =>
        intro v hv
        match v with
        | .undef => rw [clone]
        | .null => rw [clone]
        | .bool b => rw [clone]
        | .num q => rw [clone]
        | .str s => rw [clone]
        | .arr elems props =>
            rw [clone]
            rw [cloneList_congr (fun x hx => ih x (by
              have := List.sizeOf_lt_of_mem hx
              simp at hv
              omega))]
            rw [cloneFields_congr (fun kv hkv => ih kv.2 (by
              have := sizeOf_snd_lt_of_mem hkv
              simp at hv
              omega))]
        | .obj fields =>
            rw [clone]
            rw [cloneFields_congr (fun kv hkv => ih kv.2 (by
              have := sizeOf_snd_lt_of_mem hkv
              simp at hv
              omega))]
  exact H (sizeOf v) v (Nat.le_refl _)

/-- `JsonSchemaValidator.getDefaultTypeValue` (json-schema.js:521-540): a
single (string) type name selects a canonical empty value; a type list or an
absent type yields `null` (the fall-through `return null`). -/
def getDefaultTypeValue (type : TypeSpec) : Value :=
  match type with
  | some (.inl t) =>
      if t = "null" then .null
      else if t = "boolean" then .bool false
      else if t = "number" then .num 0
      else if t = "integer" then .num 0
      else if t = "string" then .str ""
      else if t = "array" then .arr [] []
      else if t = "object" then .obj []
      else .null
  | _ => .null

/-- The type-substitution phase of `getValidValueOrDefault`
(json-schema.js:543-559): keep a type-valid value; otherwise adopt a cloned
`schema.default` when that is itself type-valid; otherwise synthesize
`getDefaultTypeValue`.  (`typeof schemaDefault !== 'undefined'` means a
`default` of literal `undefined` is treated as absent.) -/
def substituteStep (schema : Schema) (value : Value) : Value :=
  if isValueTypeAny value (getValueType value) schema.type then value
  else
    match schema.default with
    | some .undef => getDefaultTypeValue schema.type
    | none => getDefaultTypeValue schema.type
    | some d =>
        let c := clone d
        if isValueTypeAny c (getValueType c) schema.type then c
        else getDefaultTypeValue schema.type

theorem substituteStep_unconstrained (x : Value) :
    substituteStep unconstrainedSchema x = x := by
  rw [substituteStep]
  simp [isValueTypeAny, unconstrainedSchema, Schema.type, Schema.f]

theorem sizeOf_filter_le {α : Type} [SizeOf α] (p : α → Bool) (l : List α) :
    sizeOf (l.filter p) ≤ sizeOf l := by
  induction l with
  | nil => simp
  | cons x rest ih =>
      rw [List.filter]
      cases p x <;> simp <;> omega

end Yomichan

namespace Yomichan

/-! ## `getValidValueOrDefault` (json-schema.js:542-607)

The population loops mutate the object in place in the source; here the
state is threaded explicitly.  `populatePropsLoop` iterates the snapshot of
own property names taken at entry (the JS `Set`), reading each property's
value from that snapshot: the loop writes only the key it is visiting and
the required loop before it wrote only `required` keys, which are removed
from the snapshot, so the snapshot values are the current ones. -/

mutual

/-- `JsonSchemaValidator.getValidValueOrDefault` (json-schema.js:542-571):
substitute a type-valid value (see `substituteStep`), then populate object
properties or array elements. -/
def getValidValueOrDefault (schema : Schema) (value : Value) : Value :=
  match hsub : substituteStep schema value with
  | .obj fields => .obj (populateObjectDefaults schema fields)
  | .arr elems props => .arr (populateArrayDefaults schema elems props) props
  | v => v
  termination_by (sizeOf schema, sizeOf (substituteStep schema value), 2)
  decreasing_by
    all_goals simp_wf
    all_goals rw [hsub]
    all_goals try (have hmeas : _ := list_sizeOf_pos props)
    all_goals simp [Prod.lex_def]
    all_goals omega

/-- `JsonSchemaValidator.populateObjectDefaults` (json-schema.js:573-597),
acting on the object's field list: run the `required` loop (when `required`
is an array), then repair or delete the remaining own properties. -/
def populateObjectDefaults (schema : Schema) (fields : List (String × Value)) :
    List (String × Value) :=
  match hreq : schema.required with
  | some req =>
      populatePropsLoop schema (fields.filter (fun kv => !(req.contains kv.1)))
        (populateRequiredLoop schema req fields (by rw [hreq]; rfl))
  | none => populatePropsLoop schema fields fields
  termination_by (sizeOf schema, sizeOf fields + 1, 1)
  decreasing_by
    all_goals simp_wf
    all_goals simp [Prod.lex_def]
    all_goals try (have hmeas : _ := sizeOf_filter_le (fun kv : String × Value => !(decide (kv.1 ∈ req))) fields)
    all_goals omega

/-- The `required` loop (json-schema.js:577-585): for each required name (in
order), resolve its schema against the current object; skip it when
resolution is `NotPermitted`, else repair (or insert) that property.  The
name is removed from the own-name `Set` regardless (modelled by the caller's
snapshot filter). -/
def populateRequiredLoop (schema : Schema) (req : List String)
    (fields : List (String × Value)) (h : schema.required.isSome = true) :
    List (String × Value) :=
  match req with
  | [] => fields
  | p :: rest =>
      match hres : (getPropertySchema schema (.strKey p) (.obj fields)).1 with
      | none => populateRequiredLoop schema rest fields h
      | some ps =>
          populateRequiredLoop schema rest
            (setField fields p
              (getValidValueOrDefault ps ((lookupField fields p).getD .undef))) h
  termination_by (sizeOf schema, 0, req.length)
  decreasing_by
    all_goals simp_wf
    all_goals simp [Prod.lex_def]
    all_goals try omega
    -- remaining: the repair call; `required` is present, so resolution
    -- strictly shrinks the schema
    all_goals rcases getPropertySchema_sizeOf hres with ⟨hle, hlt | huncon⟩
    all_goals try (exact Or.inl hlt)
    all_goals refine Or.inl ?_
    all_goals rw [huncon]
    all_goals obtain ⟨l, hl⟩ := Option.isSome_iff_exists.mp h
    all_goals have hu := (schema_sizeOf_bounds schema).2.2.2.2.2.1 l hl
    all_goals omega

/-- The remaining-properties loop (json-schema.js:587-594): a property whose
schema resolves to `NotPermitted` is deleted, any other is repaired in
place. -/
def populatePropsLoop (schema : Schema) (snapshot : List (String × Value))
    (fields : List (String × Value)) : List (String × Value) :=
  match snapshot with
  | [] => fields
  | (p, x) :: rest =>
      match hres : (getPropertySchema schema (.strKey p) (.obj fields)).1 with
      | none => populatePropsLoop schema rest (deleteField fields p)
      | some ps => populatePropsLoop schema rest (setField fields p (getValidValueOrDefault ps x))
  termination_by (sizeOf schema, sizeOf snapshot, 0)
  decreasing_by
    all_goals simp_wf
    all_goals simp [Prod.lex_def]
    all_goals try omega
    -- remaining: the repair call; either resolution strictly shrinks the
    -- schema, or it is the unconstrained fallback, whose substitution phase
    -- keeps the (strictly smaller) snapshot value
    all_goals rcases getPropertySchema_sizeOf hres with ⟨hle, hlt | huncon⟩
    all_goals try (exact Or.inl hlt)
    all_goals rw [huncon] at hle ⊢
    all_goals rcases Nat.lt_or_ge (sizeOf unconstrainedSchema) (sizeOf schema) with hx | hx
    all_goals try (exact Or.inl hx)
    all_goals refine Or.inr ⟨by omega, ?_⟩
    all_goals simp [substituteStep_unconstrained]
    all_goals try omega

/-- `JsonSchemaValidator.populateArrayDefaults` (json-schema.js:599-607),
acting on the element list (the array's non-index properties are untouched
by the loop and passed through by the caller). -/
def populateArrayDefaults (schema : Schema) (elems : List Value)
    (props : List (String × Value)) : List Value :=
  populateArrayLoop schema (.arr elems props) 0 elems
  termination_by (sizeOf schema, sizeOf elems + 1, 1)
  decreasing_by
    all_goals simp_wf
    all_goals simp [Prod.lex_def]
    all_goals omega

/-- The element loop (json-schema.js:600-604): skip an index whose schema
resolves to `NotPermitted`, else repair it in place.  `orig` is the array
the source resolves against; resolution depends on it only through its
runtime type (`"array"`), which the in-place updates never change. -/
def populateArrayLoop (schema : Schema) (orig : Value) (i : Nat)
    (remaining : List Value) : List Value :=
  match remaining with
  | [] => []
  | x :: rest =>
      match hres : (getPropertySchema schema (.idxKey i) orig).1 with
      | none => x :: populateArrayLoop schema orig (i + 1) rest
      | some ps =>
          getValidValueOrDefault ps x :: populateArrayLoop schema orig (i + 1) rest
  termination_by (sizeOf schema, sizeOf remaining, 0)
  decreasing_by
    all_goals simp_wf
    all_goals simp [Prod.lex_def]
    all_goals try omega
    -- remaining: the repair call (see populatePropsLoop)
    all_goals rcases getPropertySchema_sizeOf hres with ⟨hle, hlt | huncon⟩
    all_goals try (exact Or.inl hlt)
    all_goals rw [huncon] at hle ⊢
    all_goals rcases Nat.lt_or_ge (sizeOf unconstrainedSchema) (sizeOf schema) with hx | hx
    all_goals try (exact Or.inl hx)
    all_goals refine Or.inr ⟨by omega, ?_⟩
    all_goals simp [substituteStep_unconstrained]
    all_goals try omega

end

end Yomichan

namespace Yomichan

/-- `JsonSchema.getValidValueOrDefault` facade (json-schema.js:671-673). -/
def JsonSchema.getValidValueOrDefault (schema : Schema) (value : Value) : Value :=
  Yomichan.getValidValueOrDefault schema value

/-! ## The validating proxy (`JsonSchemaProxyHandler`) -/

/-- A property key as it reaches a proxy trap: a string or a symbol
(numeric accesses arrive as their decimal strings). -/
inductive PropKey where
  | strP (s : String)
  | symP (n : Nat)

/-- What the proxy `get` trap returns: a value handed through untouched, or
a value to be wrapped by `JsonSchema.createProxy` with its resolved
sub-schema (json-schema.js:76). -/
inductive GetResult where
  | raw (v : Value)
  | proxied (v : Value) (s : Schema)

/-- A symbol-keyed read off a governed target.  The trees this module
governs are cloned JSON data, which carries no symbol-keyed properties, so
the read yields `undefined`. -/
def jsGetSym (_target : Value) (_n : Nat) : Value := (.undef)

/-- `/^\d+$/.test(property)` (json-schema.js:63/81). -/
def isDigitString (s : String) : Bool :=
  !s.isEmpty && s.all Char.isDigit

/-- `parseInt(property, 10)` for an all-digits string. -/
def parseDigits (s : String) : Nat := s.toNat?.getD 0

/-- json-schema.js:70-76: the resolved-schema read shared by the non-early
branches of the `get` trap. -/
def proxyGetResolved (schema : Schema) (target : Value) (property : PropName) : GetResult :=
  match (getPropertySchema schema property target).1 with
  | none => .raw .undef
  | some ps =>
      let value :=
        match property with
        | .strKey s => jsGetProp target s
        | .idxKey n => jsIndex target n
      match value with
      | .arr elems props => .proxied (.arr elems props) ps
      | .obj fields => .proxied (.obj fields) ps
      | v => .raw v

/-- `JsonSchemaProxyHandler.get` (json-schema.js:57-77).  A symbol key is
read straight off the target (no schema resolution, no wrapping).  On an
array target a numeric-string key becomes an index and a non-numeric string
key is read directly.  Otherwise the property's schema is resolved —
`NotPermitted` reads as `undefined` (the bare `return;`) — and a non-null
object result is handed back wrapped with the resolved schema. -/
def JsonSchemaProxyHandler.get (schema : Schema) (target : Value) (property : PropKey) :
    GetResult :=
  match property with
  | .symP n => .raw (jsGetSym target n)
  | .strP s =>
      match target with
      | .arr elems props =>
          if isDigitString s then
            proxyGetResolved schema (.arr elems props) (.idxKey (parseDigits s))
          else .raw (jsGetProp (.arr elems props) s)
      | t => proxyGetResolved schema t (.strKey s)

/-- The ways `JsonSchemaProxyHandler.set` can throw. -/
inductive ProxySetError where
  /-- `Array index out of range` (json-schema.js:84). -/
  | indexOutOfRange
  /-- `Property ${property} not supported` (json-schema.js:94). -/
  | notSupported (property : String)
  /-- A `JsonSchemaValidationError` raised by the pre-commit validation
  (json-schema.js:99). -/
  | validationError (e : JsonSchemaValidationError)
  /-- The engine's `RangeError` when assigning an invalid array `length`. -/
  | invalidArrayLength

/-- `target.length = q` on an array: truncate, or extend with holes (a hole
reads back as `undefined`, modelled by `.undef`). -/
def jsArraySetLength (elems : List Value) (n : Nat) : List Value :=
  if n ≤ elems.length then elems.take n
  else elems ++ List.replicate (n - elems.length) (.undef)

/-- The raw store of json-schema.js:87 (`target[property] = value` for a
non-index string key on an array target).  Assigning `length` resizes the
array — an invalid length value raises the engine's `RangeError` (JavaScript
also coerces some non-number length values; those corners are outside the
model and outside every theorem below).  Any other name is stored as a plain
property. -/
def jsArraySetNamed (elems : List Value) (props : List (String × Value))
    (property : String) (value : Value) : Except ProxySetError Value :=
  if property = "length" then
    match value with
    | .num q =>
        if (q.floor : ℚ) = q ∧ 0 ≤ q then .ok (.arr (jsArraySetLength elems q.floor.toNat) props)
        else .error .invalidArrayLength
    | _ => .error .invalidArrayLength
  else .ok (.arr elems (setField props property value))

/-- `target[property] = v` after the trap's checks: update an object field,
or set/append an array element (the trap's range check keeps the index at
most one past the end). -/
def jsSet (target : Value) (property : PropName) (v : Value) : Value :=
  match target, property with
  | .obj fields, p => .obj (setField fields p.asObjectKey v)
  | .arr elems props, .idxKey n =>
      if n < elems.length then .arr (elems.set n v) props
      else .arr (elems ++ [v]) props
  | .arr elems props, .strKey p => .arr elems (setField props p v)
  | t, _ => t

/-- json-schema.js:92-102: the resolve-clone-validate-commit tail of the
`set` trap. -/
def proxySetValidated (re : RegexEngine) (schema : Schema) (target : Value)
    (property : PropName) (value : Value) : Except ProxySetError Value :=
  match (getPropertySchema schema property target).1 with
  | none => .error (.notSupported property.asObjectKey)
  | some ps =>
      let v := clone value
      match (validate re v ps (JsonSchemaTraversalInfo.init v ps)).1 with
      | .error e => .error (.validationError e)
      | .ok _ => .ok (jsSet target property v)

/-- `JsonSchemaProxyHandler.set` (json-schema.js:79-103) for a string
property key (symbol-keyed writes are not modelled; the spec and the claims
concern string/index writes).  On an array target a numeric-string key is
range-checked (`property > target.length` throws) and then validated like
any other write; a non-numeric string key is stored raw, with no resolution,
cloning, or validation.  All other writes resolve the governing schema
(throwing `Property ... not supported` on `NotPermitted`), clone the
incoming value, validate the clone with a fresh `TraversalInfo` rooted at
it, and only on success commit the clone into the target. -/
def JsonSchemaProxyHandler.set (re : RegexEngine) (schema : Schema) (target : Value)
    (property : String) (value : Value) : Except ProxySetError Value :=
  match target with
  | .arr elems props =>
      if isDigitString property then
        let n := parseDigits property
        if n > elems.length then .error .indexOutOfRange
        else proxySetValidated re schema (.arr elems props) (.idxKey n) value
      else
        jsArraySetNamed elems props property value
  | t => proxySetValidated re schema t (.strKey property) value

end Yomichan

namespace Yomichan

/-! ## Concrete instances used by the claim theorems and witnesses -/

/-- A regex engine that compiles nothing; the concrete schemas below carry
no `pattern`, so it is never consulted. -/
def noRegex : RegexEngine := fun _ _ => .error "regex engine unavailable"

/-- `{ type: "number", minimum: 5 }` -/
def numMinSchema : Schema := .mk { type := some (.inl "number"), minimum := some 5 }

/-- `{ type: "object", minProperties: 1 }` -/
def minPropSchema : Schema := .mk { type := some (.inl "object"), minProperties := some 1 }

/-- `{ type: "object", maxProperties: 0 }` -/
def maxPropSchema : Schema := .mk { type := some (.inl "object"), maxProperties := some 0 }

/-- `{ type: "integer" }` -/
def intSchema : Schema := .mk { type := some (.inl "integer") }

/-- `{ type: ["string", "number"] }` -/
def strNumSchema : Schema := .mk { type := some (.inr ["string", "number"]) }

/-- `{ const: c }` -/
def constSchema (c : Value) : Schema := .mk { const := some c }

/-- The object value `{ a: 1 }`. -/
def objA1 : Value := .obj [("a", .num 1)]

/-- `{ type: "string" }` -/
def strSchema : Schema := .mk { type := some (.inl "string") }

/-- `{ oneOf: [ {type:"string"}, {} ] }` — a string matches both entries. -/
def oneOfSchema : Schema := .mk { oneOf := some [strSchema, unconstrainedSchema] }

/-- `{ anyOf: [ {} ] }` -/
def anyOfSchema : Schema := .mk { anyOf := some [unconstrainedSchema] }

/-- `{ type: "object", properties: { count: { type: "number", minimum: 5 } } }` -/
def countObjSchema : Schema :=
  .mk { type := some (.inl "object"), properties := some [("count", numMinSchema)] }

end Yomichan

namespace Yomichan

/-! ## Claim theorems -/

/-- C10: for every proxy created by `createProxy` and every symbol-typed
property key, a property read returns the underlying target's value for that
key directly: the result is the same for every schema (the schema is never
consulted) and is handed back raw, not wrapped in a child proxy. -/
theorem C10_symbol_get_bypasses_schema (schema : Schema) (target : Value) (n : Nat) :
    JsonSchemaProxyHandler.get schema target (.symP n) = .raw (jsGetSym target n) := by
  rw [JsonSchemaProxyHandler.get]

/-- C8, counterexample: the claim asserts that for a schema whose `type`
list includes `"integer"` every non-number value fails the type check; but
for `type: ["integer", "string"]` the string `"a"` (not a number, let alone
an integral one) passes the type check through the `"string"` entry. -/
theorem C8_counterexample :
    isValueTypeAny (.str "a") (getValueType (.str "a"))
      (some (.inr ["integer", "string"])) = true
    ∧ jsFloorEqSelf (.str "a") = false := by
  constructor
  · rfl
  · rfl

/-- C8, amended: when `schema.type` is the single name `"integer"`, the type
check of `validate` accepts exactly the numeric values with zero fractional
part (`Math.floor(value) === value`), and a full `validate` against
`{ type: "integer" }` succeeds on exactly those values; when `"integer"`
merely appears in a type list, its own entry matches exactly those values
but other listed entries may accept values of their own types. -/
theorem C8_integer_type_check (re : RegexEngine) (v : Value) :
    isValueTypeAny v (getValueType v) (some (.inl "integer")) = jsFloorEqSelf v
    ∧ (∀ t : String, isValueType v (getValueType v) "integer" = jsFloorEqSelf v)
    ∧ vOk (JsonSchema.validate re v intSchema).1 = jsFloorEqSelf v := by
  refine ⟨?_, fun t => ?_, ?_⟩
  · cases v <;> simp [isValueTypeAny, isValueType, getValueType, jsFloorEqSelf]
  · cases v <;> simp [isValueType, getValueType, jsFloorEqSelf]
  · cases v <;>
      simp [JsonSchema.validate, validate, validateSingleSchema, validateConditional,
        validateAllOf, validateAnyOf, validateOneOf, validateNoneOf, validateNumber,
        validateString, validateArray, validateObject, intSchema, isValueTypeAny, isValueType,
        getValueType, jsFloorEqSelf, Schema.type, Schema.const, Schema.enum, Schema.f,
        constViolated, enumViolated, Schema.ifSchema, Schema.allOf, Schema.anyOf, Schema.oneOf,
        Schema.notSchemas, Schema.multipleOf, Schema.minimum, Schema.exclusiveMinimum,
        Schema.maximum, Schema.exclusiveMaximum, vOk] <;>
      rename_i q <;> by_cases hq : (q.floor : ℚ) = q <;>
        simp [hq, vOk]

end Yomichan

namespace Yomichan

/-- C3 (code bug): `validateObject` builds `properties` as a JS `Set`
(json-schema.js:440) and then reads `properties.length` (lines 452/457); a
`Set` has `size`, not `length`, so the read yields `undefined`, both
comparisons with it are false, and the `minProperties`/`maxProperties`
checks can never raise — here: they are dead for every schema, and
validating the empty object against `{ type: "object", minProperties: 1 }`
(which the claim says must raise) succeeds. -/
theorem C3_property_count_checks_dead :
    (∀ s : Schema, minPropertiesViolated s = false ∧ maxPropertiesViolated s = false)
    ∧ (JsonSchema.validate noRegex (.obj []) minPropSchema).1 = .ok () := by
  constructor
  · intro s
    constructor
    · rw [minPropertiesViolated]
      split <;> rfl
    · rw [maxPropertiesViolated]
      split <;> rfl
  · simp [JsonSchema.validate, validate, validateSingleSchema, validateConditional,
      validateAllOf, validateAnyOf, validateOneOf, validateNoneOf, validateObject,
      validateObjectLoop, minPropSchema, isValueTypeAny, isValueType, getValueType,
      jsFloorEqSelf, Schema.type, Schema.const, Schema.enum, Schema.f, constViolated,
      enumViolated, Schema.ifSchema, Schema.allOf, Schema.anyOf, Schema.oneOf,
      Schema.notSchemas, minPropertiesViolated, maxPropertiesViolated, requiredMissing,
      Schema.required, Schema.minProperties, Schema.maxProperties, jsUndefinedLtNum,
      jsUndefinedGtNum]

/-- C9: when `schema.type` is a list of type names, the value's runtime type
matches none of them, and `schema.default` is absent or itself fails the
type check, `getValidValueOrDefault` synthesizes `null`
(`getDefaultTypeValue` returns `null` for any non-string `type`), so for a
list not containing `"null"` the result violates the schema's own type
constraint. -/
theorem C9_list_type_synthesizes_null (s : Schema) (v : Value) (l : List String)
    (ht : s.type = some (.inr l))
    (hv : isValueTypeAny v (getValueType v) s.type = false)
    (hd : ∀ d, s.default = some d →
      isValueTypeAny (clone d) (getValueType (clone d)) s.type = false) :
    getValidValueOrDefault s v = .null
    ∧ ("null" ∉ l → isValueTypeAny .null (getValueType .null) s.type = false) := by
  have hdt : getDefaultTypeValue s.type = .null := by
    rw [ht, getDefaultTypeValue.eq_def]
  have hsub : substituteStep s v = .null := by
    rw [substituteStep, hv]
    simp only [Bool.false_eq_true, if_false]
    match hdef : s.default with
    | none => exact hdt
    | some .undef => exact hdt
    | some .null => simp [hd _ hdef, hdt]
    | some (.bool b) => simp [hd _ hdef, hdt]
    | some (.num q) => simp [hd _ hdef, hdt]
    | some (.str st) => simp [hd _ hdef, hdt]
    | some (.arr el pr) => simp [hd _ hdef, hdt]
    | some (.obj fl) => simp [hd _ hdef, hdt]
  constructor
  · rw [getValidValueOrDefault, hsub]
  · intro hnull
    rw [ht]
    simp only [isValueTypeAny]
    rw [List.any_eq_false]
    intro x hx
    simp only [isValueType, getValueType, jsFloorEqSelf, Bool.and_false, Bool.or_false]
    simp only [beq_iff_eq]
    intro h
    exact hnull (h ▸ hx)

/-- Witness for C9 at `type: ["string","number"]`, value `true`, no
default: the repaired value is `null`, which itself fails the schema's type
check. -/
theorem C9_witness :
    getValidValueOrDefault strNumSchema (.bool true) = .null
    ∧ isValueTypeAny .null (getValueType .null) strNumSchema.type = false := by
  have h := C9_list_type_synthesizes_null strNumSchema (.bool true) ["string", "number"]
    (by rfl) (by rfl) (by intro d hd; simp [strNumSchema, Schema.default, Schema.f] at hd)
  refine ⟨h.1, ?_⟩
  have h2 := h.2 (by decide)
  rw [strNumSchema] at *
  exact h2

end Yomichan

namespace Yomichan

/-- C1, counterexample: `getValidValueOrDefault({type:"number",minimum:5}, 0)`
returns `0` (type-valid, so passed through with no repair), but a subsequent
`validate(0, schema)` raises `Number is less than 5`: the claim's "a
subsequent validate(result, schema) succeeds" is false. -/
theorem C1_counterexample :
    getValidValueOrDefault numMinSchema (.num 0) = .num 0
    ∧ (JsonSchema.validate noRegex (.num 0) numMinSchema).1 ≠ .ok () := by
  constructor
  · simp [getValidValueOrDefault, substituteStep, isValueTypeAny, isValueType, getValueType,
      jsFloorEqSelf, numMinSchema, Schema.type, Schema.f]
  · simp [JsonSchema.validate, validate, validateSingleSchema, validateNumber, numMinSchema,
      isValueTypeAny, isValueType, getValueType, jsFloorEqSelf, Schema.type, Schema.const,
      Schema.enum, Schema.f, constViolated, enumViolated, Schema.multipleOf, Schema.minimum]

/-- Auxiliary for C1: `isValueTypeAny` only inspects a value through its
runtime type and the integral-number test. -/
theorem isValueTypeAny_congr {v w : Value} (st : TypeSpec)
    (h1 : getValueType v = getValueType w) (h2 : jsFloorEqSelf v = jsFloorEqSelf w) :
    isValueTypeAny v (getValueType v) st = isValueTypeAny w (getValueType w) st := by
  match st with
  | none => rfl
  | some (.inl t) => simp [isValueTypeAny, isValueType, h1, h2]
  | some (.inr l) =>
      simp only [isValueTypeAny]
      congr 1
      funext t
      simp [isValueType, h1, h2]

/-- Auxiliary for C1: the substitution phase always yields a type-valid
value when the schema's `type` is a single known type name. -/
theorem substituteStep_type_valid (s : Schema) (v : Value) (t : String)
    (ht : s.type = some (.inl t))
    (hknown : t = "null" ∨ t = "boolean" ∨ t = "number" ∨ t = "integer" ∨ t = "string"
      ∨ t = "array" ∨ t = "object") :
    isValueTypeAny (substituteStep s v) (getValueType (substituteStep s v)) s.type = true := by
  rw [substituteStep]
  split
  · assumption
  · have hdt : isValueTypeAny (getDefaultTypeValue s.type)
        (getValueType (getDefaultTypeValue s.type)) s.type = true := by
      rw [ht]
      rcases hknown with h | h | h | h | h | h | h <;> subst h <;> rfl
    match hdef : s.default with
    | none => exact hdt
    | some .undef => exact hdt
    | some .null => dsimp only; split <;> [assumption; exact hdt]
    | some (.bool b) => dsimp only; split <;> [assumption; exact hdt]
    | some (.num q) => dsimp only; split <;> [assumption; exact hdt]
    | some (.str st) => dsimp only; split <;> [assumption; exact hdt]
    | some (.arr el pr) => dsimp only; split <;> [assumption; exact hdt]
    | some (.obj fl) => dsimp only; split <;> [assumption; exact hdt]

/-- C1, amended: `getValidValueOrDefault` is a total function (it always
returns, never raises), and when `schema.type` is a single known type name
its result's runtime type satisfies `schema.type`.  (The original claim's
stronger assertion — that a subsequent full `validate` always succeeds —
fails, e.g. for value constraints like `minimum`, see `C1_counterexample`;
and for a list-typed `type` the synthesized `null` can violate the type
itself, see C9.) -/
theorem C1_result_type_valid (s : Schema) (v : Value) (t : String)
    (ht : s.type = some (.inl t))
    (hknown : t = "null" ∨ t = "boolean" ∨ t = "number" ∨ t = "integer" ∨ t = "string"
      ∨ t = "array" ∨ t = "object") :
    isValueTypeAny (getValidValueOrDefault s v)
      (getValueType (getValidValueOrDefault s v)) s.type = true := by
  have hsub := substituteStep_type_valid s v t ht hknown
  rw [getValidValueOrDefault]
  match hv' : substituteStep s v with
  | .obj fields =>
      rw [hv'] at hsub
      calc isValueTypeAny (.obj (populateObjectDefaults s fields))
            (getValueType (.obj (populateObjectDefaults s fields))) s.type
          = isValueTypeAny (.obj fields) (getValueType (.obj fields)) s.type :=
            isValueTypeAny_congr s.type rfl rfl
        _ = true := hsub
  | .arr elems props =>
      rw [hv'] at hsub
      calc isValueTypeAny (.arr (populateArrayDefaults s elems props) props)
            (getValueType (.arr (populateArrayDefaults s elems props) props)) s.type
          = isValueTypeAny (.arr elems props) (getValueType (.arr elems props)) s.type :=
            isValueTypeAny_congr s.type rfl rfl
        _ = true := hsub
  | .undef => rw [hv'] at hsub; exact hsub
  | .null => rw [hv'] at hsub; exact hsub
  | .bool b => rw [hv'] at hsub; exact hsub
  | .num q => rw [hv'] at hsub; exact hsub
  | .str st => rw [hv'] at hsub; exact hsub

/-- Witness for C1 (amended) at `{type:"number",minimum:5}` and the
non-number value `"x"`: the repaired value is type-valid. -/
theorem C1_result_type_valid_witness :
    isValueTypeAny (getValidValueOrDefault numMinSchema (.str "x"))
      (getValueType (getValidValueOrDefault numMinSchema (.str "x"))) numMinSchema.type
      = true :=
  C1_result_type_valid numMinSchema (.str "x") "number" (by rfl)
    (Or.inr (Or.inr (Or.inl rfl)))

end Yomichan

namespace Yomichan

/-! ## The validation outcome does not depend on the traversal info

The traversal info only decorates raised errors; whether a (sub)validation
completes is decided by the value and schema alone.  `vOk_validate_irrel`
makes that precise; it underpins the `oneOf` counting theorem. -/

theorem validateNumber_vOk_irrel (v : Value) (s : Schema)
    (i1 i2 : JsonSchemaTraversalInfo) :
    vOk (validateNumber v s i1).1 = vOk (validateNumber v s i2).1 := by
  rw [validateNumber.eq_def, validateNumber.eq_def]
  cases v <;> dsimp only <;> (repeat' split) <;> rfl

theorem validateString_vOk_irrel (re : RegexEngine) (v : Value) (s : Schema)
    (i1 i2 : JsonSchemaTraversalInfo) :
    vOk (validateString re v s i1).1 = vOk (validateString re v s i2).1 := by
  rw [validateString.eq_def, validateString.eq_def]
  cases v <;> dsimp only <;> (repeat' split) <;> rfl

end Yomichan

namespace Yomichan

/-- Whether `validate` completes or throws is independent of the traversal
info it is handed; the info only decorates the raised error.  (Proved
together with the corresponding statements for every helper the recursion
passes through, by strong induction on the combined size of schema and
value.) -/
theorem vOk_validate_irrel (re : RegexEngine) :
    ∀ (N : ℕ) (s : Schema) (v : Value), sizeOf s + sizeOf v ≤ N →
    ∀ i1 i2, vOk (validate re v s i1).1 = vOk (validate re v s i2).1 := by
  intro N
  induction N using Nat.strong_induction_on with
  | _ N IH =>
  intro s v hN i1 i2
  have hIH : ∀ (s' : Schema) (v' : Value), sizeOf s' + sizeOf v' < sizeOf s + sizeOf v →
      ∀ j1 j2, vOk (validate re v' s' j1).1 = vOk (validate re v' s' j2).1 := by
    intro s' v' hlt j1 j2
    exact IH (sizeOf s' + sizeOf v') (by omega) s' v' (le_refl _) j1 j2
  -- combinator loops
  have hAnyLoop : ∀ (subs : List Schema) (hsub : ∀ x ∈ subs, sizeOf x < sizeOf s)
      (n : ℕ) (j1 j2 : JsonSchemaTraversalInfo),
      (validateAnyOfLoop re v s subs n j1 hsub).1 = (validateAnyOfLoop re v s subs n j2 hsub).1 := by
    intro subs
    induction subs with
    | nil => intro hsub n j1 j2; simp [validateAnyOfLoop]
    | cons sub rest ihl =>
        intro hsub n j1 j2
        rw [validateAnyOfLoop.eq_def, validateAnyOfLoop.eq_def]
        dsimp only
        have h := hIH sub v (by
            have := hsub sub (List.mem_cons_self _ _)
            have := value_sizeOf_pos v
            omega)
          (j1.schemaPush (.idx n) (.one sub)) (j2.schemaPush (.idx n) (.one sub))
        rcases hr1 : validate re v sub (j1.schemaPush (.idx n) (.one sub)) with ⟨r1, k1⟩
        rcases hr2 : validate re v sub (j2.schemaPush (.idx n) (.one sub)) with ⟨r2, k2⟩
        rw [hr1, hr2] at h
        match r1, r2, h with
        | .ok _, .ok _, _ => rfl
        | .error _, .error _, _ =>
            dsimp only
            exact ihl (fun x hx => hsub x (List.mem_cons_of_mem _ hx)) (n + 1) _ _
        | .ok _, .error _, hcon => simp [vOk] at hcon
        | .error _, .ok _, hcon => simp [vOk] at hcon
  have hAllLoop : ∀ (subs : List Schema) (hsub : ∀ x ∈ subs, sizeOf x < sizeOf s)
      (n : ℕ) (j1 j2 : JsonSchemaTraversalInfo),
      vOk (validateAllOfLoop re v s subs n j1 hsub).1
        = vOk (validateAllOfLoop re v s subs n j2 hsub).1 := by
    intro subs
    induction subs with
    | nil => intro hsub n j1 j2; simp [validateAllOfLoop]
    | cons sub rest ihl =>
        intro hsub n j1 j2
        rw [validateAllOfLoop.eq_def, validateAllOfLoop.eq_def]
        dsimp only
        have h := hIH sub v (by
            have := hsub sub (List.mem_cons_self _ _)
            have := value_sizeOf_pos v
            omega)
          (j1.schemaPush (.idx n) (.one sub)) (j2.schemaPush (.idx n) (.one sub))
        rcases hr1 : validate re v sub (j1.schemaPush (.idx n) (.one sub)) with ⟨r1, k1⟩
        rcases hr2 : validate re v sub (j2.schemaPush (.idx n) (.one sub)) with ⟨r2, k2⟩
        rw [hr1, hr2] at h
        match r1, r2, h with
        | .ok _, .ok _, _ =>
            dsimp only
            exact ihl (fun x hx => hsub x (List.mem_cons_of_mem _ hx)) (n + 1) _ _
        | .error e1, .error e2, _ => rfl
        | .ok _, .error _, hcon => simp [vOk] at hcon
        | .error _, .ok _, hcon => simp [vOk] at hcon
  have hOneLoop : ∀ (subs : List Schema) (hsub : ∀ x ∈ subs, sizeOf x < sizeOf s)
      (n : ℕ) (j1 j2 : JsonSchemaTraversalInfo),
      (validateOneOfLoop re v s subs n j1 hsub).1 = (validateOneOfLoop re v s subs n j2 hsub).1 := by
    intro subs
    induction subs with
    | nil => intro hsub n j1 j2; simp [validateOneOfLoop]
    | cons sub rest ihl =>
        intro hsub n j1 j2
        rw [validateOneOfLoop.eq_def, validateOneOfLoop.eq_def]
        dsimp only
        have h := hIH sub v (by
            have := hsub sub (List.mem_cons_self _ _)
            have := value_sizeOf_pos v
            omega)
          (j1.schemaPush (.idx n) (.one sub)) (j2.schemaPush (.idx n) (.one sub))
        rcases hr1 : validate re v sub (j1.schemaPush (.idx n) (.one sub)) with ⟨r1, k1⟩
        rcases hr2 : validate re v sub (j2.schemaPush (.idx n) (.one sub)) with ⟨r2, k2⟩
        rw [hr1, hr2] at h
        dsimp only
        have hrec := ihl (fun x hx => hsub x (List.mem_cons_of_mem _ hx)) (n + 1)
          k1.schemaPop k2.schemaPop
        rcases hq1 : validateOneOfLoop re v s rest (n + 1) k1.schemaPop
          (fun x hx => hsub x (List.mem_cons_of_mem _ hx)) with ⟨c1, m1⟩
        rcases hq2 : validateOneOfLoop re v s rest (n + 1) k2.schemaPop
          (fun x hx => hsub x (List.mem_cons_of_mem _ hx)) with ⟨c2, m2⟩
        rw [hq1, hq2] at hrec
        dsimp only at h hrec ⊢
        rw [hrec, h]
  have hNoneLoop : ∀ (subs : List Schema) (hsub : ∀ x ∈ subs, sizeOf x < sizeOf s)
      (n : ℕ) (j1 j2 : JsonSchemaTraversalInfo),
      vOk (validateNoneOfLoop re v s subs n j1 hsub).1
        = vOk (validateNoneOfLoop re v s subs n j2 hsub).1 := by
    intro subs
    induction subs with
    | nil => intro hsub n j1 j2; simp [validateNoneOfLoop]
    | cons sub rest ihl =>
        intro hsub n j1 j2
        rw [validateNoneOfLoop.eq_def, validateNoneOfLoop.eq_def]
        dsimp only
        have h := hIH sub v (by
            have := hsub sub (List.mem_cons_self _ _)
            have := value_sizeOf_pos v
            omega)
          (j1.schemaPush (.idx n) (.one sub)) (j2.schemaPush (.idx n) (.one sub))
        rcases hr1 : validate re v sub (j1.schemaPush (.idx n) (.one sub)) with ⟨r1, k1⟩
        rcases hr2 : validate re v sub (j2.schemaPush (.idx n) (.one sub)) with ⟨r2, k2⟩
        rw [hr1, hr2] at h
        match r1, r2, h with
        | .ok _, .ok _, _ => rfl
        | .error _, .error _, _ =>
            dsimp only
            exact ihl (fun x hx => hsub x (List.mem_cons_of_mem _ hx)) (n + 1) _ _
        | .ok _, .error _, hcon => simp [vOk] at hcon
        | .error _, .ok _, hcon => simp [vOk] at hcon
  -- container loops
  have hObjLoop : ∀ (names : List String) (hvp : ∀ p, sizeOf (jsGetProp v p) < sizeOf v)
      (j1 j2 : JsonSchemaTraversalInfo),
      vOk (validateObjectLoop re v s names j1 hvp).1
        = vOk (validateObjectLoop re v s names j2 hvp).1 := by
    intro names
    induction names with
    | nil => intro hvp j1 j2; simp [validateObjectLoop]
    | cons p rest ihl =>
        intro hvp j1 j2
        rw [validateObjectLoop.eq_def, validateObjectLoop.eq_def]
        dsimp only
        rcases hgp : getPropertySchema s (.strKey p) v with ⟨pso, path⟩
        match pso with
        | none => rfl
        | some ps =>
            dsimp only
            have hps : (getPropertySchema s (.strKey p) v).1 = some ps := by rw [hgp]
            have hle := (getPropertySchema_sizeOf hps).1
            have h := hIH ps (jsGetProp v p) (by have := hvp p; omega)
              ((j1.schemaPushAll path).valuePush (.str p) (jsGetProp v p))
              ((j2.schemaPushAll path).valuePush (.str p) (jsGetProp v p))
            rcases hr1 : validate re (jsGetProp v p) ps
              ((j1.schemaPushAll path).valuePush (.str p) (jsGetProp v p)) with ⟨r1, k1⟩
            rcases hr2 : validate re (jsGetProp v p) ps
              ((j2.schemaPushAll path).valuePush (.str p) (jsGetProp v p)) with ⟨r2, k2⟩
            rw [hr1, hr2] at h
            match r1, r2, h with
            | .ok _, .ok _, _ => exact ihl hvp _ _
            | .error _, .error _, _ => rfl
            | .ok _, .error _, hcon => simp [vOk] at hcon
            | .error _, .ok _, hcon => simp [vOk] at hcon
  have hArrLoop : ∀ (k len n : ℕ), len - n ≤ k →
      ∀ (hvp : ∀ j, sizeOf (jsIndex v j) < sizeOf v) (j1 j2 : JsonSchemaTraversalInfo),
      vOk (validateArrayLoop re v s len n j1 hvp).1
        = vOk (validateArrayLoop re v s len n j2 hvp).1 := by
    intro k
    induction k with
    | zero =>
        intro len n hk hvp j1 j2
        rw [validateArrayLoop.eq_def, validateArrayLoop.eq_def]
        rw [dif_neg (by omega), dif_neg (by omega)]
    | succ k ihk =>
        intro len n hk hvp j1 j2
        rw [validateArrayLoop.eq_def, validateArrayLoop.eq_def]
        by_cases hc : n < len
        · rw [dif_pos hc, dif_pos hc]
          rcases hgp : getPropertySchema s (.idxKey n) v with ⟨pso, path⟩
          match pso with
          | none => rfl
          | some ps =>
              dsimp only
              have hps : (getPropertySchema s (.idxKey n) v).1 = some ps := by rw [hgp]
              have hle := (getPropertySchema_sizeOf hps).1
              have h := hIH ps (jsIndex v n) (by have := hvp n; omega)
                ((j1.schemaPushAll path).valuePush (.idx n) (jsIndex v n))
                ((j2.schemaPushAll path).valuePush (.idx n) (jsIndex v n))
              rcases hr1 : validate re (jsIndex v n) ps
                ((j1.schemaPushAll path).valuePush (.idx n) (jsIndex v n)) with ⟨r1, k1⟩
              rcases hr2 : validate re (jsIndex v n) ps
                ((j2.schemaPushAll path).valuePush (.idx n) (jsIndex v n)) with ⟨r2, k2⟩
              rw [hr1, hr2] at h
              match r1, r2, h with
              | .ok _, .ok _, _ => exact ihk len (n + 1) (by omega) hvp _ _
              | .error _, .error _, _ => rfl
              | .ok _, .error _, hcon => simp [vOk] at hcon
              | .error _, .ok _, hcon => simp [vOk] at hcon
        · rw [dif_neg hc, dif_neg hc]
  -- the per-type dispatch targets
  have hObj : ∀ j1 j2, vOk (validateObject re v s j1).1 = vOk (validateObject re v s j2).1 := by
    intro j1 j2
    rw [validateObject.eq_def, validateObject.eq_def]
    cases v with
    | obj fields =>
        dsimp only
        match requiredMissing (fields.map Prod.fst) s with
        | some p => rfl
        | none =>
            dsimp only
            split
            · rfl
            · split
              · rfl
              · exact hObjLoop (fields.map Prod.fst) _ _ _
    | undef => rfl
    | null => rfl
    | bool b => rfl
    | num q => rfl
    | str st => rfl
    | arr elems props => rfl
  have hArr : ∀ j1 j2, vOk (validateArray re v s j1).1 = vOk (validateArray re v s j2).1 := by
    intro j1 j2
    rw [validateArray.eq_def, validateArray.eq_def]
    cases v with
    | arr elems props =>
        dsimp only
        split
        · rfl
        · split
          · rfl
          · exact hArrLoop elems.length elems.length 0 (le_refl _) _ _ _
    | obj fields => rfl
    | undef => rfl
    | null => rfl
    | bool b => rfl
    | num q => rfl
    | str st => rfl
  have hSingle : ∀ j1 j2,
      vOk (validateSingleSchema re v s j1).1 = vOk (validateSingleSchema re v s j2).1 := by
    intro j1 j2
    rw [validateSingleSchema.eq_def, validateSingleSchema.eq_def]
    dsimp only
    split
    · rfl
    · split
      · rfl
      · split
        · rfl
        · split
          · exact validateNumber_vOk_irrel v s j1 j2
          · split
            · exact validateString_vOk_irrel re v s j1 j2
            · split
              · exact hArr j1 j2
              · split
                · exact hObj j1 j2
                · rfl
  have hCond : ∀ j1 j2,
      vOk (validateConditional re v s j1).1 = vOk (validateConditional re v s j2).1 := by
    intro j1 j2
    rw [validateConditional.eq_def, validateConditional.eq_def]
    dsimp only
    match hif : s.ifSchema with
    | none => rfl
    | some ifs =>
        dsimp only
        have hifs := sizeOf_lt_of_conditional (Or.inl hif)
        have h := hIH ifs v (by omega)
          (j1.schemaPush (.str "if") (.one ifs)) (j2.schemaPush (.str "if") (.one ifs))
        rcases hr1 : validate re v ifs (j1.schemaPush (.str "if") (.one ifs)) with ⟨r1, k1⟩
        rcases hr2 : validate re v ifs (j2.schemaPush (.str "if") (.one ifs)) with ⟨r2, k2⟩
        rw [hr1, hr2] at h
        dsimp only
        rw [show vOk r2 = vOk r1 from h.symm]
        match hnx : (if vOk r1 then s.thenSchema else s.elseSchema) with
        | none => rfl
        | some ns =>
            dsimp only
            have hns : sizeOf ns < sizeOf s := by
              rcases hb : vOk r1 <;> rw [hb] at hnx <;> simp at hnx
              · exact sizeOf_lt_of_conditional (Or.inr (Or.inr hnx))
              · exact sizeOf_lt_of_conditional (Or.inr (Or.inl hnx))
            have h2 := hIH ns v (by omega)
              (k1.schemaPop.schemaPush (.str (if vOk r1 then "then" else "else")) (.one ns))
              (k2.schemaPop.schemaPush (.str (if vOk r1 then "then" else "else")) (.one ns))
            rcases hq1 : validate re v ns
              (k1.schemaPop.schemaPush (.str (if vOk r1 then "then" else "else")) (.one ns))
              with ⟨q1, m1⟩
            rcases hq2 : validate re v ns
              (k2.schemaPop.schemaPush (.str (if vOk r1 then "then" else "else")) (.one ns))
              with ⟨q2, m2⟩
            rw [hq1, hq2] at h2
            match q1, q2, h2 with
            | .ok _, .ok _, _ => rfl
            | .error _, .error _, _ => rfl
            | .ok _, .error _, hcon => simp [vOk] at hcon
            | .error _, .ok _, hcon => simp [vOk] at hcon
  have hAllOf : ∀ j1 j2, vOk (validateAllOf re v s j1).1 = vOk (validateAllOf re v s j2).1 := by
    intro j1 j2
    rw [validateAllOf.eq_def, validateAllOf.eq_def]
    split
    · rfl
    · rename_i subs hall
      try dsimp only
      have h := hAllLoop subs (fun x hx => sizeOf_lt_of_mem_field (Or.inl hall) hx) 0
        (j1.schemaPush (.str "allOf") (.many subs)) (j2.schemaPush (.str "allOf") (.many subs))
      rcases hr1 : validateAllOfLoop re v s subs 0 (j1.schemaPush (.str "allOf") (.many subs))
        (fun x hx => sizeOf_lt_of_mem_field (Or.inl hall) hx) with ⟨r1, k1⟩
      rcases hr2 : validateAllOfLoop re v s subs 0 (j2.schemaPush (.str "allOf") (.many subs))
        (fun x hx => sizeOf_lt_of_mem_field (Or.inl hall) hx) with ⟨r2, k2⟩
      rw [hr1, hr2] at h
      match r1, r2, h with
      | .ok _, .ok _, _ => rfl
      | .error _, .error _, _ => rfl
      | .ok _, .error _, hcon => simp [vOk] at hcon
      | .error _, .ok _, hcon => simp [vOk] at hcon
  have hAnyOf : ∀ j1 j2, vOk (validateAnyOf re v s j1).1 = vOk (validateAnyOf re v s j2).1 := by
    intro j1 j2
    rw [validateAnyOf.eq_def, validateAnyOf.eq_def]
    split
    · rfl
    · rename_i subs hany
      try dsimp only
      have h := hAnyLoop subs (fun x hx => sizeOf_lt_of_mem_field (Or.inr (Or.inl hany)) hx) 0
        (j1.schemaPush (.str "anyOf") (.many subs)) (j2.schemaPush (.str "anyOf") (.many subs))
      rcases hr1 : validateAnyOfLoop re v s subs 0 (j1.schemaPush (.str "anyOf") (.many subs))
        (fun x hx => sizeOf_lt_of_mem_field (Or.inr (Or.inl hany)) hx) with ⟨b1, k1⟩
      rcases hr2 : validateAnyOfLoop re v s subs 0 (j2.schemaPush (.str "anyOf") (.many subs))
        (fun x hx => sizeOf_lt_of_mem_field (Or.inr (Or.inl hany)) hx) with ⟨b2, k2⟩
      rw [hr1, hr2] at h
      dsimp only at h
      subst h
      match b1 with
      | true => rfl
      | false => rfl
  have hOneOf : ∀ j1 j2, vOk (validateOneOf re v s j1).1 = vOk (validateOneOf re v s j2).1 := by
    intro j1 j2
    rw [validateOneOf.eq_def, validateOneOf.eq_def]
    split
    · rfl
    · rename_i subs hone
      try dsimp only
      have h := hOneLoop subs
        (fun x hx => sizeOf_lt_of_mem_field (Or.inr (Or.inr (Or.inl hone))) hx) 0
        (j1.schemaPush (.str "oneOf") (.many subs)) (j2.schemaPush (.str "oneOf") (.many subs))
      rcases hr1 : validateOneOfLoop re v s subs 0 (j1.schemaPush (.str "oneOf") (.many subs))
        (fun x hx => sizeOf_lt_of_mem_field (Or.inr (Or.inr (Or.inl hone))) hx) with ⟨c1, k1⟩
      rcases hr2 : validateOneOfLoop re v s subs 0 (j2.schemaPush (.str "oneOf") (.many subs))
        (fun x hx => sizeOf_lt_of_mem_field (Or.inr (Or.inr (Or.inl hone))) hx) with ⟨c2, k2⟩
      rw [hr1, hr2] at h
      dsimp only at h
      subst h
      dsimp only
      split
      · rfl
      · rfl
  have hNoneOf : ∀ j1 j2, vOk (validateNoneOf re v s j1).1 = vOk (validateNoneOf re v s j2).1 := by
    intro j1 j2
    rw [validateNoneOf.eq_def, validateNoneOf.eq_def]
    split
    · rfl
    · rename_i subs hnot
      try dsimp only
      have h := hNoneLoop subs
        (fun x hx => sizeOf_lt_of_mem_field (Or.inr (Or.inr (Or.inr (Or.inl hnot)))) hx) 0
        (j1.schemaPush (.str "not") (.many subs)) (j2.schemaPush (.str "not") (.many subs))
      rcases hr1 : validateNoneOfLoop re v s subs 0 (j1.schemaPush (.str "not") (.many subs))
        (fun x hx => sizeOf_lt_of_mem_field (Or.inr (Or.inr (Or.inr (Or.inl hnot)))) hx)
        with ⟨r1, k1⟩
      rcases hr2 : validateNoneOfLoop re v s subs 0 (j2.schemaPush (.str "not") (.many subs))
        (fun x hx => sizeOf_lt_of_mem_field (Or.inr (Or.inr (Or.inr (Or.inl hnot)))) hx)
        with ⟨r2, k2⟩
      rw [hr1, hr2] at h
      match r1, r2, h with
      | .ok _, .ok _, _ => rfl
      | .error _, .error _, _ => rfl
      | .ok _, .error _, hcon => simp [vOk] at hcon
      | .error _, .ok _, hcon => simp [vOk] at hcon
  -- the six-step chain
  rw [validate.eq_def, validate.eq_def]
  have h1 := hSingle i1 i2
  rcases hs1 : validateSingleSchema re v s i1 with ⟨a1, b1⟩
  rcases hs2 : validateSingleSchema re v s i2 with ⟨a2, b2⟩
  rw [hs1, hs2] at h1
  match a1, a2, h1 with
  | .error _, .error _, _ => rfl
  | .ok _, .error _, hcon => simp [vOk] at hcon
  | .error _, .ok _, hcon => simp [vOk] at hcon
  | .ok _, .ok _, _ =>
  dsimp only
  have h2 := hCond b1 b2
  rcases hc1 : validateConditional re v s b1 with ⟨a1, c1⟩
  rcases hc2 : validateConditional re v s b2 with ⟨a2, c2⟩
  rw [hc1, hc2] at h2
  match a1, a2, h2 with
  | .error _, .error _, _ => rfl
  | .ok _, .error _, hcon => simp [vOk] at hcon
  | .error _, .ok _, hcon => simp [vOk] at hcon
  | .ok _, .ok _, _ =>
  dsimp only
  have h3 := hAllOf c1 c2
  rcases ha1 : validateAllOf re v s c1 with ⟨a1, d1⟩
  rcases ha2 : validateAllOf re v s c2 with ⟨a2, d2⟩
  rw [ha1, ha2] at h3
  match a1, a2, h3 with
  | .error _, .error _, _ => rfl
  | .ok _, .error _, hcon => simp [vOk] at hcon
  | .error _, .ok _, hcon => simp [vOk] at hcon
  | .ok _, .ok _, _ =>
  dsimp only
  have h4 := hAnyOf d1 d2
  rcases hb1 : validateAnyOf re v s d1 with ⟨a1, e1⟩
  rcases hb2 : validateAnyOf re v s d2 with ⟨a2, e2⟩
  rw [hb1, hb2] at h4
  match a1, a2, h4 with
  | .error _, .error _, _ => rfl
  | .ok _, .error _, hcon => simp [vOk] at hcon
  | .error _, .ok _, hcon => simp [vOk] at hcon
  | .ok _, .ok _, _ =>
  dsimp only
  have h5 := hOneOf e1 e2
  rcases ho1 : validateOneOf re v s e1 with ⟨a1, f1⟩
  rcases ho2 : validateOneOf re v s e2 with ⟨a2, f2⟩
  rw [ho1, ho2] at h5
  match a1, a2, h5 with
  | .error _, .error _, _ => rfl
  | .ok _, .error _, hcon => simp [vOk] at hcon
  | .error _, .ok _, hcon => simp [vOk] at hcon
  | .ok _, .ok _, _ =>
  dsimp only
  exact hNoneOf f1 f2

end Yomichan

namespace Yomichan

/-- The count computed by the `oneOf` loop is the number of listed
sub-schemas the value validates against (each tried independently; the
traversal info threaded through the loop does not affect any outcome). -/
theorem validateOneOfLoop_count (re : RegexEngine) (v : Value) (s : Schema) :
    ∀ (subs : List Schema) (hsub : ∀ x ∈ subs, sizeOf x < sizeOf s) (n : ℕ)
      (info : JsonSchemaTraversalInfo),
      (validateOneOfLoop re v s subs n info hsub).1
        = (subs.filter (fun sub => vOk (JsonSchema.validate re v sub).1)).length := by
  intro subs
  induction subs with
  | nil => intro hsub n info; simp [validateOneOfLoop]
  | cons sub rest ihl =>
      intro hsub n info
      rw [validateOneOfLoop.eq_def]
      dsimp only
      rcases hr : validate re v sub (info.schemaPush (.idx n) (.one sub)) with ⟨r, k⟩
      rcases hq : validateOneOfLoop re v s rest (n + 1) k.schemaPop
        (fun x hx => hsub x (List.mem_cons_of_mem _ hx)) with ⟨c, m⟩
      dsimp only
      have hvok : vOk r = vOk (JsonSchema.validate re v sub).1 := by
        have := vOk_validate_irrel re (sizeOf sub + sizeOf v) sub v (le_refl _)
          (info.schemaPush (.idx n) (.one sub)) (JsonSchemaTraversalInfo.init v sub)
        rw [hr] at this
        exact this
      have hc : c = (rest.filter (fun x => vOk (JsonSchema.validate re v x).1)).length := by
        have := ihl (fun x hx => hsub x (List.mem_cons_of_mem _ hx)) (n + 1) k.schemaPop
        rw [hq] at this
        exact this
      rw [List.filter_cons]
      rcases hb : vOk (JsonSchema.validate re v sub).1 with hvb | hvb
      · rw [hb] at hvok
        rw [hvok, hc]
        simp
      · rw [hb] at hvok
        rw [hvok, hc]
        simp
        omega

/-- C7: when `schema.oneOf` is a list of sub-schemas, `validateOneOf` tries
every listed sub-schema (the success count is exactly the number of
sub-schemas the value validates against, so no short-circuit on first match
is possible), succeeds if and only if that count equals 1, and otherwise
raises an error whose message reports the actual count. -/
theorem C7_oneOf_counts_matches (re : RegexEngine) (v : Value) (s : Schema)
    (subs : List Schema) (info : JsonSchemaTraversalInfo) (h : s.oneOf = some subs) :
    ((validateOneOf re v s info).1 = .ok () ↔
      (subs.filter (fun sub => vOk (JsonSchema.validate re v sub).1)).length = 1)
    ∧ ((subs.filter (fun sub => vOk (JsonSchema.validate re v sub).1)).length ≠ 1 →
      ∃ i2, (validateOneOf re v s info).1 = .error
        ⟨toString (subs.filter (fun sub => vOk (JsonSchema.validate re v sub).1)).length
          ++ " oneOf schemas matched", v, s, i2⟩) := by
  rw [validateOneOf.eq_def]
  split
  · rename_i hnone
    rw [h] at hnone
    cases hnone
  · rename_i subs2 hone
    rw [h] at hone
    cases hone
    dsimp only
    rcases hq : validateOneOfLoop re v s subs 0 (info.schemaPush (.str "oneOf") (.many subs))
      (fun x hx => sizeOf_lt_of_mem_field (Or.inr (Or.inr (Or.inl h))) hx) with ⟨c, m⟩
    have hc := validateOneOfLoop_count re v s subs
      (fun x hx => sizeOf_lt_of_mem_field (Or.inr (Or.inr (Or.inl h))) hx) 0
      (info.schemaPush (.str "oneOf") (.many subs))
    rw [hq] at hc
    dsimp only at hc
    subst hc
    dsimp only
    constructor
    · by_cases hcount :
        (subs.filter (fun sub => vOk (JsonSchema.validate re v sub).1)).length = 1
      · have hcond :
            ¬((subs.filter (fun sub => vOk (JsonSchema.validate re v sub).1)).length ≠ 1) := by
          omega
        rw [if_neg hcond]
        simp [hcount]
      · rw [if_pos hcount]
        simp [hcount]
    · intro hcount
      rw [if_pos hcount]
      exact ⟨m, rfl⟩

end Yomichan

namespace Yomichan

/-- Witness for C7: against `{oneOf:[{type:"string"},{}]}` the string `"x"`
matches both listed sub-schemas, and `validateOneOf` raises
`2 oneOf schemas matched`. -/
theorem C7_witness :
    ∃ i2, (validateOneOf noRegex (.str "x") oneOfSchema
      (JsonSchemaTraversalInfo.init (.str "x") oneOfSchema)).1
        = .error ⟨"2 oneOf schemas matched", .str "x", oneOfSchema, i2⟩ := by
  have hcount : (([strSchema, unconstrainedSchema]).filter
      (fun sub => vOk (JsonSchema.validate noRegex (.str "x") sub).1)).length = 2 := by
    have h1 : vOk (JsonSchema.validate noRegex (.str "x") strSchema).1 = true := by
      simp [JsonSchema.validate, validate, validateSingleSchema, validateConditional,
        validateAllOf, validateAnyOf, validateOneOf, validateNoneOf, validateString,
        strSchema, isValueTypeAny, isValueType, getValueType, jsFloorEqSelf, Schema.type,
        Schema.const, Schema.enum, Schema.f, constViolated, enumViolated, Schema.ifSchema,
        Schema.allOf, Schema.anyOf, Schema.oneOf, Schema.notSchemas, Schema.minLength,
        Schema.maxLength, Schema.pattern, vOk]
    have h2 : vOk (JsonSchema.validate noRegex (.str "x") unconstrainedSchema).1 = true := by
      simp [JsonSchema.validate, validate, validateSingleSchema, validateConditional,
        validateAllOf, validateAnyOf, validateOneOf, validateNoneOf, validateString,
        unconstrainedSchema, isValueTypeAny, isValueType, getValueType, jsFloorEqSelf,
        Schema.type, Schema.const, Schema.enum, Schema.f, constViolated, enumViolated,
        Schema.ifSchema, Schema.allOf, Schema.anyOf, Schema.oneOf, Schema.notSchemas,
        Schema.minLength, Schema.maxLength, Schema.pattern, vOk]
    simp [List.filter, h1, h2]
  have h := (C7_oneOf_counts_matches noRegex (.str "x") oneOfSchema
    [strSchema, unconstrainedSchema]
    (JsonSchemaTraversalInfo.init (.str "x") oneOfSchema) (by rfl)).2
  rw [hcount] at h
  obtain ⟨i2, hi⟩ := h (by omega)
  exact ⟨i2, hi⟩

end Yomichan

namespace Yomichan

/-- C4, counterexample: the claim says an object structurally equal to (but
not the same reference as) the `const` candidate is accepted.
`valuesAreEqual` is JavaScript `===` — reference equality on objects — so
validating the tree `{a:1}` against `{const: {a:1}}` (two structurally equal
but distinct objects) raises `Invalid constant value`. -/
theorem C4_counterexample :
    (JsonSchema.validate noRegex objA1 (constSchema objA1)).1
      = .error ⟨"Invalid constant value", objA1, constSchema objA1,
          JsonSchemaTraversalInfo.init objA1 (constSchema objA1)⟩ := by
  simp [JsonSchema.validate, validate, validateSingleSchema, constSchema, objA1,
    isValueTypeAny, isValueType, getValueType, jsFloorEqSelf, Schema.type, Schema.const,
    Schema.enum, Schema.f, constViolated, enumViolated, valuesAreEqual]

/-- C4, amended: with `schema = {const: c}` (and `c` not the literal
`undefined`, which the source treats as an absent `const`), `validate`
accepts a value exactly when it is `===`-equal to the candidate: primitives
compare by content, while objects and arrays compare by reference, so a
structurally equal but distinct container is rejected (`C4_counterexample`);
in this embedding of `===` distinct trees denote distinct references. -/
theorem C4_const_is_reference_equality (re : RegexEngine) (c v : Value) (hc : c ≠ .undef) :
    vOk (JsonSchema.validate re v (constSchema c)).1 = valuesAreEqual v c := by
  by_cases hv : valuesAreEqual v c = true
  · rw [hv]
    cases v <;> cases c <;> simp [valuesAreEqual] at hv hc ⊢ <;>
      simp [JsonSchema.validate, validate, validateSingleSchema, validateConditional,
        validateAllOf, validateAnyOf, validateOneOf, validateNoneOf, validateNumber,
        validateString, constSchema, isValueTypeAny, isValueType, getValueType, jsFloorEqSelf,
        Schema.type, Schema.const, Schema.enum, Schema.f, constViolated, enumViolated,
        Schema.ifSchema, Schema.allOf, Schema.anyOf, Schema.oneOf, Schema.notSchemas,
        Schema.multipleOf, Schema.minimum, Schema.exclusiveMinimum, Schema.maximum,
        Schema.exclusiveMaximum, Schema.minLength, Schema.maxLength, Schema.pattern,
        valuesAreEqual, vOk, hv]
  · rw [Bool.not_eq_true] at hv
    rw [hv]
    have hcv : constViolated v (constSchema c) = true := by
      rw [constViolated]
      match c, hc with
      | .null, _ => simp [constSchema, Schema.const, Schema.f, hv]
      | .bool b, _ => simp [constSchema, Schema.const, Schema.f, hv]
      | .num q, _ => simp [constSchema, Schema.const, Schema.f, hv]
      | .str st, _ => simp [constSchema, Schema.const, Schema.f, hv]
      | .arr el pr, _ => simp [constSchema, Schema.const, Schema.f, hv]
      | .obj fl, _ => simp [constSchema, Schema.const, Schema.f, hv]
    simp only [constSchema] at hcv
    simp [JsonSchema.validate, validate, validateSingleSchema, constSchema,
      isValueTypeAny, isValueType, getValueType, Schema.type, Schema.f, hcv, vOk]

/-- Witness for C4 (amended) at the primitive `1`: validating `1` against
`{const: 1}` succeeds, matching `1 === 1`. -/
theorem C4_witness :
    vOk (JsonSchema.validate noRegex (.num 1) (constSchema (.num 1))).1
      = valuesAreEqual (.num 1) (.num 1) :=
  C4_const_is_reference_equality noRegex (.num 1) (.num 1) (by simp)

end Yomichan

namespace Yomichan

/-- C2, counterexample: the claim says every proxy write, on every
object- or array-typed target, resolves the governing schema and validates
the (cloned) value before committing.  But on an array target a non-numeric
string key takes the early branch at json-schema.js:86-88 and is committed
directly: writing the string `"nope"` under key `"foo"` on an array governed
by `{items: {type:"number"}, additionalItems: false}` succeeds with no
resolution and no validation, although `"nope"` validates against no schema
reachable from the governing one. -/
theorem C2_counterexample :
    JsonSchemaProxyHandler.set noRegex
      (Schema.mk { items := some (.inl numMinSchema), additionalItems := some (.inl false) })
      (.arr [] []) "foo" (.str "nope")
      = .ok (.arr [] [("foo", .str "nope")]) := by
  have hd : isDigitString "foo" = false := by
    simp [isDigitString, String.all_eq]
  rw [JsonSchemaProxyHandler.set]
  rw [if_neg (by simp [hd]), jsArraySetNamed.eq_def, if_neg (by simp)]
  simp [setField]

/-- C2, amended: proxy writes with a string key behave as claimed on every
validated path — for an object target, and for a numeric-index write to an
array target: the governing schema is resolved (raising
`Property ... not supported` when `NotPermitted`), the incoming value is
deep-cloned, the clone is validated with a fresh `TraversalInfo` rooted at
it, and only on success is the clone committed into the target at that key;
a validation failure makes the write raise (so the target is not updated).
Additionally, a numeric index beyond the array's length raises
`Array index out of range`; but a non-numeric string key on an array target
bypasses resolution, cloning, and validation entirely and is committed raw
(see `C2_counterexample`; `"length"` writes invoke the engine's array-resize
behaviour instead). -/
theorem C2_proxy_set_validates (re : RegexEngine) (schema : Schema) (value : Value) :
    (∀ (fields : List (String × Value)) (p : String),
      ((getPropertySchema schema (.strKey p) (.obj fields)).1 = none →
        JsonSchemaProxyHandler.set re schema (.obj fields) p value
          = .error (.notSupported p))
      ∧ (∀ ps, (getPropertySchema schema (.strKey p) (.obj fields)).1 = some ps →
        (vOk (JsonSchema.validate re (clone value) ps).1 = false →
          ∃ e, JsonSchemaProxyHandler.set re schema (.obj fields) p value
            = .error (.validationError e))
        ∧ (vOk (JsonSchema.validate re (clone value) ps).1 = true →
          JsonSchemaProxyHandler.set re schema (.obj fields) p value
            = .ok (.obj (setField fields p (clone value))))))
    ∧ (∀ (elems : List Value) (props : List (String × Value)) (p : String),
        isDigitString p = true →
        ((parseDigits p > elems.length →
          JsonSchemaProxyHandler.set re schema (.arr elems props) p value
            = .error .indexOutOfRange)
        ∧ (parseDigits p ≤ elems.length →
          ((getPropertySchema schema (.idxKey (parseDigits p)) (.arr elems props)).1 = none →
            JsonSchemaProxyHandler.set re schema (.arr elems props) p value
              = .error (.notSupported (toString (parseDigits p))))
          ∧ (∀ ps,
            (getPropertySchema schema (.idxKey (parseDigits p)) (.arr elems props)).1 = some ps →
            (vOk (JsonSchema.validate re (clone value) ps).1 = false →
              ∃ e, JsonSchemaProxyHandler.set re schema (.arr elems props) p value
                = .error (.validationError e))
            ∧ (vOk (JsonSchema.validate re (clone value) ps).1 = true →
              JsonSchemaProxyHandler.set re schema (.arr elems props) p value
                = .ok (jsSet (.arr elems props) (.idxKey (parseDigits p)) (clone value)))))))
    ∧ (∀ (elems : List Value) (props : List (String × Value)) (p : String),
        isDigitString p = false → p ≠ "length" →
        JsonSchemaProxyHandler.set re schema (.arr elems props) p value
          = .ok (.arr elems (setField props p value))) := by
  refine ⟨?_, ?_, ?_⟩
  · intro fields p
    have hset : JsonSchemaProxyHandler.set re schema (.obj fields) p value
        = proxySetValidated re schema (.obj fields) (.strKey p) value := rfl
    constructor
    · intro hnone
      rw [hset, proxySetValidated.eq_def]
      rw [hnone]
      rfl
    · intro ps hps
      rw [hset]
      constructor
      · intro hfail
        rw [proxySetValidated.eq_def, hps]
        dsimp only
        rcases hr : (validate re (clone value) ps
            (JsonSchemaTraversalInfo.init (clone value) ps)).1 with e | u
        · exact ⟨e, rfl⟩
        · rw [JsonSchema.validate] at hfail
          rw [hr] at hfail
          simp [vOk] at hfail
      · intro hok
        rw [proxySetValidated.eq_def, hps]
        dsimp only
        rcases hr : (validate re (clone value) ps
            (JsonSchemaTraversalInfo.init (clone value) ps)).1 with e | u
        · rw [JsonSchema.validate] at hok
          rw [hr] at hok
          simp [vOk] at hok
        · rfl
  · intro elems props p hdig
    constructor
    · intro hgt
      rw [JsonSchemaProxyHandler.set]
      rw [if_pos hdig, if_pos hgt]
    · intro hle
      have hngt : ¬(parseDigits p > elems.length) := by omega
      constructor
      · intro hnone
        rw [JsonSchemaProxyHandler.set]
        rw [if_pos hdig, if_neg hngt, proxySetValidated.eq_def, hnone]
        rfl
      · intro ps hps
        constructor
        · intro hfail
          rw [JsonSchemaProxyHandler.set]
          rw [if_pos hdig, if_neg hngt, proxySetValidated.eq_def, hps]
          dsimp only
          rcases hr : (validate re (clone value) ps
              (JsonSchemaTraversalInfo.init (clone value) ps)).1 with e | u
          · exact ⟨e, rfl⟩
          · rw [JsonSchema.validate] at hfail
            rw [hr] at hfail
            simp [vOk] at hfail
        · intro hok
          rw [JsonSchemaProxyHandler.set]
          rw [if_pos hdig, if_neg hngt, proxySetValidated.eq_def, hps]
          dsimp only
          rcases hr : (validate re (clone value) ps
              (JsonSchemaTraversalInfo.init (clone value) ps)).1 with e | u
          · rw [JsonSchema.validate] at hok
            rw [hr] at hok
            simp [vOk] at hok
          · rfl
  · intro elems props p hdig hlen
    rw [JsonSchemaProxyHandler.set]
    rw [if_neg (by simp [hdig]), jsArraySetNamed.eq_def, if_neg hlen]

end Yomichan

namespace Yomichan

/-- Witness for C2: writing `7` under `count` on `{count: 0}` governed by
`{type:"object", properties:{count:{type:"number",minimum:5}}}` resolves the
`count` sub-schema, validates the cloned `7` against it, and commits it. -/
theorem C2_witness :
    JsonSchemaProxyHandler.set noRegex countObjSchema
      (.obj [("count", .num 0)]) "count" (.num 7)
      = .ok (.obj [("count", .num 7)]) := by
  have hres : (getPropertySchema countObjSchema (.strKey "count")
      (.obj [("count", .num 0)])).1 = some numMinSchema := by
    simp [getPropertySchema, getSchemaOrValueType, lookupSchemaProp, countObjSchema,
      Schema.type, Schema.properties, Schema.f, getValueType, PropName.asObjectKey]
  have hok : vOk (JsonSchema.validate noRegex (clone (.num 7)) numMinSchema).1 = true := by
    rw [clone_eq_id]
    simp [JsonSchema.validate, validate, validateSingleSchema, validateConditional,
      validateAllOf, validateAnyOf, validateOneOf, validateNoneOf, validateNumber,
      numMinSchema, isValueTypeAny, isValueType, getValueType, jsFloorEqSelf,
      Schema.type, Schema.const, Schema.enum, Schema.f, constViolated, enumViolated,
      Schema.ifSchema, Schema.allOf, Schema.anyOf, Schema.oneOf, Schema.notSchemas,
      Schema.multipleOf, Schema.minimum, Schema.exclusiveMinimum, Schema.maximum,
      Schema.exclusiveMaximum, vOk, show ¬((7:ℚ) < 5) by norm_num]
  have h := (((C2_proxy_set_validates noRegex countObjSchema (.num 7)).1
      [("count", .num 0)] "count").2 numMinSchema hres).2 hok
  rw [h, clone_eq_id]
  simp [setField]

end Yomichan

namespace Yomichan

/-! ## Traversal-stack bookkeeping lemmas -/

/-- Pushing a whole resolution path appends it to the schema stack and
leaves the value stack alone. -/
theorem schemaPushAll_eq (path : List (PathKey × SchemaNode)) :
    ∀ info : JsonSchemaTraversalInfo,
    info.schemaPushAll path = ⟨info.valuePath, info.schemaPath ++ path⟩ := by
  induction path with
  | nil =>
      intro info
      rw [JsonSchemaTraversalInfo.schemaPushAll]
      simp
  | cons kn rest ih =>
      intro info
      have h1 : info.schemaPushAll (kn :: rest)
          = (info.schemaPush kn.1 kn.2).schemaPushAll rest := by
        rw [JsonSchemaTraversalInfo.schemaPushAll, JsonSchemaTraversalInfo.schemaPushAll]
        rw [List.foldl_cons]
      rw [h1, ih]
      simp [JsonSchemaTraversalInfo.schemaPush]

/-- Popping the schema stack once per entry of an appended suffix restores
the stack. -/
theorem schemaPopN_append (path : List (PathKey × SchemaNode)) :
    ∀ (vp : List (PathKey × Value)) (sp : List (PathKey × SchemaNode)),
    JsonSchemaTraversalInfo.schemaPopN path.length ⟨vp, sp ++ path⟩ = ⟨vp, sp⟩ := by
  induction path using List.reverseRecOn with
  | nil =>
      intro vp sp
      rw [List.length_nil, JsonSchemaTraversalInfo.schemaPopN]
      simp
  | append_singleton ys y ih =>
      intro vp sp
      rw [show (ys ++ [y]).length = ys.length + 1 by simp]
      rw [JsonSchemaTraversalInfo.schemaPopN]
      have hpop : (⟨vp, sp ++ (ys ++ [y])⟩ : JsonSchemaTraversalInfo).schemaPop
          = ⟨vp, sp ++ ys⟩ := by
        rw [JsonSchemaTraversalInfo.schemaPop]
        simp [← List.append_assoc, List.dropLast_concat]
      rw [hpop]
      exact ih vp sp

/-- A schema pop undoes a schema push. -/
theorem schemaPop_push (info : JsonSchemaTraversalInfo) (k : PathKey) (n : SchemaNode) :
    (info.schemaPush k n).schemaPop = info := by
  rw [JsonSchemaTraversalInfo.schemaPush, JsonSchemaTraversalInfo.schemaPop]
  simp [List.dropLast_concat]

/-- The pop sequence the container loops run on success (one value pop, one
schema pop per resolution-path entry) exactly undoes the pushes. -/
theorem info_restore (info : JsonSchemaTraversalInfo) (path : List (PathKey × SchemaNode))
    (k : PathKey) (pv : Value) :
    JsonSchemaTraversalInfo.schemaPopN path.length
      (((info.schemaPushAll path).valuePush k pv).valuePop) = info := by
  rw [schemaPushAll_eq]
  have h1 : ((⟨info.valuePath, info.schemaPath ++ path⟩ : JsonSchemaTraversalInfo).valuePush
        k pv).valuePop = ⟨info.valuePath, info.schemaPath ++ path⟩ := by
    rw [JsonSchemaTraversalInfo.valuePush, JsonSchemaTraversalInfo.valuePop]
    simp [List.dropLast_concat]
  rw [h1]
  rw [schemaPopN_append path info.valuePath info.schemaPath]

/-- The `minProperties` comparison is false for every schema (see
`minPropertiesViolated`: it models `undefined < min`). -/
theorem minPropertiesViolated_eq_false (s : Schema) : minPropertiesViolated s = false := by
  rw [minPropertiesViolated]
  split <;> rfl

/-- The `maxProperties` comparison is false for every schema. -/
theorem maxPropertiesViolated_eq_false (s : Schema) : maxPropertiesViolated s = false := by
  rw [maxPropertiesViolated]
  split <;> rfl

/-- `validateNumber` never touches the traversal info. -/
theorem validateNumber_info (v : Value) (s : Schema) (j : JsonSchemaTraversalInfo) :
    (validateNumber v s j).2 = j := by
  rw [validateNumber.eq_def]
  split
  all_goals repeat' split
  all_goals rfl

/-- `validateString` never touches the traversal info. -/
theorem validateString_info (re : RegexEngine) (v : Value) (s : Schema)
    (j : JsonSchemaTraversalInfo) :
    (validateString re v s j).2 = j := by
  rw [validateString.eq_def]
  split
  · split
    · rfl
    · split
      · rfl
      · split
        · dsimp only
          split
          · rfl
          · split
            · rfl
            · rfl
        · rfl
  · rfl

/-- A successful `properties` lookup returns a listed schema. -/
theorem lookupSchemaProp_mem {l : List (String × Schema)} {p : String} {r : Schema}
    (h : lookupSchemaProp l p = some r) : ∃ kv ∈ l, kv.2 = r := by
  induction l with
  | nil => rw [lookupSchemaProp] at h; exact absurd h (by simp)
  | cons kv rest ih =>
      rcases kv with ⟨k, x⟩
      rw [lookupSchemaProp] at h
      split at h
      · exact ⟨(k, x), List.mem_cons_self _ _, by injection h⟩
      · rcases ih h with ⟨kv2, hm, he⟩
        exact ⟨kv2, List.mem_cons_of_mem _ hm, he⟩

end Yomichan

namespace Yomichan

/-- Schemas that never invoke an error-catching combinator anywhere a
validation can descend: no `if`, `anyOf`, `oneOf` or `not` on the schema
itself or on any sub-schema reachable through `allOf`, `properties`,
`additionalProperties`, `items` or `additionalItems`. -/
inductive CatchFree : Schema → Prop where
  | intro : ∀ s : Schema,
      s.ifSchema = none →
      s.anyOf = none →
      s.oneOf = none →
      s.notSchemas = none →
      (∀ l, s.allOf = some l → ∀ x ∈ l, CatchFree x) →
      (∀ l, s.properties = some l → ∀ kv ∈ l, CatchFree kv.2) →
      (∀ x, s.additionalProperties = some (.inr x) → CatchFree x) →
      (∀ x, s.items = some (.inl x) → CatchFree x) →
      (∀ l, s.items = some (.inr l) → ∀ x ∈ l, CatchFree x) →
      (∀ x, s.additionalItems = some (.inr x) → CatchFree x) →
      CatchFree s

theorem CatchFree.ifSchema_none {s : Schema} (h : CatchFree s) : s.ifSchema = none := by
  cases h; assumption

theorem CatchFree.anyOf_none {s : Schema} (h : CatchFree s) : s.anyOf = none := by
  cases h; assumption

theorem CatchFree.oneOf_none {s : Schema} (h : CatchFree s) : s.oneOf = none := by
  cases h; assumption

theorem CatchFree.notSchemas_none {s : Schema} (h : CatchFree s) : s.notSchemas = none := by
  cases h; assumption

theorem CatchFree.allOf_mem {s : Schema} {l : List Schema} (h : CatchFree s)
    (hl : s.allOf = some l) : ∀ x ∈ l, CatchFree x := by
  cases h with
  | intro s h1 h2 h3 h4 h5 h6 h7 h8 h9 h10 => exact h5 l hl

/-- The unconstrained schema `{}` has no combinators at all. -/
theorem unconstrainedSchema_catchFree : CatchFree unconstrainedSchema :=
  CatchFree.intro _ rfl rfl rfl rfl
    (fun l hl => by simp [unconstrainedSchema, Schema.allOf, Schema.f] at hl)
    (fun l hl => by simp [unconstrainedSchema, Schema.properties, Schema.f] at hl)
    (fun x hx => by simp [unconstrainedSchema, Schema.additionalProperties, Schema.f] at hx)
    (fun x hx => by simp [unconstrainedSchema, Schema.items, Schema.f] at hx)
    (fun l hl => by simp [unconstrainedSchema, Schema.items, Schema.f] at hl)
    (fun x hx => by simp [unconstrainedSchema, Schema.additionalItems, Schema.f] at hx)

/-- Where a resolved property schema can come from: a `properties` entry, a
single or tuple `items` entry, an `additionalProperties`/`additionalItems`
schema, or the unconstrained fallback. -/
theorem getPropertySchema_cases {s : Schema} {k : PropName} {v : Value} {r : Schema}
    (h : (getPropertySchema s k v).1 = some r) :
    (∃ props, s.properties = some props ∧ ∃ kv ∈ props, kv.2 = r)
    ∨ (∃ x, s.items = some (.inl x) ∧ r = x)
    ∨ (∃ tuple, s.items = some (.inr tuple) ∧ r ∈ tuple)
    ∨ s.additionalProperties = some (.inr r)
    ∨ s.additionalItems = some (.inr r)
    ∨ r = unconstrainedSchema := by
  have hadd : ∀ (ap : Option (Bool ⊕ Schema)) (fn : String),
      (getPropertySchema.getPropertySchemaAdditional ap fn).1 = some r →
      ap = some (.inr r) ∨ r = unconstrainedSchema := by
    intro ap fn hr
    match ap with
    | none =>
        simp [getPropertySchema.getPropertySchemaAdditional] at hr
        exact Or.inr hr.symm
    | some (.inl true) =>
        simp [getPropertySchema.getPropertySchemaAdditional] at hr
        exact Or.inr hr.symm
    | some (.inl false) =>
        simp [getPropertySchema.getPropertySchemaAdditional] at hr
    | some (.inr x) =>
        simp [getPropertySchema.getPropertySchemaAdditional] at hr
        rw [hr]
        exact Or.inl rfl
  rw [getPropertySchema.eq_def] at h
  simp only [] at h
  split at h
  · split at h
    · rename_i props hprops
      split at h
      · rename_i ps hps
        simp at h
        subst h
        rcases lookupSchemaProp_mem hps with ⟨kv, hm, he⟩
        exact Or.inl ⟨props, hprops, kv, hm, he⟩
      · rcases hadd _ _ h with hap | hu
        · exact Or.inr (Or.inr (Or.inr (Or.inl hap)))
        · exact Or.inr (Or.inr (Or.inr (Or.inr (Or.inr hu))))
    · rcases hadd _ _ h with hap | hu
      · exact Or.inr (Or.inr (Or.inr (Or.inl hap)))
      · exact Or.inr (Or.inr (Or.inr (Or.inr (Or.inr hu))))
  · split at h
    · split at h
      · rename_i single hitems
        simp at h
        subst h
        exact Or.inr (Or.inl ⟨single, hitems, rfl⟩)
      · rename_i tuple hitems
        split at h
        · rename_i n hn
          split at h
          · rename_i hlt
            simp at h
            subst h
            exact Or.inr (Or.inr (Or.inl ⟨tuple, hitems, tuple.getElem_mem hlt⟩))
          · rcases hadd _ _ h with hap | hu
            · exact Or.inr (Or.inr (Or.inr (Or.inr (Or.inl hap))))
            · exact Or.inr (Or.inr (Or.inr (Or.inr (Or.inr hu))))
        · rcases hadd _ _ h with hap | hu
          · exact Or.inr (Or.inr (Or.inr (Or.inr (Or.inl hap))))
          · exact Or.inr (Or.inr (Or.inr (Or.inr (Or.inr hu))))
      · rcases hadd _ _ h with hap | hu
        · exact Or.inr (Or.inr (Or.inr (Or.inr (Or.inl hap))))
        · exact Or.inr (Or.inr (Or.inr (Or.inr (Or.inr hu))))
    · simp at h

/-- Schema resolution preserves `CatchFree`. -/
theorem getPropertySchema_catchFree {s : Schema} {k : PropName} {v : Value} {r : Schema}
    (hcf : CatchFree s) (h : (getPropertySchema s k v).1 = some r) : CatchFree r := by
  cases hcf with
  | intro s hif hany hone hnot hall hprops haddp hit1 hit2 haddi =>
  rcases getPropertySchema_cases h with
    ⟨props, hp, kv, hm, he⟩ | ⟨x, hx, he⟩ | ⟨tuple, ht, hm⟩ | hap | hai | hu
  · exact he ▸ hprops props hp kv hm
  · exact he ▸ hit1 x hx
  · exact hit2 tuple ht r hm
  · exact haddp r hap
  · exact haddi r hai
  · exact hu ▸ unconstrainedSchema_catchFree

end Yomichan

namespace Yomichan

/-- For catch-free schemas (no `if`/`anyOf`/`oneOf`/`not` reachable), a
successful `validate` returns the traversal info exactly as it received it:
every push of the success path is balanced by a pop.  Proved together with
the corresponding statements for every helper the recursion passes through,
by strong induction on the combined size of schema and value. -/
theorem validate_catchFree_info (re : RegexEngine) :
    ∀ (N : ℕ) (s : Schema) (v : Value), sizeOf s + sizeOf v ≤ N → CatchFree s →
    ∀ info : JsonSchemaTraversalInfo, (validate re v s info).1 = .ok () →
    (validate re v s info).2 = info := by
  intro N
  induction N using Nat.strong_induction_on with
  | _ N IH =>
  intro s v hN hcf info hok
  have hIH : ∀ (s' : Schema) (v' : Value), sizeOf s' + sizeOf v' < sizeOf s + sizeOf v →
      CatchFree s' → ∀ j, (validate re v' s' j).1 = .ok () → (validate re v' s' j).2 = j := by
    intro s' v' hlt hcf' j hok'
    exact IH (sizeOf s' + sizeOf v') (by omega) s' v' (le_refl _) hcf' j hok'
  have hAllLoop : ∀ (subs : List Schema) (hsub : ∀ x ∈ subs, sizeOf x < sizeOf s),
      (∀ x ∈ subs, CatchFree x) → ∀ (n : ℕ) (j : JsonSchemaTraversalInfo),
      (validateAllOfLoop re v s subs n j hsub).1 = .ok () →
      (validateAllOfLoop re v s subs n j hsub).2 = j := by
    intro subs
    induction subs with
    | nil => intro hsub hcfs n j hok2; simp [validateAllOfLoop]
    | cons sub rest ihl =>
        intro hsub hcfs n j hok2
        revert hok2
        rw [validateAllOfLoop.eq_def]
        dsimp only
        rcases hr : validate re v sub (j.schemaPush (.idx n) (.one sub)) with ⟨r1, k1⟩
        rcases r1 with e | ⟨⟩
        · intro hok2; exact absurd hok2 (by simp)
        · intro hok2
          dsimp only at hok2 ⊢
          have hk1 : k1 = j.schemaPush (.idx n) (.one sub) := by
            have h2 := hIH sub v
              (by have := hsub sub (List.mem_cons_self _ _); omega)
              (hcfs sub (List.mem_cons_self _ _))
              (j.schemaPush (.idx n) (.one sub)) (by rw [hr])
            rw [hr] at h2
            exact h2
          rw [hk1, schemaPop_push] at hok2 ⊢
          exact ihl (fun x hx => hsub x (List.mem_cons_of_mem _ hx))
            (fun x hx => hcfs x (List.mem_cons_of_mem _ hx)) (n + 1) j hok2
  have hObjLoop : ∀ (names : List String) (hvp : ∀ p, sizeOf (jsGetProp v p) < sizeOf v)
      (j : JsonSchemaTraversalInfo),
      (validateObjectLoop re v s names j hvp).1 = .ok () →
      (validateObjectLoop re v s names j hvp).2 = j := by
    intro names
    induction names with
    | nil => intro hvp j hok2; simp [validateObjectLoop]
    | cons p rest ihl =>
        intro hvp j hok2
        revert hok2
        rw [validateObjectLoop.eq_def]
        dsimp only
        split
        · intro hok2; exact absurd hok2 (by simp)
        · rename_i ps path heq
          have hps : (getPropertySchema s (.strKey p) v).1 = some ps := by rw [heq]
          have hcfps := getPropertySchema_catchFree hcf hps
          have hle := (getPropertySchema_sizeOf hps).1
          rcases hr : validate re (jsGetProp v p) ps
              ((j.schemaPushAll path).valuePush (.str p) (jsGetProp v p)) with ⟨r1, k1⟩
          rcases r1 with e | ⟨⟩
          · intro hok2; exact absurd hok2 (by simp)
          · intro hok2
            dsimp only at hok2 ⊢
            have hk1 : k1 = (j.schemaPushAll path).valuePush (.str p) (jsGetProp v p) := by
              have h2 := hIH ps (jsGetProp v p) (by have := hvp p; omega) hcfps
                ((j.schemaPushAll path).valuePush (.str p) (jsGetProp v p)) (by rw [hr])
              rw [hr] at h2
              exact h2
            rw [hk1, info_restore] at hok2 ⊢
            exact ihl hvp j hok2
  have hArrLoop : ∀ (fuel len n : ℕ), len - n ≤ fuel →
      ∀ (hvp : ∀ jx, sizeOf (jsIndex v jx) < sizeOf v) (j : JsonSchemaTraversalInfo),
      (validateArrayLoop re v s len n j hvp).1 = .ok () →
      (validateArrayLoop re v s len n j hvp).2 = j := by
    intro fuel
    induction fuel with
    | zero =>
        intro len n hk hvp j hok2
        rw [validateArrayLoop.eq_def] at hok2 ⊢
        rw [dif_neg (by omega)]
    | succ fuel ihk =>
        intro len n hk hvp j hok2
        revert hok2
        rw [validateArrayLoop.eq_def]
        by_cases hc : n < len
        · rw [dif_pos hc]
          dsimp only
          split
          · intro hok2; exact absurd hok2 (by simp)
          · rename_i ps path heq
            have hps : (getPropertySchema s (.idxKey n) v).1 = some ps := by rw [heq]
            have hcfps := getPropertySchema_catchFree hcf hps
            have hle := (getPropertySchema_sizeOf hps).1
            rcases hr : validate re (jsIndex v n) ps
                ((j.schemaPushAll path).valuePush (.idx n) (jsIndex v n)) with ⟨r1, k1⟩
            rcases r1 with e | ⟨⟩
            · intro hok2; exact absurd hok2 (by simp)
            · intro hok2
              dsimp only at hok2 ⊢
              have hk1 : k1 = (j.schemaPushAll path).valuePush (.idx n) (jsIndex v n) := by
                have h2 := hIH ps (jsIndex v n) (by have := hvp n; omega) hcfps
                  ((j.schemaPushAll path).valuePush (.idx n) (jsIndex v n)) (by rw [hr])
                rw [hr] at h2
                exact h2
              rw [hk1, info_restore] at hok2 ⊢
              exact ihk len (n + 1) (by omega) hvp j hok2
        · rw [dif_neg hc]
          intro hok2
          rfl
  have hObj : ∀ j, (validateObject re v s j).1 = .ok () → (validateObject re v s j).2 = j := by
    intro j hok2
    revert hok2
    rw [validateObject.eq_def]
    cases v with
    | obj fields =>
        dsimp only
        split
        · intro hok2; exact absurd hok2 (by simp)
        · simp only [minPropertiesViolated_eq_false, maxPropertiesViolated_eq_false,
            Bool.false_eq_true, if_false]
          intro hok2
          exact hObjLoop (fields.map Prod.fst) _ j hok2
    | undef => intro _; rfl
    | null => intro _; rfl
    | bool b => intro _; rfl
    | num q => intro _; rfl
    | str st => intro _; rfl
    | arr elems props => intro _; rfl
  have hArr : ∀ j, (validateArray re v s j).1 = .ok () → (validateArray re v s j).2 = j := by
    intro j hok2
    revert hok2
    rw [validateArray.eq_def]
    cases v with
    | arr elems props =>
        dsimp only
        split
        · intro hok2; exact absurd hok2 (by simp)
        · split
          · intro hok2; exact absurd hok2 (by simp)
          · intro hok2
            exact hArrLoop elems.length elems.length 0 (by omega) _ j hok2
    | obj fields => intro _; rfl
    | undef => intro _; rfl
    | null => intro _; rfl
    | bool b => intro _; rfl
    | num q => intro _; rfl
    | str st => intro _; rfl
  have hSingle : ∀ j, (validateSingleSchema re v s j).1 = .ok () →
      (validateSingleSchema re v s j).2 = j := by
    intro j hok2
    revert hok2
    rw [validateSingleSchema.eq_def]
    dsimp only
    split
    · intro hok2; exact absurd hok2 (by simp)
    · split
      · intro hok2; exact absurd hok2 (by simp)
      · split
        · intro hok2; exact absurd hok2 (by simp)
        · split
          · intro _; exact validateNumber_info v s j
          · split
            · intro _; exact validateString_info re v s j
            · split
              · intro hok2; exact hArr j hok2
              · split
                · intro hok2; exact hObj j hok2
                · intro _; rfl
  have hCond : ∀ j, validateConditional re v s j = (.ok (), j) := by
    intro j
    rw [validateConditional.eq_def]
    split
    · rfl
    · rename_i ifs heq
      rw [hcf.ifSchema_none] at heq
      exact Option.noConfusion heq
  have hAnyOf : ∀ j, validateAnyOf re v s j = (.ok (), j) := by
    intro j
    rw [validateAnyOf.eq_def]
    split
    · rfl
    · rename_i subs heq
      rw [hcf.anyOf_none] at heq
      exact Option.noConfusion heq
  have hOneOf : ∀ j, validateOneOf re v s j = (.ok (), j) := by
    intro j
    rw [validateOneOf.eq_def]
    split
    · rfl
    · rename_i subs heq
      rw [hcf.oneOf_none] at heq
      exact Option.noConfusion heq
  have hNoneOf : ∀ j, validateNoneOf re v s j = (.ok (), j) := by
    intro j
    rw [validateNoneOf.eq_def]
    split
    · rfl
    · rename_i subs heq
      rw [hcf.notSchemas_none] at heq
      exact Option.noConfusion heq
  have hAllOf : ∀ j, (validateAllOf re v s j).1 = .ok () → (validateAllOf re v s j).2 = j := by
    intro j hok2
    revert hok2
    rw [validateAllOf.eq_def]
    split
    · intro _; rfl
    · rename_i subs heq
      try dsimp only
      rcases hr : validateAllOfLoop re v s subs 0 (j.schemaPush (.str "allOf") (.many subs))
          (fun x hx => sizeOf_lt_of_mem_field (Or.inl heq) hx) with ⟨r1, k1⟩
      rcases r1 with e | ⟨⟩
      · intro hok2; exact absurd hok2 (by simp)
      · intro _
        dsimp only
        have hk1 : k1 = j.schemaPush (.str "allOf") (.many subs) := by
          have h2 := hAllLoop subs (fun x hx => sizeOf_lt_of_mem_field (Or.inl heq) hx)
            (hcf.allOf_mem heq) 0 (j.schemaPush (.str "allOf") (.many subs)) (by rw [hr])
          rw [hr] at h2
          exact h2
        rw [hk1, schemaPop_push]
  revert hok
  rw [validate.eq_def]
  rcases hs1 : validateSingleSchema re v s info with ⟨a1, b1⟩
  rcases a1 with e | ⟨⟩
  · intro hok; exact absurd hok (by simp)
  · dsimp only
    have hb1 : b1 = info := by
      have h2 := hSingle info (by rw [hs1])
      rw [hs1] at h2
      exact h2
    rw [hb1]
    rw [hCond info]
    dsimp only
    rcases ha1 : validateAllOf re v s info with ⟨a2, c1⟩
    rcases a2 with e | ⟨⟩
    · intro hok; exact absurd hok (by simp)
    · dsimp only
      have hc1 : c1 = info := by
        have h2 := hAllOf info (by rw [ha1])
        rw [ha1] at h2
        exact h2
      rw [hc1]
      rw [hAnyOf info]
      dsimp only
      rw [hOneOf info]
      dsimp only
      rw [hNoneOf info]
      intro _
      rfl

end Yomichan

namespace Yomichan

/-- C5, counterexample: the claim says that on successful return of a
top-level `validate` both stacks hold exactly their initial entries; but
`validateAnyOf` returns on a match without popping its `anyOf` and index
pushes (json-schema.js:266 returns; the final `schemaPop` at line 274 is
commented out as unreachable).  Validating `null` against
`{anyOf:[{}]}` succeeds with three entries left on the schema stack where
the initial info had one. -/
theorem C5_counterexample :
    (validate noRegex .null anyOfSchema (JsonSchemaTraversalInfo.init .null anyOfSchema)).1
      = .ok ()
    ∧ (validate noRegex .null anyOfSchema
        (JsonSchemaTraversalInfo.init .null anyOfSchema)).2.schemaPath.length = 3
    ∧ (JsonSchemaTraversalInfo.init .null anyOfSchema).schemaPath.length = 1 := by
  refine ⟨?_, ?_, rfl⟩ <;>
    simp [JsonSchemaTraversalInfo.init, validate, validateSingleSchema, validateConditional,
      validateAllOf, validateAnyOf, validateAnyOfLoop, validateOneOf, validateNoneOf,
      anyOfSchema, unconstrainedSchema, isValueTypeAny, getValueType,
      Schema.type, Schema.const, Schema.enum, Schema.f, constViolated, enumViolated,
      Schema.ifSchema, Schema.allOf, Schema.anyOf, Schema.oneOf, Schema.notSchemas,
      JsonSchemaTraversalInfo.schemaPush]

/-- C5, amended: the exception-safety the claim asserts holds only away
from the combinators that catch inner failures.  For catch-free schemas —
no `if`, `anyOf`, `oneOf` or `not` anywhere validation can descend (see
`CatchFree`) — every push on the success path is balanced by a pop: a
successful top-level `validate` hands back its traversal info exactly as
received, with both stacks at their initial entries.  With those
combinators present the balance can fail even on success, because
`validateAnyOf` returns without popping (see `C5_counterexample`), and a
raised error never rolls the stacks back (errors deliberately carry the
deeper snapshot). -/
theorem C5_catchfree_balanced (re : RegexEngine) (s : Schema) (v : Value)
    (info : JsonSchemaTraversalInfo) (hcf : CatchFree s)
    (hok : (validate re v s info).1 = .ok ()) :
    (validate re v s info).2 = info :=
  validate_catchFree_info re (sizeOf s + sizeOf v) s v (le_refl _) hcf info hok

/-- Witness for C5 at `{type:"integer"}` and value `3`: the schema is
catch-free, validation succeeds, and the traversal info comes back equal to
the initial one. -/
theorem C5_witness :
    (validate noRegex (.num 3) intSchema (JsonSchemaTraversalInfo.init (.num 3) intSchema)).1
      = .ok ()
    ∧ (validate noRegex (.num 3) intSchema (JsonSchemaTraversalInfo.init (.num 3) intSchema)).2
      = JsonSchemaTraversalInfo.init (.num 3) intSchema := by
  have hcf : CatchFree intSchema :=
    CatchFree.intro _ rfl rfl rfl rfl
      (fun l hl => by simp [intSchema, Schema.allOf, Schema.f] at hl)
      (fun l hl => by simp [intSchema, Schema.properties, Schema.f] at hl)
      (fun x hx => by simp [intSchema, Schema.additionalProperties, Schema.f] at hx)
      (fun x hx => by simp [intSchema, Schema.items, Schema.f] at hx)
      (fun l hl => by simp [intSchema, Schema.items, Schema.f] at hl)
      (fun x hx => by simp [intSchema, Schema.additionalItems, Schema.f] at hx)
  have hok : (validate noRegex (.num 3) intSchema
      (JsonSchemaTraversalInfo.init (.num 3) intSchema)).1 = .ok () := by
    simp [validate, validateSingleSchema, validateConditional, validateAllOf, validateAnyOf,
      validateOneOf, validateNoneOf, validateNumber, intSchema, isValueTypeAny, isValueType,
      getValueType, jsFloorEqSelf, Schema.type, Schema.const, Schema.enum, Schema.f,
      constViolated, enumViolated, Schema.ifSchema, Schema.allOf, Schema.anyOf, Schema.oneOf,
      Schema.notSchemas, Schema.multipleOf, Schema.minimum, Schema.exclusiveMinimum,
      Schema.maximum, Schema.exclusiveMaximum,
      show ((3:ℚ).floor : ℚ) = 3 by decide]
  exact ⟨hok, C5_catchfree_balanced noRegex intSchema (.num 3)
    (JsonSchemaTraversalInfo.init (.num 3) intSchema) hcf hok⟩

end Yomichan

namespace Yomichan

/-! ## Field-list lemmas for the population phase -/

theorem lookupField_setField_self (f : List (String × Value)) (k : String) (x : Value) :
    lookupField (setField f k x) k = some x := by
  induction f with
  | nil => simp [setField, lookupField]
  | cons kv rest ih =>
      rcases kv with ⟨q, y⟩
      rw [setField]
      by_cases hq : q = k
      · rw [if_pos hq, lookupField, if_pos rfl]
      · rw [if_neg hq, lookupField, if_neg hq]
        exact ih

theorem lookupField_setField_ne (f : List (String × Value)) {q k : String} (x : Value)
    (h : q ≠ k) : lookupField (setField f q x) k = lookupField f k := by
  induction f with
  | nil => simp [setField, lookupField, h]
  | cons kv rest ih =>
      rcases kv with ⟨r, y⟩
      rw [setField]
      by_cases hr : r = q
      · rw [if_pos hr, lookupField, lookupField, if_neg h, if_neg (by rw [hr]; exact h)]
      · rw [if_neg hr, lookupField, lookupField]
        by_cases hrk : r = k
        · rw [if_pos hrk, if_pos hrk]
        · rw [if_neg hrk, if_neg hrk]
          exact ih

theorem lookupField_deleteField_self (f : List (String × Value)) (k : String) :
    lookupField (deleteField f k) k = none := by
  induction f with
  | nil => simp [deleteField, lookupField]
  | cons kv rest ih =>
      rcases kv with ⟨q, y⟩
      by_cases hq : q = k
      · rw [deleteField, List.filter_cons, if_neg (by simp [hq])]
        rw [deleteField] at ih
        exact ih
      · rw [deleteField, List.filter_cons, if_pos (by simp [hq])]
        rw [lookupField, if_neg hq]
        rw [deleteField] at ih
        exact ih

theorem lookupField_deleteField_ne (f : List (String × Value)) {q k : String}
    (h : q ≠ k) : lookupField (deleteField f q) k = lookupField f k := by
  induction f with
  | nil => simp [deleteField, lookupField]
  | cons kv rest ih =>
      rcases kv with ⟨r, y⟩
      by_cases hr : r = q
      · rw [deleteField, List.filter_cons, if_neg (by simp [hr])]
        rw [lookupField, if_neg (by rw [hr]; exact h)]
        rw [deleteField] at ih
        exact ih
      · rw [deleteField, List.filter_cons, if_pos (by simp [hr])]
        rw [lookupField, lookupField]
        by_cases hrk : r = k
        · rw [if_pos hrk, if_pos hrk]
        · rw [if_neg hrk, if_neg hrk]
          rw [deleteField] at ih
          exact ih

/-- Writing back the value the key already holds changes nothing. -/
theorem setField_self {f : List (String × Value)} {k : String} {x : Value}
    (h : lookupField f k = some x) : setField f k x = f := by
  induction f with
  | nil => rw [lookupField] at h; exact absurd h (by simp)
  | cons kv rest ih =>
      rcases kv with ⟨q, y⟩
      rw [lookupField] at h
      rw [setField]
      by_cases hq : q = k
      · rw [if_pos hq] at h ⊢
        injection h with h
        rw [hq, h]
      · rw [if_neg hq] at h ⊢
        rw [ih h]

theorem lookupField_mem {f : List (String × Value)} {k : String} {x : Value}
    (h : lookupField f k = some x) : (k, x) ∈ f := by
  induction f with
  | nil => rw [lookupField] at h; exact absurd h (by simp)
  | cons kv rest ih =>
      rcases kv with ⟨q, y⟩
      rw [lookupField] at h
      by_cases hq : q = k
      · rw [if_pos hq] at h
        injection h with h
        rw [← hq, ← h]
        exact List.mem_cons_self _ _
      · rw [if_neg hq] at h
        exact List.mem_cons_of_mem _ (ih h)

/-- With distinct keys, every listed pair is what lookup returns. -/
theorem mem_lookupField_of_nodup {f : List (String × Value)} {k : String} {x : Value}
    (hnd : (f.map Prod.fst).Nodup) (h : (k, x) ∈ f) : lookupField f k = some x := by
  induction f with
  | nil => exact absurd h (by simp)
  | cons kv rest ih =>
      rcases kv with ⟨q, y⟩
      rw [List.map_cons, List.nodup_cons] at hnd
      rw [lookupField]
      rcases List.mem_cons.mp h with heq | hm
      · injection heq with h1 h2
        rw [if_pos h1.symm]
        rw [h2]
      · by_cases hq : q = k
        · exfalso
          apply hnd.1
          rw [hq]
          exact List.mem_map.mpr ⟨(k, x), hm, rfl⟩
        · rw [if_neg hq]
          exact ih hnd.2 hm

/-- The keys after `setField`: unchanged when the key is present, the key
appended otherwise. -/
theorem setField_map_fst (f : List (String × Value)) (k : String) (x : Value) :
    (setField f k x).map Prod.fst
      = if k ∈ f.map Prod.fst then f.map Prod.fst else f.map Prod.fst ++ [k] := by
  induction f with
  | nil => simp [setField]
  | cons kv rest ih =>
      rcases kv with ⟨q, y⟩
      rw [setField]
      by_cases hq : q = k
      · rw [if_pos hq]
        simp [hq]
      · rw [if_neg hq]
        simp only [List.map_cons, List.mem_cons]
        rw [ih]
        by_cases hk : k ∈ rest.map Prod.fst
        · rw [if_pos hk, if_pos (Or.inr hk)]
        · rw [if_neg hk, if_neg (by rintro (h | h); exact hq h.symm; exact hk h)]
          simp

theorem setField_nodup {f : List (String × Value)} (k : String) (x : Value)
    (hnd : (f.map Prod.fst).Nodup) : ((setField f k x).map Prod.fst).Nodup := by
  rw [setField_map_fst]
  split
  · exact hnd
  · rename_i hk
    simp only [List.nodup_append, List.nodup_singleton]
    exact ⟨hnd, by simp, by simpa using hk⟩

theorem deleteField_nodup {f : List (String × Value)} (k : String)
    (hnd : (f.map Prod.fst).Nodup) : ((deleteField f k).map Prod.fst).Nodup := by
  rw [deleteField]
  exact hnd.sublist ((List.filter_sublist f).map Prod.fst)

/-- A pair of `setField`'s result is the written value or an original pair. -/
theorem mem_setField {f : List (String × Value)} {k : String} {x : Value}
    {kv : String × Value} (h : kv ∈ setField f k x) : kv.2 = x ∨ kv ∈ f := by
  induction f with
  | nil =>
      rw [setField] at h
      rcases List.mem_singleton.mp h with h
      rw [h]
      exact Or.inl rfl
  | cons qv rest ih =>
      rcases qv with ⟨q, y⟩
      rw [setField] at h
      by_cases hq : q = k
      · rw [if_pos hq] at h
        rcases List.mem_cons.mp h with heq | hm
        · rw [heq]
          exact Or.inl rfl
        · exact Or.inr (List.mem_cons_of_mem _ hm)
      · rw [if_neg hq] at h
        rcases List.mem_cons.mp h with heq | hm
        · rw [heq]
          exact Or.inr (List.mem_cons_self _ _)
        · rcases ih hm with h1 | h1
          · exact Or.inl h1
          · exact Or.inr (List.mem_cons_of_mem _ h1)

theorem mem_deleteField {f : List (String × Value)} {k : String}
    {kv : String × Value} (h : kv ∈ deleteField f k) : kv ∈ f := by
  rw [deleteField] at h
  exact List.mem_of_mem_filter h

/-- A key of a field list owns a pair. -/
theorem exists_pair_of_key {f : List (String × Value)} {k : String}
    (h : k ∈ f.map Prod.fst) : ∃ x, (k, x) ∈ f := by
  rcases List.mem_map.mp h with ⟨kv, hm, he⟩
  exact ⟨kv.2, by rw [← he]; exact hm⟩

end Yomichan

namespace Yomichan

/-- `getSchemaOrValueType` sees an object only through its runtime type. -/
theorem getSchemaOrValueType_obj_congr (s : Schema) (f f' : List (String × Value)) :
    getSchemaOrValueType s (.obj f) = getSchemaOrValueType s (.obj f') := by
  rcases ht : s.type with _ | t | l <;>
    simp [getSchemaOrValueType, getValueType, ht]

/-- `getSchemaOrValueType` sees an array only through its runtime type. -/
theorem getSchemaOrValueType_arr_congr (s : Schema) (e e' : List Value)
    (p p' : List (String × Value)) :
    getSchemaOrValueType s (.arr e p) = getSchemaOrValueType s (.arr e' p') := by
  rcases ht : s.type with _ | t | l <;>
    simp [getSchemaOrValueType, getValueType, ht]

/-- `getPropertySchema` consults the value only through
`getSchemaOrValueType`. -/
theorem getPropertySchema_value_congr (s : Schema) (k : PropName) {v v' : Value}
    (hty : getSchemaOrValueType s v = getSchemaOrValueType s v') :
    getPropertySchema s k v = getPropertySchema s k v' := by
  rw [getPropertySchema.eq_def, getPropertySchema.eq_def, hty]

theorem getPropertySchema_obj_congr (s : Schema) (k : PropName)
    (f f' : List (String × Value)) :
    getPropertySchema s k (.obj f) = getPropertySchema s k (.obj f') :=
  getPropertySchema_value_congr s k (getSchemaOrValueType_obj_congr s f f')

theorem getPropertySchema_arr_congr (s : Schema) (k : PropName) (e e' : List Value)
    (p p' : List (String × Value)) :
    getPropertySchema s k (.arr e p) = getPropertySchema s k (.arr e' p') :=
  getPropertySchema_value_congr s k (getSchemaOrValueType_arr_congr s e e' p p')

/-- Against the unconstrained schema every object property resolves to the
unconstrained schema (the `additionalProperties` fallback). -/
theorem getPropertySchema_unconstrained_obj (k : String) (f : List (String × Value)) :
    (getPropertySchema unconstrainedSchema (.strKey k) (.obj f)).1
      = some unconstrainedSchema := rfl

/-- Against the unconstrained schema every array index resolves to the
unconstrained schema (the `additionalItems` fallback). -/
theorem getPropertySchema_unconstrained_arr (i : Nat) (e : List Value)
    (p : List (String × Value)) :
    (getPropertySchema unconstrainedSchema (.idxKey i) (.arr e p)).1
      = some unconstrainedSchema := rfl

/-- A passed `required` scan means every required name is an own property. -/
theorem requiredMissing_none {names : List String} {s : Schema} {req : List String}
    (h : requiredMissing names s = none) (hreq : s.required = some req) :
    ∀ p ∈ req, p ∈ names := by
  rw [requiredMissing, hreq] at h
  intro p hp
  have h2 := List.find?_eq_none.mp h p hp
  simpa using h2

/-- Well-formed schema documents: every embedded `default` value has
distinct own property names (as every JavaScript object does), recursively
through the fields `getPropertySchema` can resolve into. -/
inductive Schema.WF : Schema → Prop where
  | intro : ∀ s : Schema,
      (∀ d, s.default = some d → Value.WF d) →
      (∀ l, s.properties = some l → ∀ kv ∈ l, Schema.WF kv.2) →
      (∀ x, s.additionalProperties = some (.inr x) → Schema.WF x) →
      (∀ x, s.items = some (.inl x) → Schema.WF x) →
      (∀ l, s.items = some (.inr l) → ∀ x ∈ l, Schema.WF x) →
      (∀ x, s.additionalItems = some (.inr x) → Schema.WF x) →
      Schema.WF s

theorem Schema.WF.default_wf {s : Schema} (h : Schema.WF s) :
    ∀ d, s.default = some d → Value.WF d := by
  cases h; assumption

theorem unconstrainedSchema_wf : Schema.WF unconstrainedSchema :=
  Schema.WF.intro _
    (fun d hd => by simp [unconstrainedSchema, Schema.default, Schema.f] at hd)
    (fun l hl => by simp [unconstrainedSchema, Schema.properties, Schema.f] at hl)
    (fun x hx => by simp [unconstrainedSchema, Schema.additionalProperties, Schema.f] at hx)
    (fun x hx => by simp [unconstrainedSchema, Schema.items, Schema.f] at hx)
    (fun l hl => by simp [unconstrainedSchema, Schema.items, Schema.f] at hl)
    (fun x hx => by simp [unconstrainedSchema, Schema.additionalItems, Schema.f] at hx)

/-- Schema resolution preserves schema well-formedness. -/
theorem getPropertySchema_wf {s : Schema} {k : PropName} {v : Value} {r : Schema}
    (hwf : Schema.WF s) (h : (getPropertySchema s k v).1 = some r) : Schema.WF r := by
  cases hwf with
  | intro s hdef hprops haddp hit1 hit2 haddi =>
  rcases getPropertySchema_cases h with
    ⟨props, hp, kv, hm, he⟩ | ⟨x, hx, he⟩ | ⟨tuple, ht, hm⟩ | hap | hai | hu
  · exact he ▸ hprops props hp kv hm
  · exact he ▸ hit1 x hx
  · exact hit2 tuple ht r hm
  · exact haddp r hap
  · exact haddi r hai
  · exact hu ▸ unconstrainedSchema_wf

end Yomichan

namespace Yomichan

/-- `getDefaultTypeValue` produces an object only for `type: "object"`. -/
theorem getDefaultTypeValue_obj {ts : TypeSpec} {f : List (String × Value)}
    (h : getDefaultTypeValue ts = .obj f) : ts = some (.inl "object") := by
  match ts with
  | none => exact Value.noConfusion h
  | some (.inr l) => exact Value.noConfusion h
  | some (.inl t) =>
      rw [getDefaultTypeValue] at h
      by_cases h1 : t = "null"
      · rw [if_pos h1] at h; exact Value.noConfusion h
      · rw [if_neg h1] at h
        by_cases h2 : t = "boolean"
        · rw [if_pos h2] at h; exact Value.noConfusion h
        · rw [if_neg h2] at h
          by_cases h3 : t = "number"
          · rw [if_pos h3] at h; exact Value.noConfusion h
          · rw [if_neg h3] at h
            by_cases h4 : t = "integer"
            · rw [if_pos h4] at h; exact Value.noConfusion h
            · rw [if_neg h4] at h
              by_cases h5 : t = "string"
              · rw [if_pos h5] at h; exact Value.noConfusion h
              · rw [if_neg h5] at h
                by_cases h6 : t = "array"
                · rw [if_pos h6] at h; exact Value.noConfusion h
                · rw [if_neg h6] at h
                  by_cases h7 : t = "object"
                  · rw [h7]
                  · rw [if_neg h7] at h; exact Value.noConfusion h

/-- `getDefaultTypeValue` produces an array only for `type: "array"`. -/
theorem getDefaultTypeValue_arr {ts : TypeSpec} {e : List Value} {p : List (String × Value)}
    (h : getDefaultTypeValue ts = .arr e p) : ts = some (.inl "array") := by
  match ts with
  | none => exact Value.noConfusion h
  | some (.inr l) => exact Value.noConfusion h
  | some (.inl t) =>
      rw [getDefaultTypeValue] at h
      by_cases h1 : t = "null"
      · rw [if_pos h1] at h; exact Value.noConfusion h
      · rw [if_neg h1] at h
        by_cases h2 : t = "boolean"
        · rw [if_pos h2] at h; exact Value.noConfusion h
        · rw [if_neg h2] at h
          by_cases h3 : t = "number"
          · rw [if_pos h3] at h; exact Value.noConfusion h
          · rw [if_neg h3] at h
            by_cases h4 : t = "integer"
            · rw [if_pos h4] at h; exact Value.noConfusion h
            · rw [if_neg h4] at h
              by_cases h5 : t = "string"
              · rw [if_pos h5] at h; exact Value.noConfusion h
              · rw [if_neg h5] at h
                by_cases h6 : t = "array"
                · rw [h6]
                · rw [if_neg h6] at h
                  by_cases h7 : t = "object"
                  · rw [if_pos h7] at h; exact Value.noConfusion h
                  · rw [if_neg h7] at h; exact Value.noConfusion h

/-- Synthesized type defaults are well-formed values. -/
theorem getDefaultTypeValue_wf (ts : TypeSpec) : Value.WF (getDefaultTypeValue ts) := by
  match ts with
  | none => simp [getDefaultTypeValue, Value.WF]
  | some (.inr l) => simp [getDefaultTypeValue, Value.WF]
  | some (.inl t) =>
      rw [getDefaultTypeValue]
      repeat' split
      all_goals simp [Value.WF]

/-- The substitution phase is stable on its own output: the default branch
never consults the incoming value, so a value it produced is reproduced. -/
theorem substituteStep_fix {s : Schema} {v w : Value} (h : substituteStep s v = w) :
    substituteStep s w = w := by
  by_cases hw : isValueTypeAny w (getValueType w) s.type = true
  · rw [substituteStep, if_pos hw]
  · rw [substituteStep] at h
    split at h
    · rename_i hv
      rw [h] at hv
      exact absurd hv hw
    · rw [substituteStep, if_neg hw]
      exact h

/-- If the substitution phase yields an object, objects are type-valid for
the schema, so every object passes the phase unchanged. -/
theorem substituteStep_obj {s : Schema} {v : Value} {f : List (String × Value)}
    (h : substituteStep s v = .obj f) (f' : List (String × Value)) :
    substituteStep s (.obj f') = .obj f' := by
  by_cases hval : isValueTypeAny (.obj f') (getValueType (.obj f')) s.type = true
  · rw [substituteStep, if_pos hval]
  · exfalso
    have hobj : ∀ g2 : List (String × Value),
        isValueTypeAny (.obj g2) (getValueType (.obj g2)) s.type = false := by
      intro g2
      have hcg := @isValueTypeAny_congr (.obj g2) (.obj f') s.type rfl rfl
      rw [hcg]
      simp only [Bool.not_eq_true] at hval
      exact hval
    rw [substituteStep] at h
    split at h
    · rename_i hv
      rw [h, hobj f] at hv
      exact Bool.noConfusion hv
    · split at h
      · have ht := getDefaultTypeValue_obj h
        apply hval
        rw [ht]
        rfl
      · have ht := getDefaultTypeValue_obj h
        apply hval
        rw [ht]
        rfl
      · dsimp only at h
        split at h
        · rename_i hc
          rw [h, hobj f] at hc
          exact Bool.noConfusion hc
        · have ht := getDefaultTypeValue_obj h
          apply hval
          rw [ht]
          rfl

/-- If the substitution phase yields an array, arrays are type-valid for
the schema, so every array passes the phase unchanged. -/
theorem substituteStep_arr {s : Schema} {v : Value} {e : List Value}
    {p : List (String × Value)}
    (h : substituteStep s v = .arr e p) (e' : List Value) (p' : List (String × Value)) :
    substituteStep s (.arr e' p') = .arr e' p' := by
  by_cases hval : isValueTypeAny (.arr e' p') (getValueType (.arr e' p')) s.type = true
  · rw [substituteStep, if_pos hval]
  · exfalso
    have harr : ∀ (e2 : List Value) (p2 : List (String × Value)),
        isValueTypeAny (.arr e2 p2) (getValueType (.arr e2 p2)) s.type = false := by
      intro e2 p2
      have hcg := @isValueTypeAny_congr (.arr e2 p2) (.arr e' p') s.type rfl rfl
      rw [hcg]
      simp only [Bool.not_eq_true] at hval
      exact hval
    rw [substituteStep] at h
    split at h
    · rename_i hv
      rw [h, harr e p] at hv
      exact Bool.noConfusion hv
    · split at h
      · have ht := getDefaultTypeValue_arr h
        apply hval
        rw [ht]
        rfl
      · have ht := getDefaultTypeValue_arr h
        apply hval
        rw [ht]
        rfl
      · dsimp only at h
        split at h
        · rename_i hc
          rw [h, harr e p] at hc
          exact Bool.noConfusion hc
        · have ht := getDefaultTypeValue_arr h
          apply hval
          rw [ht]
          rfl

/-- The substitution phase preserves value well-formedness. -/
theorem substituteStep_wf {s : Schema} {v : Value} (hswf : Schema.WF s)
    (hwf : Value.WF v) : Value.WF (substituteStep s v) := by
  rw [substituteStep]
  split
  · exact hwf
  · split
    · exact getDefaultTypeValue_wf s.type
    · exact getDefaultTypeValue_wf s.type
    · rename_i d hne hd
      dsimp only
      split
      · rw [clone_eq_id]
        exact hswf.default_wf d hd
      · exact getDefaultTypeValue_wf s.type

end Yomichan

namespace Yomichan

/-- The `required` loop is the identity when every resolvable required name
already holds a repaired value. -/
theorem populateRequiredLoop_fix (schema : Schema) :
    ∀ (req : List String) (fields : List (String × Value)) (hip : schema.required.isSome = true),
    (∀ p ∈ req, ∀ ps, (getPropertySchema schema (.strKey p) (.obj fields)).1 = some ps →
      ∃ x, lookupField fields p = some x ∧ getValidValueOrDefault ps x = x) →
    populateRequiredLoop schema req fields hip = fields := by
  intro req
  induction req with
  | nil => intro fields hip hprem; rw [populateRequiredLoop]
  | cons p rest ih =>
      intro fields hip hprem
      rw [populateRequiredLoop.eq_def]
      dsimp only
      split
      · exact ih fields hip (fun q hq => hprem q (List.mem_cons_of_mem _ hq))
      · rename_i ps hres
        rcases hprem p (List.mem_cons_self _ _) ps hres with ⟨x, hlx, hgx⟩
        rw [hlx]
        simp only [Option.getD_some]
        rw [hgx, setField_self hlx]
        exact ih fields hip (fun q hq => hprem q (List.mem_cons_of_mem _ hq))

/-- The remaining-properties loop is the identity when every snapshot pair
resolves and already holds a repaired value. -/
theorem populatePropsLoop_fix (schema : Schema) :
    ∀ (snap fields : List (String × Value)),
    (∀ kv ∈ snap, ∃ ps, (getPropertySchema schema (.strKey kv.1) (.obj fields)).1 = some ps
      ∧ getValidValueOrDefault ps kv.2 = kv.2 ∧ lookupField fields kv.1 = some kv.2) →
    populatePropsLoop schema snap fields = fields := by
  intro snap
  induction snap with
  | nil => intro fields hprem; rw [populatePropsLoop]
  | cons kv rest ih =>
      intro fields hprem
      rcases kv with ⟨p, x⟩
      rw [populatePropsLoop.eq_def]
      dsimp only
      rcases hprem (p, x) (List.mem_cons_self _ _) with ⟨ps, hres, hgx, hlx⟩
      split
      · rename_i hres2
        rw [hres] at hres2
        exact Option.noConfusion hres2
      · rename_i ps2 hres2
        rw [hres] at hres2
        injection hres2 with hps2
        rw [← hps2, hgx, setField_self hlx]
        exact ih fields (fun kv2 h2 => hprem kv2 (List.mem_cons_of_mem _ h2))

/-- The element loop is the identity when every element is already repaired
for its index's resolved schema. -/
theorem populateArrayLoop_fix (schema : Schema) (orig : Value) :
    ∀ (remaining : List Value) (i : Nat),
    (∀ (j : Nat) (x : Value), remaining[j]? = some x →
      ∀ ps, (getPropertySchema schema (.idxKey (i + j)) orig).1 = some ps →
      getValidValueOrDefault ps x = x) →
    populateArrayLoop schema orig i remaining = remaining := by
  intro remaining
  induction remaining with
  | nil => intro i hprem; rw [populateArrayLoop]
  | cons x rest ih =>
      intro i hprem
      have hshift : ∀ (j : Nat) (y : Value), rest[j]? = some y →
          ∀ ps, (getPropertySchema schema (.idxKey (i + 1 + j)) orig).1 = some ps →
          getValidValueOrDefault ps y = y := by
        intro j y hy ps hp
        exact hprem (j + 1) y (by simpa using hy) ps
          (by rw [show i + (j + 1) = i + 1 + j by omega]; exact hp)
      rw [populateArrayLoop.eq_def]
      dsimp only
      split
      · rw [ih (i + 1) hshift]
      · rename_i ps hres
        rw [hprem 0 x (by simp) ps (by rw [Nat.add_zero]; exact hres)]
        rw [ih (i + 1) hshift]

/-- Keys outside the snapshot read the same after the properties loop. -/
theorem lookupField_populatePropsLoop_not_mem (schema : Schema) :
    ∀ (snap fields : List (String × Value)) (k : String),
    k ∉ snap.map Prod.fst →
    lookupField (populatePropsLoop schema snap fields) k = lookupField fields k := by
  intro snap
  induction snap with
  | nil => intro fields k hk; rw [populatePropsLoop]
  | cons kv rest ih =>
      intro fields k hk
      rcases kv with ⟨q, y⟩
      rw [List.map_cons] at hk
      have hk1 : ¬(k = q) := fun he => hk (by rw [he]; exact List.mem_cons_self _ _)
      have hk2 : k ∉ rest.map Prod.fst := fun hm => hk (List.mem_cons_of_mem _ hm)
      rw [populatePropsLoop.eq_def]
      dsimp only
      split
      · rw [ih _ k hk2, lookupField_deleteField_ne fields (fun he => hk1 he.symm)]
      · rename_i ps hres
        rw [ih _ k hk2, lookupField_setField_ne fields _ (fun he => hk1 he.symm)]

/-- What a snapshot key reads after the properties loop: deleted when its
schema is `NotPermitted`, the repaired snapshot value otherwise. -/
theorem lookupField_populatePropsLoop_mem (schema : Schema) :
    ∀ (snap fields : List (String × Value)) (k : String) (x : Value),
    (k, x) ∈ snap → (snap.map Prod.fst).Nodup →
    lookupField (populatePropsLoop schema snap fields) k
      = (match (getPropertySchema schema (.strKey k) (.obj [])).1 with
         | none => none
         | some ps => some (getValidValueOrDefault ps x)) := by
  intro snap
  induction snap with
  | nil => intro fields k x hm hnd; exact absurd hm (by simp)
  | cons kv rest ih =>
      intro fields k x hm hnd
      rcases kv with ⟨q, y⟩
      rw [List.map_cons, List.nodup_cons] at hnd
      rw [populatePropsLoop.eq_def]
      dsimp only
      rcases List.mem_cons.mp hm with heq | hmr
      · injection heq with h1 h2
        subst h1
        subst h2
        have hcongr := congrArg Prod.fst
          (getPropertySchema_obj_congr schema (.strKey k) fields [])
        split
        · rename_i hres
          rw [lookupField_populatePropsLoop_not_mem schema rest _ k hnd.1]
          rw [lookupField_deleteField_self]
          have h3 : (getPropertySchema schema (.strKey k) (.obj [])).1 = none := by
            rw [← hcongr]
            exact hres
          rw [h3]
        · rename_i ps hres
          rw [lookupField_populatePropsLoop_not_mem schema rest _ k hnd.1]
          rw [lookupField_setField_self]
          have h3 : (getPropertySchema schema (.strKey k) (.obj [])).1 = some ps := by
            rw [← hcongr]
            exact hres
          rw [h3]
      · split
        · exact ih _ k x hmr hnd.2
        · exact ih _ k x hmr hnd.2

/-- Keys outside `required` read the same after the required loop. -/
theorem lookupField_populateRequiredLoop_not_mem (schema : Schema) :
    ∀ (req : List String) (fields : List (String × Value))
      (hip : schema.required.isSome = true) (k : String), k ∉ req →
    lookupField (populateRequiredLoop schema req fields hip) k = lookupField fields k := by
  intro req
  induction req with
  | nil => intro fields hip k hk; rw [populateRequiredLoop]
  | cons q rest ih =>
      intro fields hip k hk
      have hk1 : ¬(k = q) := fun he => hk (by rw [he]; exact List.mem_cons_self _ _)
      have hk2 : k ∉ rest := fun hm => hk (List.mem_cons_of_mem _ hm)
      rw [populateRequiredLoop.eq_def]
      dsimp only
      split
      · exact ih fields hip k hk2
      · rename_i ps hres
        rw [ih _ hip k hk2, lookupField_setField_ne fields _ (fun he => hk1 he.symm)]

end Yomichan

namespace Yomichan

/-- A resolvable required name reads back a repaired, well-formed value
after the required loop. -/
theorem lookupField_populateRequiredLoop_mem (schema : Schema)
    (hidem : ∀ (k : String) ps, (getPropertySchema schema (.strKey k) (.obj [])).1 = some ps →
      ∀ x, Value.WF x →
        getValidValueOrDefault ps (getValidValueOrDefault ps x) = getValidValueOrDefault ps x)
    (hwfg : ∀ (k : String) ps, (getPropertySchema schema (.strKey k) (.obj [])).1 = some ps →
      ∀ x, Value.WF x → Value.WF (getValidValueOrDefault ps x)) :
    ∀ (req : List String) (fields : List (String × Value))
      (hip : schema.required.isSome = true),
    (∀ kv ∈ fields, Value.WF kv.2) →
    ∀ p ∈ req, ∀ ps, (getPropertySchema schema (.strKey p) (.obj [])).1 = some ps →
    ∃ y, lookupField (populateRequiredLoop schema req fields hip) p = some y
      ∧ getValidValueOrDefault ps y = y ∧ Value.WF y := by
  intro req
  induction req with
  | nil => intro fields hip hwfv p hp; exact absurd hp (by simp)
  | cons q rest ih =>
      intro fields hip hwfv p hp ps hres
      rw [populateRequiredLoop.eq_def]
      dsimp only
      by_cases hpr : p ∈ rest
      · split
        · exact ih fields hip hwfv p hpr ps hres
        · rename_i ps2 hres2
          refine ih _ hip ?_ p hpr ps hres
          intro kv hkv
          rcases mem_setField hkv with h1 | h1
          · rw [h1]
            have hres2x : (getPropertySchema schema (.strKey q) (.obj [])).1 = some ps2 := by
              rw [← congrArg Prod.fst (getPropertySchema_obj_congr schema (.strKey q) fields [])]
              exact hres2
            apply hwfg q ps2 hres2x
            rcases hl : lookupField fields q with _ | x0
            · simp [Value.WF]
            · simp only [Option.getD_some]
              exact hwfv (q, x0) (lookupField_mem hl)
          · exact hwfv kv h1
      · have hpq : p = q := by
          rcases List.mem_cons.mp hp with h | h
          · exact h
          · exact absurd h hpr
        subst hpq
        split
        · rename_i hres2
          exfalso
          have h3 : (getPropertySchema schema (.strKey p) (.obj [])).1 = none := by
            rw [← congrArg Prod.fst (getPropertySchema_obj_congr schema (.strKey p) fields [])]
            exact hres2
          rw [hres] at h3
          exact Option.noConfusion h3
        · rename_i ps2 hres2
          have hres2x : (getPropertySchema schema (.strKey p) (.obj [])).1 = some ps2 := by
            rw [← congrArg Prod.fst (getPropertySchema_obj_congr schema (.strKey p) fields [])]
            exact hres2
          have hps2 : ps2 = ps := by
            rw [hres2x] at hres
            injection hres
          subst hps2
          have hx0wf : Value.WF ((lookupField fields p).getD .undef) := by
            rcases hl : lookupField fields p with _ | x0
            · simp [Value.WF]
            · simp only [Option.getD_some]
              exact hwfv (p, x0) (lookupField_mem hl)
          refine ⟨getValidValueOrDefault ps2 ((lookupField fields p).getD .undef), ?_, ?_, ?_⟩
          · rw [lookupField_populateRequiredLoop_not_mem schema rest _ hip p hpr]
            exact lookupField_setField_self _ _ _
          · exact hidem p ps2 hres2x _ hx0wf
          · exact hwfg p ps2 hres2x _ hx0wf

/-- The properties loop preserves distinct keys. -/
theorem populatePropsLoop_nodup (schema : Schema) :
    ∀ (snap fields : List (String × Value)), (fields.map Prod.fst).Nodup →
    ((populatePropsLoop schema snap fields).map Prod.fst).Nodup := by
  intro snap
  induction snap with
  | nil => intro fields hnd; rw [populatePropsLoop]; exact hnd
  | cons kv rest ih =>
      intro fields hnd
      rcases kv with ⟨q, y⟩
      rw [populatePropsLoop.eq_def]
      dsimp only
      split
      · exact ih _ (deleteField_nodup q hnd)
      · exact ih _ (setField_nodup q _ hnd)

/-- The required loop preserves distinct keys. -/
theorem populateRequiredLoop_nodup (schema : Schema) :
    ∀ (req : List String) (fields : List (String × Value))
      (hip : schema.required.isSome = true), (fields.map Prod.fst).Nodup →
    ((populateRequiredLoop schema req fields hip).map Prod.fst).Nodup := by
  intro req
  induction req with
  | nil => intro fields hip hnd; rw [populateRequiredLoop]; exact hnd
  | cons q rest ih =>
      intro fields hip hnd
      rw [populateRequiredLoop.eq_def]
      dsimp only
      split
      · exact ih fields hip hnd
      · exact ih _ hip (setField_nodup q _ hnd)

/-- The properties loop stores only well-formed values. -/
theorem populatePropsLoop_wf (schema : Schema)
    (hwfg : ∀ (k : String) ps, (getPropertySchema schema (.strKey k) (.obj [])).1 = some ps →
      ∀ x, Value.WF x → Value.WF (getValidValueOrDefault ps x)) :
    ∀ (snap fields : List (String × Value)),
    (∀ kv ∈ snap, Value.WF kv.2) → (∀ kv ∈ fields, Value.WF kv.2) →
    ∀ kv ∈ populatePropsLoop schema snap fields, Value.WF kv.2 := by
  intro snap
  induction snap with
  | nil =>
      intro fields hsnap hwfv kv hkv
      rw [populatePropsLoop] at hkv
      exact hwfv kv hkv
  | cons qv rest ih =>
      intro fields hsnap hwfv kv hkv
      rcases qv with ⟨q, y⟩
      rw [populatePropsLoop.eq_def] at hkv
      dsimp only at hkv
      rcases hsplit : (getPropertySchema schema (.strKey q) (.obj fields)).1 with _ | ps
      all_goals rw [hsplit] at hkv
      · refine ih _ (fun kv2 h2 => hsnap kv2 (List.mem_cons_of_mem _ h2)) ?_ kv hkv
        intro kv2 h2
        exact hwfv kv2 (mem_deleteField h2)
      · refine ih _ (fun kv2 h2 => hsnap kv2 (List.mem_cons_of_mem _ h2)) ?_ kv hkv
        intro kv2 h2
        rcases mem_setField h2 with h3 | h3
        · rw [h3]
          have hresx : (getPropertySchema schema (.strKey q) (.obj [])).1 = some ps := by
            rw [← congrArg Prod.fst (getPropertySchema_obj_congr schema (.strKey q) fields [])]
            exact hsplit
          exact hwfg q ps hresx y (hsnap (q, y) (List.mem_cons_self _ _))
        · exact hwfv kv2 h3

/-- The required loop stores only well-formed values. -/
theorem populateRequiredLoop_wf (schema : Schema)
    (hwfg : ∀ (k : String) ps, (getPropertySchema schema (.strKey k) (.obj [])).1 = some ps →
      ∀ x, Value.WF x → Value.WF (getValidValueOrDefault ps x)) :
    ∀ (req : List String) (fields : List (String × Value))
      (hip : schema.required.isSome = true),
    (∀ kv ∈ fields, Value.WF kv.2) →
    ∀ kv ∈ populateRequiredLoop schema req fields hip, Value.WF kv.2 := by
  intro req
  induction req with
  | nil =>
      intro fields hip hwfv kv hkv
      rw [populateRequiredLoop] at hkv
      exact hwfv kv hkv
  | cons q rest ih =>
      intro fields hip hwfv kv hkv
      rw [populateRequiredLoop.eq_def] at hkv
      dsimp only at hkv
      rcases hsplit : (getPropertySchema schema (.strKey q) (.obj fields)).1 with _ | ps
      all_goals rw [hsplit] at hkv
      · exact ih fields hip hwfv kv hkv
      · refine ih _ hip ?_ kv hkv
        intro kv2 h2
        rcases mem_setField h2 with h3 | h3
        · rw [h3]
          have hresx : (getPropertySchema schema (.strKey q) (.obj [])).1 = some ps := by
            rw [← congrArg Prod.fst (getPropertySchema_obj_congr schema (.strKey q) fields [])]
            exact hsplit
          apply hwfg q ps hresx
          rcases hl : lookupField fields q with _ | x0
          · simp [Value.WF]
          · simp only [Option.getD_some]
            exact hwfv (q, x0) (lookupField_mem hl)
        · exact hwfv kv2 h3

end Yomichan

namespace Yomichan

/-- Rerunning the element loop on its own output changes nothing, provided
each resolved element schema is idempotent on the original element and the
rerun resolves identically (resolution only sees the original through its
runtime type). -/
theorem populateArrayLoop_idem (schema : Schema) (orig1 orig2 : Value)
    (hcongr : ∀ k, (getPropertySchema schema (.idxKey k) orig2).1
      = (getPropertySchema schema (.idxKey k) orig1).1) :
    ∀ (remaining : List Value) (i : Nat),
    (∀ (j : Nat) (x : Value), remaining[j]? = some x →
      ∀ ps, (getPropertySchema schema (.idxKey (i + j)) orig1).1 = some ps →
      getValidValueOrDefault ps (getValidValueOrDefault ps x) = getValidValueOrDefault ps x) →
    populateArrayLoop schema orig2 i (populateArrayLoop schema orig1 i remaining)
      = populateArrayLoop schema orig1 i remaining := by
  intro remaining
  induction remaining with
  | nil =>
      intro i hprem
      rw [populateArrayLoop, populateArrayLoop]
  | cons x rest ih =>
      intro i hprem
      have hshift : ∀ (j : Nat) (y : Value), rest[j]? = some y →
          ∀ ps, (getPropertySchema schema (.idxKey (i + 1 + j)) orig1).1 = some ps →
          getValidValueOrDefault ps (getValidValueOrDefault ps y) = getValidValueOrDefault ps y := by
        intro j y hy ps hp
        exact hprem (j + 1) y (by simpa using hy) ps
          (by rw [show i + (j + 1) = i + 1 + j by omega]; exact hp)
      rcases hres : (getPropertySchema schema (.idxKey i) orig1).1 with _ | ps
      · have hinner : populateArrayLoop schema orig1 i (x :: rest)
            = x :: populateArrayLoop schema orig1 (i + 1) rest := by
          rw [populateArrayLoop.eq_def]
          dsimp only
          rw [hres]
        rw [hinner]
        rw [populateArrayLoop.eq_def]
        dsimp only
        rw [hcongr i, hres]
        dsimp only
        rw [ih (i + 1) hshift]
      · have hinner : populateArrayLoop schema orig1 i (x :: rest)
            = getValidValueOrDefault ps x :: populateArrayLoop schema orig1 (i + 1) rest := by
          rw [populateArrayLoop.eq_def]
          dsimp only
          rw [hres]
        rw [hinner]
        rw [populateArrayLoop.eq_def]
        dsimp only
        rw [hcongr i, hres]
        dsimp only
        rw [hprem 0 x (by simp) ps (by rw [Nat.add_zero]; exact hres)]
        rw [ih (i + 1) hshift]

/-- The element loop stores only well-formed values. -/
theorem populateArrayLoop_wf (schema : Schema) (orig : Value)
    (hwfg : ∀ (k : Nat) ps, (getPropertySchema schema (.idxKey k) orig).1 = some ps →
      ∀ x, Value.WF x → Value.WF (getValidValueOrDefault ps x)) :
    ∀ (remaining : List Value) (i : Nat), (∀ x ∈ remaining, Value.WF x) →
    ∀ y ∈ populateArrayLoop schema orig i remaining, Value.WF y := by
  intro remaining
  induction remaining with
  | nil =>
      intro i hwfv y hy
      rw [populateArrayLoop] at hy
      exact absurd hy (by simp)
  | cons x rest ih =>
      intro i hwfv y hy
      rw [populateArrayLoop.eq_def] at hy
      dsimp only at hy
      rcases hres : (getPropertySchema schema (.idxKey i) orig).1 with _ | ps
      all_goals rw [hres] at hy
      · rcases List.mem_cons.mp hy with h1 | h1
        · rw [h1]
          exact hwfv x (List.mem_cons_self _ _)
        · exact ih (i + 1) (fun z hz => hwfv z (List.mem_cons_of_mem _ hz)) y h1
      · rcases List.mem_cons.mp hy with h1 | h1
        · rw [h1]
          exact hwfg i ps hres x (hwfv x (List.mem_cons_self _ _))
        · exact ih (i + 1) (fun z hz => hwfv z (List.mem_cons_of_mem _ hz)) y h1

end Yomichan

namespace Yomichan

/-- Against the unconstrained schema `{}` the population phase is the
identity on well-formed values: everything is type-valid, and every
property/element resolves to `{}` again. -/
theorem getValidValueOrDefault_unconstrained :
    ∀ (n : ℕ) (v : Value), sizeOf v ≤ n → Value.WF v →
    getValidValueOrDefault unconstrainedSchema v = v := by
  intro n
  induction n using Nat.strong_induction_on with
  | _ n IH =>
  intro v hn hwf
  have hIH : ∀ w, sizeOf w < sizeOf v → Value.WF w →
      getValidValueOrDefault unconstrainedSchema w = w := by
    intro w hlt hw
    exact IH (sizeOf w) (by omega) w (le_refl _) hw
  rw [getValidValueOrDefault, substituteStep_unconstrained]
  cases v with
  | obj fields =>
      dsimp only
      have hwff : (fields.map Prod.fst).Nodup ∧ ∀ kv ∈ fields, Value.WF kv.2 := by
        simp only [Value.WF] at hwf
        exact hwf
      have hreq : Schema.required unconstrainedSchema = none := rfl
      rw [populateObjectDefaults.eq_def]
      split
      · rename_i req hreq2
        rw [hreq] at hreq2
        exact Option.noConfusion hreq2
      rw [populatePropsLoop_fix]
      intro kv hkv
      refine ⟨unconstrainedSchema, getPropertySchema_unconstrained_obj kv.1 fields, ?_, ?_⟩
      · exact hIH kv.2
          (by have h1 := sizeOf_snd_lt_of_mem hkv
              simp only [Value.obj.sizeOf_spec]
              omega)
          (hwff.2 kv hkv)
      · exact mem_lookupField_of_nodup hwff.1 hkv
  | arr elems props =>
      dsimp only
      have hwfa : (props.map Prod.fst).Nodup ∧ (∀ x ∈ elems, Value.WF x)
          ∧ (∀ kv ∈ props, Value.WF kv.2) := by
        simp only [Value.WF] at hwf
        exact hwf
      rw [populateArrayDefaults]
      rw [populateArrayLoop_fix]
      intro j x hjx ps hres
      rw [getPropertySchema_unconstrained_arr] at hres
      injection hres with hres
      rw [← hres]
      have hxmem : x ∈ elems := List.getElem?_mem hjx
      exact hIH x
        (by have h1 := List.sizeOf_lt_of_mem hxmem
            simp only [Value.arr.sizeOf_spec]
            omega)
        (hwfa.2.1 x hxmem)
  | undef => rfl
  | null => rfl
  | bool b => rfl
  | num q => rfl
  | str st => rfl

end Yomichan

namespace Yomichan

/-- The population phase preserves value well-formedness (distinct own
property names), for well-formed schemas. -/
theorem getValidValueOrDefault_wf :
    ∀ (M : ℕ) (s : Schema), sizeOf s ≤ M → Schema.WF s →
    ∀ v, Value.WF v → Value.WF (getValidValueOrDefault s v) := by
  intro M
  induction M using Nat.strong_induction_on with
  | _ M IH =>
  intro s hM hswf v hwf
  have hres_wf : ∀ (k : PropName) (vv : Value) ps,
      (getPropertySchema s k vv).1 = some ps →
      ∀ x, Value.WF x → Value.WF (getValidValueOrDefault ps x) := by
    intro k vv ps hps x hx
    have hpswf := getPropertySchema_wf hswf hps
    rcases getPropertySchema_sizeOf hps with ⟨hle, hlt | huncon⟩
    · exact IH (sizeOf ps) (by omega) ps (le_refl _) hpswf x hx
    · subst huncon
      rw [getValidValueOrDefault_unconstrained (sizeOf x) x (le_refl _) hx]
      exact hx
  have hsubwf := substituteStep_wf hswf hwf
  rcases hsub : substituteStep s v with _ | _ | b | q | st | ⟨e1, p1⟩ | f1
  all_goals rw [getValidValueOrDefault, hsub]
  all_goals rw [hsub] at hsubwf
  · exact hsubwf
  · exact hsubwf
  · exact hsubwf
  · exact hsubwf
  · exact hsubwf
  · -- array
    simp only [Value.WF] at hsubwf ⊢
    refine ⟨hsubwf.1, ?_, hsubwf.2.2⟩
    intro y hy
    rw [populateArrayDefaults] at hy
    exact populateArrayLoop_wf s (.arr e1 p1)
      (fun k ps h x hx => hres_wf (.idxKey k) (.arr e1 p1) ps h x hx)
      e1 0 hsubwf.2.1 y hy
  · -- object
    simp only [Value.WF] at hsubwf ⊢
    have hwfg : ∀ (k : String) ps,
        (getPropertySchema s (.strKey k) (.obj [])).1 = some ps →
        ∀ x, Value.WF x → Value.WF (getValidValueOrDefault ps x) :=
      fun k ps h x hx => hres_wf (.strKey k) (.obj []) ps h x hx
    rw [populateObjectDefaults.eq_def]
    split
    · rename_i req hreq
      constructor
      · exact populatePropsLoop_nodup s _ _
          (populateRequiredLoop_nodup s req f1 _ hsubwf.1)
      · exact populatePropsLoop_wf s hwfg _ _
          (fun kv h2 => hsubwf.2 kv (List.mem_of_mem_filter h2))
          (populateRequiredLoop_wf s hwfg req f1 _ hsubwf.2)
    · constructor
      · exact populatePropsLoop_nodup s _ _ hsubwf.1
      · exact populatePropsLoop_wf s hwfg _ _ hsubwf.2 hsubwf.2

end Yomichan

namespace Yomichan

/-- A successful `validate` starts with a successful `validateSingleSchema`. -/
theorem validate_ok_single {re : RegexEngine} {v : Value} {s : Schema}
    {i : JsonSchemaTraversalInfo} (h : vOk (validate re v s i).1 = true) :
    vOk (validateSingleSchema re v s i).1 = true := by
  rw [validate.eq_def] at h
  rcases hs : validateSingleSchema re v s i with ⟨a, b⟩
  rw [hs] at h
  rcases a with e | u
  · dsimp only at h
    simp [vOk] at h
  · simp [vOk]

/-- A successful `validateSingleSchema` passed the type check. -/
theorem single_ok_type {re : RegexEngine} {v : Value} {s : Schema}
    {i : JsonSchemaTraversalInfo} (h : vOk (validateSingleSchema re v s i).1 = true) :
    isValueTypeAny v (getValueType v) s.type = true := by
  rw [validateSingleSchema.eq_def] at h
  dsimp only at h
  cases ht : isValueTypeAny v (getValueType v) s.type
  · rw [ht] at h
    simp [vOk] at h
  · rfl

/-- On an object, a successful `validateSingleSchema` ran `validateObject`
successfully. -/
theorem single_ok_obj {re : RegexEngine} {s : Schema} {i : JsonSchemaTraversalInfo}
    {fields : List (String × Value)}
    (h : vOk (validateSingleSchema re (.obj fields) s i).1 = true) :
    vOk (validateObject re (.obj fields) s i).1 = true := by
  rw [validateSingleSchema.eq_def] at h
  dsimp only at h
  cases ht : isValueTypeAny (.obj fields) (getValueType (.obj fields)) s.type
  · rw [ht] at h
    simp [vOk] at h
  · rw [ht] at h
    simp only [Bool.not_true, Bool.false_eq_true, if_false] at h
    cases hc : constViolated (.obj fields) s
    · rw [hc] at h
      simp only [Bool.false_eq_true, if_false] at h
      cases he : enumViolated (.obj fields) s
      · rw [he] at h
        simp only [Bool.false_eq_true, if_false] at h
        rw [show getValueType (Value.obj fields) = "object" from rfl] at h
        rw [if_neg (by decide), if_neg (by decide), if_neg (by decide), if_pos rfl] at h
        exact h
      · rw [he] at h
        simp [vOk] at h
    · rw [hc] at h
      simp [vOk] at h

/-- On an array, a successful `validateSingleSchema` ran `validateArray`
successfully. -/
theorem single_ok_arr {re : RegexEngine} {s : Schema} {i : JsonSchemaTraversalInfo}
    {elems : List Value} {props : List (String × Value)}
    (h : vOk (validateSingleSchema re (.arr elems props) s i).1 = true) :
    vOk (validateArray re (.arr elems props) s i).1 = true := by
  rw [validateSingleSchema.eq_def] at h
  dsimp only at h
  cases ht : isValueTypeAny (.arr elems props) (getValueType (.arr elems props)) s.type
  · rw [ht] at h
    simp [vOk] at h
  · rw [ht] at h
    simp only [Bool.not_true, Bool.false_eq_true, if_false] at h
    cases hc : constViolated (.arr elems props) s
    · rw [hc] at h
      simp only [Bool.false_eq_true, if_false] at h
      cases he : enumViolated (.arr elems props) s
      · rw [he] at h
        simp only [Bool.false_eq_true, if_false] at h
        rw [show getValueType (Value.arr elems props) = "array" from rfl] at h
        rw [if_neg (by decide), if_neg (by decide), if_pos rfl] at h
        exact h
      · rw [he] at h
        simp [vOk] at h
    · rw [hc] at h
      simp [vOk] at h

/-- A successful `validateObject` passed the `required` scan and the
property loop. -/
theorem validateObject_ok {re : RegexEngine} {s : Schema} {i : JsonSchemaTraversalInfo}
    {fields : List (String × Value)}
    (h : vOk (validateObject re (.obj fields) s i).1 = true) :
    requiredMissing (fields.map Prod.fst) s = none
    ∧ vOk (validateObjectLoop re (.obj fields) s (fields.map Prod.fst) i
        (fun p => jsGetProp_obj_sizeOf fields p)).1 = true := by
  rw [validateObject.eq_def] at h
  dsimp only at h
  rcases hreq : requiredMissing (fields.map Prod.fst) s with _ | p
  all_goals rw [hreq] at h
  · dsimp only at h
    simp only [minPropertiesViolated_eq_false, maxPropertiesViolated_eq_false,
      Bool.false_eq_true, if_false] at h
    exact ⟨rfl, h⟩
  · dsimp only at h
    simp [vOk] at h

/-- A successful `validateArray` ran the element loop successfully. -/
theorem validateArray_ok {re : RegexEngine} {s : Schema} {i : JsonSchemaTraversalInfo}
    {elems : List Value} {props : List (String × Value)}
    (h : vOk (validateArray re (.arr elems props) s i).1 = true) :
    vOk (validateArrayLoop re (.arr elems props) s elems.length 0 i
      (fun j => jsIndex_arr_sizeOf elems props j)).1 = true := by
  rw [validateArray.eq_def] at h
  dsimp only at h
  split at h
  · simp [vOk] at h
  · split at h
    · simp [vOk] at h
    · exact h

/-- The property loop validated every listed name against its resolved
schema (successfully, with any traversal info). -/
theorem validateObjectLoop_ok (re : RegexEngine) (v : Value) (s : Schema) :
    ∀ (names : List String) (hvp : ∀ p, sizeOf (jsGetProp v p) < sizeOf v)
      (i : JsonSchemaTraversalInfo),
    vOk (validateObjectLoop re v s names i hvp).1 = true →
    ∀ p ∈ names, ∃ ps, (getPropertySchema s (.strKey p) v).1 = some ps
      ∧ ∀ j, vOk (validate re (jsGetProp v p) ps j).1 = true := by
  intro names
  induction names with
  | nil => intro hvp i h p hp; exact absurd hp (by simp)
  | cons q rest ih =>
      intro hvp i h p hp
      rw [validateObjectLoop.eq_def] at h
      dsimp only at h
      rcases hgp : getPropertySchema s (.strKey q) v with ⟨pso, path⟩
      rw [hgp] at h
      rcases pso with _ | ps
      · dsimp only at h
        simp [vOk] at h
      · dsimp only at h
        rcases hr : validate re (jsGetProp v q) ps
            ((i.schemaPushAll path).valuePush (.str q) (jsGetProp v q)) with ⟨r1, k1⟩
        rw [hr] at h
        rcases r1 with e | u
        · dsimp only at h
          simp [vOk] at h
        · dsimp only at h
          rcases List.mem_cons.mp hp with hpq | hpr2
          · subst hpq
            refine ⟨ps, by rw [hgp], ?_⟩
            intro j
            have hirr := vOk_validate_irrel re (sizeOf ps + sizeOf (jsGetProp v p)) ps
              (jsGetProp v p) (le_refl _) j
              ((i.schemaPushAll path).valuePush (.str p) (jsGetProp v p))
            rw [hirr, hr]
            simp [vOk]
          · exact ih hvp _ h p hpr2

/-- The element loop validated every index against its resolved schema. -/
theorem validateArrayLoop_ok (re : RegexEngine) (v : Value) (s : Schema) :
    ∀ (fuel len i2 : ℕ), len - i2 ≤ fuel →
    ∀ (hvp : ∀ j, sizeOf (jsIndex v j) < sizeOf v) (inf : JsonSchemaTraversalInfo),
    vOk (validateArrayLoop re v s len i2 inf hvp).1 = true →
    ∀ j, i2 ≤ j → j < len → ∃ ps, (getPropertySchema s (.idxKey j) v).1 = some ps
      ∧ ∀ j2, vOk (validate re (jsIndex v j) ps j2).1 = true := by
  intro fuel
  induction fuel with
  | zero =>
      intro len i2 hf hvp inf h j hij hjl
      omega
  | succ fuel ihf =>
      intro len i2 hf hvp inf h j hij hjl
      rw [validateArrayLoop.eq_def] at h
      by_cases hc : i2 < len
      · rw [dif_pos hc] at h
        dsimp only at h
        rcases hgp : getPropertySchema s (.idxKey i2) v with ⟨pso, path⟩
        rw [hgp] at h
        rcases pso with _ | ps
        · dsimp only at h
          simp [vOk] at h
        · dsimp only at h
          rcases hr : validate re (jsIndex v i2) ps
              ((inf.schemaPushAll path).valuePush (.idx i2) (jsIndex v i2)) with ⟨r1, k1⟩
          rw [hr] at h
          rcases r1 with e | u
          · dsimp only at h
            simp [vOk] at h
          · dsimp only at h
            by_cases hji : j = i2
            · subst hji
              refine ⟨ps, by rw [hgp], ?_⟩
              intro j2
              have hirr := vOk_validate_irrel re (sizeOf ps + sizeOf (jsIndex v j)) ps
                (jsIndex v j) (le_refl _) j2
                ((inf.schemaPushAll path).valuePush (.idx j) (jsIndex v j))
              rw [hirr, hr]
              simp [vOk]
            · exact ihf len (i2 + 1) (by omega) hvp _ h j (by omega) hjl
      · omega

end Yomichan

namespace Yomichan

/-- A value `validate` accepts is returned unchanged by
`getValidValueOrDefault`: it is type-valid (so the substitution phase keeps
it), and every own property/element is accepted by its resolved sub-schema,
so the population loops rewrite each with itself. -/
theorem getValidValueOrDefault_of_validate (re : RegexEngine) :
    ∀ (N : ℕ) (s : Schema) (v : Value), sizeOf s + sizeOf v ≤ N → Value.WF v →
    (∀ i, vOk (validate re v s i).1 = true) →
    getValidValueOrDefault s v = v := by
  intro N
  induction N using Nat.strong_induction_on with
  | _ N IH =>
  intro s v hN hwf hok
  have hIH : ∀ (s' : Schema) (v' : Value), sizeOf s' + sizeOf v' < sizeOf s + sizeOf v →
      Value.WF v' → (∀ i, vOk (validate re v' s' i).1 = true) →
      getValidValueOrDefault s' v' = v' := by
    intro s' v' hlt hw ho
    exact IH (sizeOf s' + sizeOf v') (by omega) s' v' (le_refl _) hw ho
  have hS := validate_ok_single (hok (JsonSchemaTraversalInfo.init v s))
  have htype := single_ok_type hS
  have hsub : substituteStep s v = v := by rw [substituteStep, if_pos htype]
  rw [getValidValueOrDefault, hsub]
  cases v with
  | obj fields =>
      dsimp only
      suffices h2 : populateObjectDefaults s fields = fields by rw [h2]
      have hwff : (fields.map Prod.fst).Nodup ∧ ∀ kv ∈ fields, Value.WF kv.2 := by
        simp only [Value.WF] at hwf
        exact hwf
      obtain ⟨hreqn, hloop⟩ := validateObject_ok (single_ok_obj hS)
      have hprops := validateObjectLoop_ok re (.obj fields) s (fields.map Prod.fst)
        (fun p => jsGetProp_obj_sizeOf fields p) _ hloop
      have hPprem : ∀ kv ∈ fields,
          ∃ ps, (getPropertySchema s (.strKey kv.1) (.obj fields)).1 = some ps
            ∧ getValidValueOrDefault ps kv.2 = kv.2
            ∧ lookupField fields kv.1 = some kv.2 := by
        intro kv hkvf
        have hknames : kv.1 ∈ fields.map Prod.fst := List.mem_map.mpr ⟨kv, hkvf, rfl⟩
        obtain ⟨ps, hres, hval⟩ := hprops kv.1 hknames
        have hlkv : lookupField fields kv.1 = some kv.2 :=
          mem_lookupField_of_nodup hwff.1 hkvf
        have hjs : jsGetProp (.obj fields) kv.1 = kv.2 := by
          rw [jsGetProp, hlkv]
          rfl
        refine ⟨ps, hres, ?_, hlkv⟩
        apply hIH ps kv.2
          (by have h3 := (getPropertySchema_sizeOf hres).1
              have h4 := sizeOf_snd_lt_of_mem hkvf
              simp only [Value.obj.sizeOf_spec]
              omega)
          (hwff.2 kv hkvf)
        intro i2
        have h5 := hval i2
        rw [hjs] at h5
        exact h5
      rw [populateObjectDefaults.eq_def]
      split
      · rename_i req hreq
        have hR : populateRequiredLoop s req fields (by rw [hreq]; rfl) = fields := by
          apply populateRequiredLoop_fix
          intro p hp ps hres
          have hpnames : p ∈ fields.map Prod.fst := requiredMissing_none hreqn hreq p hp
          obtain ⟨x, hxmem⟩ := exists_pair_of_key hpnames
          have hlx : lookupField fields p = some x := mem_lookupField_of_nodup hwff.1 hxmem
          refine ⟨x, hlx, ?_⟩
          obtain ⟨ps2, hres2, hval⟩ := hprops p hpnames
          have hps2 : ps = ps2 := by
            rw [hres] at hres2
            injection hres2
          subst hps2
          have hjs : jsGetProp (.obj fields) p = x := by
            rw [jsGetProp, hlx]
            rfl
          apply hIH ps x
            (by have h3 := (getPropertySchema_sizeOf hres).1
                have h4 : sizeOf x < sizeOf fields := sizeOf_snd_lt_of_mem hxmem
                simp only [Value.obj.sizeOf_spec]
                omega)
            (hwff.2 (p, x) hxmem)
          intro i2
          have h5 := hval i2
          rw [hjs] at h5
          exact h5
        rw [hR]
        apply populatePropsLoop_fix
        intro kv hkv
        exact hPprem kv (List.mem_of_mem_filter hkv)
      · exact populatePropsLoop_fix s fields fields hPprem
  | arr elems props2 =>
      dsimp only
      suffices h2 : populateArrayDefaults s elems props2 = elems by rw [h2]
      have hwfa : (props2.map Prod.fst).Nodup ∧ (∀ x ∈ elems, Value.WF x)
          ∧ (∀ kv ∈ props2, Value.WF kv.2) := by
        simp only [Value.WF] at hwf
        exact hwf
      have hloop := validateArray_ok (single_ok_arr hS)
      have helems := validateArrayLoop_ok re (.arr elems props2) s elems.length
        elems.length 0 (by omega) (fun j => jsIndex_arr_sizeOf elems props2 j) _ hloop
      rw [populateArrayDefaults]
      apply populateArrayLoop_fix
      intro j x hjx ps hres
      rw [Nat.zero_add] at hres
      have hjl : j < elems.length := by
        by_contra hc
        rw [List.getElem?_eq_none (by omega)] at hjx
        exact Option.noConfusion hjx
      obtain ⟨ps2, hres2, hval⟩ := helems j (by omega) hjl
      have hps2 : ps = ps2 := by
        rw [hres] at hres2
        injection hres2
      subst hps2
      have hjs : jsIndex (.arr elems props2) j = x := by
        rw [jsIndex, hjx]
        rfl
      have hxmem : x ∈ elems := List.getElem?_mem hjx
      apply hIH ps x
        (by have h3 := (getPropertySchema_sizeOf hres).1
            have h4 := List.sizeOf_lt_of_mem hxmem
            simp only [Value.arr.sizeOf_spec]
            omega)
        (hwfa.2.1 x hxmem)
      intro i2
      have h5 := hval i2
      rw [hjs] at h5
      exact h5
  | undef => rfl
  | null => rfl
  | bool b => rfl
  | num q => rfl
  | str st => rfl

end Yomichan

namespace Yomichan

/-- `getValidValueOrDefault` is idempotent on well-formed values under
well-formed schemas, by strong induction on the schema size: every resolved
sub-schema is either strictly smaller or the unconstrained fallback, whose
population phase is the identity. -/
theorem getValidValueOrDefault_idem :
    ∀ (M : ℕ) (s : Schema), sizeOf s ≤ M → Schema.WF s →
    ∀ v, Value.WF v →
    getValidValueOrDefault s (getValidValueOrDefault s v) = getValidValueOrDefault s v := by
  intro M
  induction M using Nat.strong_induction_on with
  | _ M IH =>
  intro s hM hswf v hwf
  have hres_idem : ∀ (k : PropName) (vv : Value) ps,
      (getPropertySchema s k vv).1 = some ps →
      ∀ x, Value.WF x →
        getValidValueOrDefault ps (getValidValueOrDefault ps x)
          = getValidValueOrDefault ps x := by
    intro k vv ps hps x hx
    have hpswf := getPropertySchema_wf hswf hps
    rcases getPropertySchema_sizeOf hps with ⟨hle, hlt | huncon⟩
    · exact IH (sizeOf ps) (by omega) ps (le_refl _) hpswf x hx
    · subst huncon
      rw [getValidValueOrDefault_unconstrained (sizeOf x) x (le_refl _) hx]
      rw [getValidValueOrDefault_unconstrained (sizeOf x) x (le_refl _) hx]
  have hres_wf : ∀ (k : PropName) (vv : Value) ps,
      (getPropertySchema s k vv).1 = some ps →
      ∀ x, Value.WF x → Value.WF (getValidValueOrDefault ps x) := by
    intro k vv ps hps x hx
    have hpswf := getPropertySchema_wf hswf hps
    rcases getPropertySchema_sizeOf hps with ⟨hle, hlt | huncon⟩
    · exact getValidValueOrDefault_wf (sizeOf ps) ps (le_refl _) hpswf x hx
    · subst huncon
      rw [getValidValueOrDefault_unconstrained (sizeOf x) x (le_refl _) hx]
      exact hx
  have hidemS : ∀ (k : String) ps,
      (getPropertySchema s (.strKey k) (.obj [])).1 = some ps →
      ∀ x, Value.WF x →
        getValidValueOrDefault ps (getValidValueOrDefault ps x)
          = getValidValueOrDefault ps x :=
    fun k ps h x hx => hres_idem (.strKey k) (.obj []) ps h x hx
  have hwfgS : ∀ (k : String) ps,
      (getPropertySchema s (.strKey k) (.obj [])).1 = some ps →
      ∀ x, Value.WF x → Value.WF (getValidValueOrDefault ps x) :=
    fun k ps h x hx => hres_wf (.strKey k) (.obj []) ps h x hx
  have hsubwf := substituteStep_wf hswf hwf
  rcases hsub : substituteStep s v with _ | _ | b | q | st | ⟨e1, p1⟩ | f1
  · have hg1 : getValidValueOrDefault s v = .undef := by rw [getValidValueOrDefault, hsub]
    rw [hg1, getValidValueOrDefault, substituteStep_fix hsub]
  · have hg1 : getValidValueOrDefault s v = .null := by rw [getValidValueOrDefault, hsub]
    rw [hg1, getValidValueOrDefault, substituteStep_fix hsub]
  · have hg1 : getValidValueOrDefault s v = .bool b := by rw [getValidValueOrDefault, hsub]
    rw [hg1, getValidValueOrDefault, substituteStep_fix hsub]
  · have hg1 : getValidValueOrDefault s v = .num q := by rw [getValidValueOrDefault, hsub]
    rw [hg1, getValidValueOrDefault, substituteStep_fix hsub]
  · have hg1 : getValidValueOrDefault s v = .str st := by rw [getValidValueOrDefault, hsub]
    rw [hg1, getValidValueOrDefault, substituteStep_fix hsub]
  · -- array
    rw [hsub] at hsubwf
    simp only [Value.WF] at hsubwf
    have hg1 : getValidValueOrDefault s v = .arr (populateArrayDefaults s e1 p1) p1 := by
      rw [getValidValueOrDefault, hsub]
    rw [hg1, getValidValueOrDefault,
      substituteStep_arr hsub (populateArrayDefaults s e1 p1) p1]
    dsimp only
    suffices h2 : populateArrayDefaults s (populateArrayDefaults s e1 p1) p1
        = populateArrayDefaults s e1 p1 by rw [h2]
    simp only [populateArrayDefaults]
    apply populateArrayLoop_idem s (.arr e1 p1)
      (.arr (populateArrayLoop s (.arr e1 p1) 0 e1) p1)
      (fun k => congrArg Prod.fst
        (getPropertySchema_arr_congr s (.idxKey k) _ e1 p1 p1))
    intro j x hjx ps hres
    exact hres_idem (.idxKey j) (.arr e1 p1) ps (by rw [Nat.zero_add] at hres; exact hres)
      x (hsubwf.2.1 x (List.getElem?_mem hjx))
  · -- object
    rw [hsub] at hsubwf
    simp only [Value.WF] at hsubwf
    obtain ⟨hnd1, hwf1⟩ := hsubwf
    have hg1 : getValidValueOrDefault s v = .obj (populateObjectDefaults s f1) := by
      rw [getValidValueOrDefault, hsub]
    rw [hg1, getValidValueOrDefault,
      substituteStep_obj hsub (populateObjectDefaults s f1)]
    dsimp only
    suffices h2 : populateObjectDefaults s (populateObjectDefaults s f1)
        = populateObjectDefaults s f1 by rw [h2]
    rw [populateObjectDefaults.eq_def]
    split
    · -- required present
      rename_i req hreq
      have hip : s.required.isSome = true := by rw [hreq]; rfl
      have hO : populateObjectDefaults s f1
          = populatePropsLoop s (f1.filter (fun kv => !(req.contains kv.1)))
              (populateRequiredLoop s req f1 hip) := by
        rw [populateObjectDefaults.eq_def]
        split
        · rename_i req2 hreq2
          rw [hreq] at hreq2
          injection hreq2 with hreq2
          subst hreq2
          rfl
        · rename_i hreq2
          rw [hreq] at hreq2
          exact Option.noConfusion hreq2
      have hndsnap : ((f1.filter (fun kv => !(req.contains kv.1))).map Prod.fst).Nodup :=
        hnd1.sublist ((List.filter_sublist f1).map Prod.fst)
      have hndR := populateRequiredLoop_nodup s req f1 hip hnd1
      have hnd2 : ((populateObjectDefaults s f1).map Prod.fst).Nodup := by
        rw [hO]
        exact populatePropsLoop_nodup s _ _ hndR
      have hsnap_not_req : ∀ p ∈ req,
          p ∉ (f1.filter (fun kv => !(req.contains kv.1))).map Prod.fst := by
        intro p hp hmem
        obtain ⟨x0, hx0⟩ := exists_pair_of_key hmem
        have h3 := List.mem_filter.mp hx0
        simp at h3
        exact h3.2 hp
      have hR2 : populateRequiredLoop s req (populateObjectDefaults s f1) hip
          = populateObjectDefaults s f1 := by
        apply populateRequiredLoop_fix
        intro p hp ps hres
        have hres0 : (getPropertySchema s (.strKey p) (.obj [])).1 = some ps := by
          rw [← congrArg Prod.fst
            (getPropertySchema_obj_congr s (.strKey p) (populateObjectDefaults s f1) [])]
          exact hres
        obtain ⟨y, hly, hgy, hywf⟩ := lookupField_populateRequiredLoop_mem s hidemS hwfgS
          req f1 hip hwf1 p hp ps hres0
        refine ⟨y, ?_, hgy⟩
        rw [hO]
        rw [lookupField_populatePropsLoop_not_mem s _ _ p (hsnap_not_req p hp)]
        exact hly
      rw [hR2]
      apply populatePropsLoop_fix
      intro kv hkv
      have hkvO : kv ∈ populateObjectDefaults s f1 := List.mem_of_mem_filter hkv
      have hkreq : kv.1 ∉ req := by
        have h3 := List.mem_filter.mp hkv
        simp at h3
        exact h3.2
      have hlkv : lookupField (populateObjectDefaults s f1) kv.1 = some kv.2 :=
        mem_lookupField_of_nodup hnd2 hkvO
      by_cases hk : kv.1 ∈ (f1.filter (fun kv2 => !(req.contains kv2.1))).map Prod.fst
      · obtain ⟨x0, hx0⟩ := exists_pair_of_key hk
        have hLP1 := lookupField_populatePropsLoop_mem s _
          (populateRequiredLoop s req f1 hip) kv.1 x0 hx0 hndsnap
        rw [← hO] at hLP1
        rcases hres0 : (getPropertySchema s (.strKey kv.1) (.obj [])).1 with _ | ps
        · rw [hres0] at hLP1
          rw [hlkv] at hLP1
          exact absurd hLP1 (by simp)
        · rw [hres0] at hLP1
          rw [hlkv] at hLP1
          injection hLP1 with hLP1
          have hx0wf : Value.WF x0 := hwf1 (kv.1, x0) (List.mem_of_mem_filter hx0)
          refine ⟨ps, ?_, ?_, hlkv⟩
          · rw [congrArg Prod.fst (getPropertySchema_obj_congr s (.strKey kv.1)
              (populateObjectDefaults s f1) [])]
            exact hres0
          · rw [hLP1]
            exact hidemS kv.1 ps hres0 x0 hx0wf
      · exfalso
        have hLP2 := lookupField_populatePropsLoop_not_mem s
          (f1.filter (fun kv2 => !(req.contains kv2.1)))
          (populateRequiredLoop s req f1 hip) kv.1 hk
        rw [← hO] at hLP2
        rw [hlkv] at hLP2
        have hLR2 := lookupField_populateRequiredLoop_not_mem s req f1 hip kv.1 hkreq
        rw [hLR2] at hLP2
        have hmem := lookupField_mem hLP2.symm
        apply hk
        refine List.mem_map.mpr ⟨(kv.1, kv.2), ?_, rfl⟩
        rw [List.mem_filter]
        refine ⟨hmem, ?_⟩
        simp
        exact hkreq
    · -- no required
      have hO : populateObjectDefaults s f1 = populatePropsLoop s f1 f1 := by
        rw [populateObjectDefaults.eq_def]
        split
        · rename_i req2 hreq2
          rename_i hreqn
          rw [hreqn] at hreq2
          exact Option.noConfusion hreq2
        · rfl
      have hnd2 : ((populateObjectDefaults s f1).map Prod.fst).Nodup := by
        rw [hO]
        exact populatePropsLoop_nodup s _ _ hnd1
      apply populatePropsLoop_fix
      intro kv hkv
      have hlkv : lookupField (populateObjectDefaults s f1) kv.1 = some kv.2 :=
        mem_lookupField_of_nodup hnd2 hkv
      by_cases hk : kv.1 ∈ f1.map Prod.fst
      · obtain ⟨x0, hx0⟩ := exists_pair_of_key hk
        have hLP1 := lookupField_populatePropsLoop_mem s f1 f1 kv.1 x0 hx0 hnd1
        rw [← hO] at hLP1
        rcases hres0 : (getPropertySchema s (.strKey kv.1) (.obj [])).1 with _ | ps
        · rw [hres0] at hLP1
          rw [hlkv] at hLP1
          exact absurd hLP1 (by simp)
        · rw [hres0] at hLP1
          rw [hlkv] at hLP1
          injection hLP1 with hLP1
          have hx0wf : Value.WF x0 := hwf1 (kv.1, x0) hx0
          refine ⟨ps, ?_, ?_, hlkv⟩
          · rw [congrArg Prod.fst (getPropertySchema_obj_congr s (.strKey kv.1)
              (populateObjectDefaults s f1) [])]
            exact hres0
          · rw [hLP1]
            exact hidemS kv.1 ps hres0 x0 hx0wf
      · exfalso
        have hLP2 := lookupField_populatePropsLoop_not_mem s f1 f1 kv.1 hk
        rw [← hO] at hLP2
        rw [hlkv] at hLP2
        have hmem := lookupField_mem hLP2.symm
        apply hk
        exact List.mem_map.mpr ⟨(kv.1, kv.2), hmem, rfl⟩

end Yomichan

namespace Yomichan

/-- C6: `getValidValueOrDefault` is idempotent.  A value that `validate`
accepts is returned unchanged, and applying the function to its own output
is a no-op (in this embedding `clone` is the identity on immutable trees,
so even the claim's deep-cloning caveat disappears).  Values are taken with
distinct own property names and schemas with well-formed embedded defaults,
as every JavaScript runtime object has. -/
theorem C6_getValidValueOrDefault_idempotent (re : RegexEngine) (s : Schema) (v : Value)
    (hswf : Schema.WF s) (hwf : Value.WF v) :
    (vOk (JsonSchema.validate re v s).1 = true → JsonSchema.getValidValueOrDefault s v = v)
    ∧ JsonSchema.getValidValueOrDefault s (JsonSchema.getValidValueOrDefault s v)
        = JsonSchema.getValidValueOrDefault s v := by
  constructor
  · intro hok
    rw [JsonSchema.getValidValueOrDefault]
    apply getValidValueOrDefault_of_validate re (sizeOf s + sizeOf v) s v (le_refl _) hwf
    intro i
    have hirr := vOk_validate_irrel re (sizeOf s + sizeOf v) s v (le_refl _) i
      (JsonSchemaTraversalInfo.init v s)
    rw [hirr]
    exact hok
  · simp only [JsonSchema.getValidValueOrDefault]
    exact getValidValueOrDefault_idem (sizeOf s) s (le_refl _) hswf v hwf

/-- Witness for C6 at `{type:"integer"}` and the conformant value `3`: the
repaired value is `3` itself, and a second application is a no-op. -/
theorem C6_witness :
    JsonSchema.getValidValueOrDefault intSchema (.num 3) = .num 3
    ∧ JsonSchema.getValidValueOrDefault intSchema
        (JsonSchema.getValidValueOrDefault intSchema (.num 3))
      = JsonSchema.getValidValueOrDefault intSchema (.num 3) := by
  have hswf : Schema.WF intSchema :=
    Schema.WF.intro _
      (fun d hd => by simp [intSchema, Schema.default, Schema.f] at hd)
      (fun l hl => by simp [intSchema, Schema.properties, Schema.f] at hl)
      (fun x hx => by simp [intSchema, Schema.additionalProperties, Schema.f] at hx)
      (fun x hx => by simp [intSchema, Schema.items, Schema.f] at hx)
      (fun l hl => by simp [intSchema, Schema.items, Schema.f] at hl)
      (fun x hx => by simp [intSchema, Schema.additionalItems, Schema.f] at hx)
  have hwf : Value.WF (.num 3) := by simp [Value.WF]
  have h := C6_getValidValueOrDefault_idempotent noRegex intSchema (.num 3) hswf hwf
  refine ⟨h.1 ?_, h.2⟩
  simp [JsonSchema.validate, validate, validateSingleSchema, validateConditional,
    validateAllOf, validateAnyOf, validateOneOf, validateNoneOf, validateNumber, intSchema,
    isValueTypeAny, isValueType, getValueType, jsFloorEqSelf, Schema.type, Schema.const,
    Schema.enum, Schema.f, constViolated, enumViolated, Schema.ifSchema, Schema.allOf,
    Schema.anyOf, Schema.oneOf, Schema.notSchemas, Schema.multipleOf, Schema.minimum,
    Schema.exclusiveMinimum, Schema.maximum, Schema.exclusiveMaximum, vOk,
    show ((3:ℚ).floor : ℚ) = 3 by decide]

end Yomichan
